import Mathlib

/-!
Verification of the AES-128 implementation in mario-areias/aes-go.

The Go sources are shallowly embedded: bytes become `Nat` (kept below 256 by
explicit `% 256` where Go's `byte` arithmetic wraps), byte slices become
`List Nat`, the 4x4 state matrix becomes a structure of four rows, stateful
methods on the `AES` struct become explicit state passing, and Go panics and
returned errors become an explicit result type with separate constructors.
-/

set_option maxRecDepth 200000
set_option maxHeartbeats 2000000

namespace AesGo

/-- A 4-byte word, mirroring Go's `[4]byte`. -/
structure Word where
  a : Nat
  b : Nat
  c : Nat
  d : Nat
  deriving DecidableEq, Repr

/-- A 16-byte block, mirroring Go's `[16]byte`. -/
structure Blk where
  b0 : Nat
  b1 : Nat
  b2 : Nat
  b3 : Nat
  b4 : Nat
  b5 : Nat
  b6 : Nat
  b7 : Nat
  b8 : Nat
  b9 : Nat
  b10 : Nat
  b11 : Nat
  b12 : Nat
  b13 : Nat
  b14 : Nat
  b15 : Nat
  deriving DecidableEq, Repr

/-- The 4x4 state matrix, mirroring Go's `[4][4]byte` (row-major rows). -/
structure Mat where
  r0 : Word
  r1 : Word
  r2 : Word
  r3 : Word
  deriving DecidableEq, Repr

def blkZero : Blk := ⟨0, 0, 0, 0, 0, 0, 0, 0, 0, 0, 0, 0, 0, 0, 0, 0⟩

/-- Modelled from the spec: the standard FIPS-197 Rijndael S-box table
(the Go function `sBox()` is not among the provided source files; the spec
says the two fixed 256-entry lookup tables are "the standard FIPS-197
Rijndael S-box values" and "must be reproduced bit-exact"). -/
def sBox : List Nat :=
  [0x63, 0x7c, 0x77, 0x7b, 0xf2, 0x6b, 0x6f, 0xc5, 0x30, 0x01, 0x67, 0x2b, 0xfe, 0xd7, 0xab, 0x76,
   0xca, 0x82, 0xc9, 0x7d, 0xfa, 0x59, 0x47, 0xf0, 0xad, 0xd4, 0xa2, 0xaf, 0x9c, 0xa4, 0x72, 0xc0,
   0xb7, 0xfd, 0x93, 0x26, 0x36, 0x3f, 0xf7, 0xcc, 0x34, 0xa5, 0xe5, 0xf1, 0x71, 0xd8, 0x31, 0x15,
   0x04, 0xc7, 0x23, 0xc3, 0x18, 0x96, 0x05, 0x9a, 0x07, 0x12, 0x80, 0xe2, 0xeb, 0x27, 0xb2, 0x75,
   0x09, 0x83, 0x2c, 0x1a, 0x1b, 0x6e, 0x5a, 0xa0, 0x52, 0x3b, 0xd6, 0xb3, 0x29, 0xe3, 0x2f, 0x84,
   0x53, 0xd1, 0x00, 0xed, 0x20, 0xfc, 0xb1, 0x5b, 0x6a, 0xcb, 0xbe, 0x39, 0x4a, 0x4c, 0x58, 0xcf,
   0xd0, 0xef, 0xaa, 0xfb, 0x43, 0x4d, 0x33, 0x85, 0x45, 0xf9, 0x02, 0x7f, 0x50, 0x3c, 0x9f, 0xa8,
   0x51, 0xa3, 0x40, 0x8f, 0x92, 0x9d, 0x38, 0xf5, 0xbc, 0xb6, 0xda, 0x21, 0x10, 0xff, 0xf3, 0xd2,
   0xcd, 0x0c, 0x13, 0xec, 0x5f, 0x97, 0x44, 0x17, 0xc4, 0xa7, 0x7e, 0x3d, 0x64, 0x5d, 0x19, 0x73,
   0x60, 0x81, 0x4f, 0xdc, 0x22, 0x2a, 0x90, 0x88, 0x46, 0xee, 0xb8, 0x14, 0xde, 0x5e, 0x0b, 0xdb,
   0xe0, 0x32, 0x3a, 0x0a, 0x49, 0x06, 0x24, 0x5c, 0xc2, 0xd3, 0xac, 0x62, 0x91, 0x95, 0xe4, 0x79,
   0xe7, 0xc8, 0x37, 0x6d, 0x8d, 0xd5, 0x4e, 0xa9, 0x6c, 0x56, 0xf4, 0xea, 0x65, 0x7a, 0xae, 0x08,
   0xba, 0x78, 0x25, 0x2e, 0x1c, 0xa6, 0xb4, 0xc6, 0xe8, 0xdd, 0x74, 0x1f, 0x4b, 0xbd, 0x8b, 0x8a,
   0x70, 0x3e, 0xb5, 0x66, 0x48, 0x03, 0xf6, 0x0e, 0x61, 0x35, 0x57, 0xb9, 0x86, 0xc1, 0x1d, 0x9e,
   0xe1, 0xf8, 0x98, 0x11, 0x69, 0xd9, 0x8e, 0x94, 0x9b, 0x1e, 0x87, 0xe9, 0xce, 0x55, 0x28, 0xdf,
   0x8c, 0xa1, 0x89, 0x0d, 0xbf, 0xe6, 0x42, 0x68, 0x41, 0x99, 0x2d, 0x0f, 0xb0, 0x54, 0xbb, 0x16]

/-- Modelled from the spec: the standard FIPS-197 inverse S-box table
(the Go function `invSBox()` is not among the provided source files; the
spec requires `invSBox[sBox[x]] = x` for all `x` and the standard values). -/
def invSBox : List Nat :=
  [0x52, 0x09, 0x6a, 0xd5, 0x30, 0x36, 0xa5, 0x38, 0xbf, 0x40, 0xa3, 0x9e, 0x81, 0xf3, 0xd7, 0xfb,
   0x7c, 0xe3, 0x39, 0x82, 0x9b, 0x2f, 0xff, 0x87, 0x34, 0x8e, 0x43, 0x44, 0xc4, 0xde, 0xe9, 0xcb,
   0x54, 0x7b, 0x94, 0x32, 0xa6, 0xc2, 0x23, 0x3d, 0xee, 0x4c, 0x95, 0x0b, 0x42, 0xfa, 0xc3, 0x4e,
   0x08, 0x2e, 0xa1, 0x66, 0x28, 0xd9, 0x24, 0xb2, 0x76, 0x5b, 0xa2, 0x49, 0x6d, 0x8b, 0xd1, 0x25,
   0x72, 0xf8, 0xf6, 0x64, 0x86, 0x68, 0x98, 0x16, 0xd4, 0xa4, 0x5c, 0xcc, 0x5d, 0x65, 0xb6, 0x92,
   0x6c, 0x70, 0x48, 0x50, 0xfd, 0xed, 0xb9, 0xda, 0x5e, 0x15, 0x46, 0x57, 0xa7, 0x8d, 0x9d, 0x84,
   0x90, 0xd8, 0xab, 0x00, 0x8c, 0xbc, 0xd3, 0x0a, 0xf7, 0xe4, 0x58, 0x05, 0xb8, 0xb3, 0x45, 0x06,
   0xd0, 0x2c, 0x1e, 0x8f, 0xca, 0x3f, 0x0f, 0x02, 0xc1, 0xaf, 0xbd, 0x03, 0x01, 0x13, 0x8a, 0x6b,
   0x3a, 0x91, 0x11, 0x41, 0x4f, 0x67, 0xdc, 0xea, 0x97, 0xf2, 0xcf, 0xce, 0xf0, 0xb4, 0xe6, 0x73,
   0x96, 0xac, 0x74, 0x22, 0xe7, 0xad, 0x35, 0x85, 0xe2, 0xf9, 0x37, 0xe8, 0x1c, 0x75, 0xdf, 0x6e,
   0x47, 0xf1, 0x1a, 0x71, 0x1d, 0x29, 0xc5, 0x89, 0x6f, 0xb7, 0x62, 0x0e, 0xaa, 0x18, 0xbe, 0x1b,
   0xfc, 0x56, 0x3e, 0x4b, 0xc6, 0xd2, 0x79, 0x20, 0x9a, 0xdb, 0xc0, 0xfe, 0x78, 0xcd, 0x5a, 0xf4,
   0x1f, 0xdd, 0xa8, 0x33, 0x88, 0x07, 0xc7, 0x31, 0xb1, 0x12, 0x10, 0x59, 0x27, 0x80, 0xec, 0x5f,
   0x60, 0x51, 0x7f, 0xa9, 0x19, 0xb5, 0x4a, 0x0d, 0x2d, 0xe5, 0x7a, 0x9f, 0x93, 0xc9, 0x9c, 0xef,
   0xa0, 0xe0, 0x3b, 0x4d, 0xae, 0x2a, 0xf5, 0xb0, 0xc8, 0xeb, 0xbb, 0x3c, 0x83, 0x53, 0x99, 0x61,
   0x17, 0x2b, 0x04, 0x7e, 0xba, 0x77, 0xd6, 0x26, 0xe1, 0x69, 0x14, 0x63, 0x55, 0x21, 0x0c, 0x7d]

/-- One iteration step of `gmul`'s loop: `p` is the accumulator, `a` and `b`
the mutated copies of the arguments, `n` the remaining iteration count.
Go's `a <<= 1` on a `byte` wraps, hence the `% 256`. -/
def gmulAux : Nat → Nat → Nat → Nat → Nat
  | 0, _, _, p => p
  | n + 1, a, b, p =>
    let p' := if b % 2 = 1 then p ^^^ a else p
    let hiBitSet := a / 128 % 2 = 1
    let a' := a * 2 % 256
    let a'' := if hiBitSet then a' ^^^ 0x1B else a'
    gmulAux n a'' (b / 2) p'

/-- `gmul` from aes-go: multiplication in GF(2^8), 8 loop iterations. -/
def gmul (a b : Nat) : Nat := gmulAux 8 a b 0

/-- `xor` from aes-go: componentwise XOR of two 4-byte words. -/
def xorW (a b : Word) : Word := ⟨a.a ^^^ b.a, a.b ^^^ b.b, a.c ^^^ b.c, a.d ^^^ b.d⟩

/-- `xorMatrix` from aes-go: componentwise XOR of two 4x4 matrices. -/
def xorMatrix (a b : Mat) : Mat :=
  ⟨xorW a.r0 b.r0, xorW a.r1 b.r1, xorW a.r2 b.r2, xorW a.r3 b.r3⟩

/-- `addRoundKey` from aes-go. -/
def addRoundKey (state key : Mat) : Mat := xorMatrix state key

/-- Apply the S-box to each byte of a word (helper for `subMatrix`). -/
def subW (w : Word) : Word :=
  ⟨sBox.getD w.a 0, sBox.getD w.b 0, sBox.getD w.c 0, sBox.getD w.d 0⟩

/-- `subMatrix` from aes-go: S-box substitution on every byte of the state. -/
def subMatrix (word : Mat) : Mat := ⟨subW word.r0, subW word.r1, subW word.r2, subW word.r3⟩

/-- Apply the inverse S-box to each byte of a word (helper for `invSubMatrix`). -/
def invSubW (w : Word) : Word :=
  ⟨invSBox.getD w.a 0, invSBox.getD w.b 0, invSBox.getD w.c 0, invSBox.getD w.d 0⟩

/-- `invSubMatrix` from aes-go: inverse S-box substitution on every byte. -/
def invSubMatrix (word : Mat) : Mat :=
  ⟨invSubW word.r0, invSubW word.r1, invSubW word.r2, invSubW word.r3⟩

/-- `shiftRows` from aes-go: row `r` is rotated left by `r` positions. -/
def shiftRows (state : Mat) : Mat :=
  ⟨state.r0,
   ⟨state.r1.b, state.r1.c, state.r1.d, state.r1.a⟩,
   ⟨state.r2.c, state.r2.d, state.r2.a, state.r2.b⟩,
   ⟨state.r3.d, state.r3.a, state.r3.b, state.r3.c⟩⟩

/-- `invShiftRows` from aes-go: row `r` is rotated right by `r` positions. -/
def invShiftRows (state : Mat) : Mat :=
  ⟨state.r0,
   ⟨state.r1.d, state.r1.a, state.r1.b, state.r1.c⟩,
   ⟨state.r2.c, state.r2.d, state.r2.a, state.r2.b⟩,
   ⟨state.r3.b, state.r3.c, state.r3.d, state.r3.a⟩⟩

/-- One column of `mixColumns`: the fixed GF(2^8) matrix with rows
{2,3,1,1}, {1,2,3,1}, {1,1,2,3}, {3,1,1,2} applied to a column. -/
def mixColW (s : Word) : Word :=
  ⟨gmul 0x02 s.a ^^^ gmul 0x03 s.b ^^^ s.c ^^^ s.d,
   s.a ^^^ gmul 0x02 s.b ^^^ gmul 0x03 s.c ^^^ s.d,
   s.a ^^^ s.b ^^^ gmul 0x02 s.c ^^^ gmul 0x03 s.d,
   gmul 0x03 s.a ^^^ s.b ^^^ s.c ^^^ gmul 0x02 s.d⟩

/-- Column `c` of the state (entries `s[0][c], s[1][c], s[2][c], s[3][c]`). -/
def getCol (m : Mat) (sel : Word → Nat) : Word := ⟨sel m.r0, sel m.r1, sel m.r2, sel m.r3⟩

/-- Rebuild a matrix from its four columns. -/
def fromCols (c0 c1 c2 c3 : Word) : Mat :=
  ⟨⟨c0.a, c1.a, c2.a, c3.a⟩, ⟨c0.b, c1.b, c2.b, c3.b⟩,
   ⟨c0.c, c1.c, c2.c, c3.c⟩, ⟨c0.d, c1.d, c2.d, c3.d⟩⟩

/-- `mixColumns` from aes-go: apply `mixColW` to each of the four columns. -/
def mixColumns (s : Mat) : Mat :=
  fromCols (mixColW (getCol s Word.a)) (mixColW (getCol s Word.b))
    (mixColW (getCol s Word.c)) (mixColW (getCol s Word.d))

/-- Modelled from the spec: one column of `invMixColumns`, using the standard
inverse-matrix constants {14,11,13,9}, {9,14,11,13}, {13,9,14,11}, {11,13,9,14}
(the Go function `invMixColumns` is not among the provided source files). -/
def invMixColW (s : Word) : Word :=
  ⟨gmul 0x0e s.a ^^^ gmul 0x0b s.b ^^^ gmul 0x0d s.c ^^^ gmul 0x09 s.d,
   gmul 0x09 s.a ^^^ gmul 0x0e s.b ^^^ gmul 0x0b s.c ^^^ gmul 0x0d s.d,
   gmul 0x0d s.a ^^^ gmul 0x09 s.b ^^^ gmul 0x0e s.c ^^^ gmul 0x0b s.d,
   gmul 0x0b s.a ^^^ gmul 0x0d s.b ^^^ gmul 0x09 s.c ^^^ gmul 0x0e s.d⟩

/-- Modelled from the spec: `invMixColumns` applies the inverse column mix
to each of the four columns. -/
def invMixColumns (s : Mat) : Mat :=
  fromCols (invMixColW (getCol s Word.a)) (invMixColW (getCol s Word.b))
    (invMixColW (getCol s Word.c)) (invMixColW (getCol s Word.d))

/-- `convertArrayToMatrix` from aes-go: column-major load of 16 bytes. -/
def convertArrayToMatrix (b : Blk) : Mat :=
  ⟨⟨b.b0, b.b4, b.b8, b.b12⟩, ⟨b.b1, b.b5, b.b9, b.b13⟩,
   ⟨b.b2, b.b6, b.b10, b.b14⟩, ⟨b.b3, b.b7, b.b11, b.b15⟩⟩

/-- `convertMatrixToArray` from aes-go: column-major store of the state. -/
def convertMatrixToArray (m : Mat) : Blk :=
  ⟨m.r0.a, m.r1.a, m.r2.a, m.r3.a,
   m.r0.b, m.r1.b, m.r2.b, m.r3.b,
   m.r0.c, m.r1.c, m.r2.c, m.r3.c,
   m.r0.d, m.r1.d, m.r2.d, m.r3.d⟩

/-- `rotWord` from aes-go: left-rotate a 4-byte word by one. -/
def rotWord (word : Word) : Word := ⟨word.b, word.c, word.d, word.a⟩

/-- `subWord` from aes-go: S-box each byte of a word. -/
def subWord (word : Word) : Word := subW word

/-- `rconTable` from aes-go. -/
def rconTable : List Word :=
  [⟨0x01, 0, 0, 0⟩, ⟨0x02, 0, 0, 0⟩, ⟨0x04, 0, 0, 0⟩, ⟨0x08, 0, 0, 0⟩, ⟨0x10, 0, 0, 0⟩,
   ⟨0x20, 0, 0, 0⟩, ⟨0x40, 0, 0, 0⟩, ⟨0x80, 0, 0, 0⟩, ⟨0x1B, 0, 0, 0⟩, ⟨0x36, 0, 0, 0⟩]

/-- `rcon` from aes-go: XOR the round constant `rconTable[round-1]` in. -/
def rcon (round : Nat) (word : Word) : Word :=
  xorW word (rconTable.getD (round - 1) ⟨0, 0, 0, 0⟩)

/-- The `AES` struct from aes-go. `currentRound` is an `Int` because
`previousRound` decrements it to `-1` at the end of `DecryptBlock`. -/
structure AES where
  key : Blk
  rounds : Nat
  currentRound : Int
  roundKeys : List Blk
  deriving DecidableEq, Repr

/-- `New` from aes-go: only 16-byte keys are supported (our `Blk` key type is
always 16 bytes, so the `panic("Unsupported key size")` branch is
unreachable); the schedule starts as 11 zero blocks (`make([][16]byte, 11)`). -/
def New (key : Blk) : AES := ⟨key, 10, 0, List.replicate 11 blkZero⟩

/-- Bytes 0..3 of a block as a word. -/
def blkW0 (k : Blk) : Word := ⟨k.b0, k.b1, k.b2, k.b3⟩

/-- Bytes 4..7 of a block as a word. -/
def blkW1 (k : Blk) : Word := ⟨k.b4, k.b5, k.b6, k.b7⟩

/-- Bytes 8..11 of a block as a word. -/
def blkW2 (k : Blk) : Word := ⟨k.b8, k.b9, k.b10, k.b11⟩

/-- Bytes 12..15 of a block as a word. -/
def blkW3 (k : Blk) : Word := ⟨k.b12, k.b13, k.b14, k.b15⟩

/-- Concatenate four words into a block (`append(w4, w5, w6, w7)`). -/
def wordsToBlk (w4 w5 w6 w7 : Word) : Blk :=
  ⟨w4.a, w4.b, w4.c, w4.d, w5.a, w5.b, w5.c, w5.d,
   w6.a, w6.b, w6.c, w6.d, w7.a, w7.b, w7.c, w7.d⟩

/-- `generateNewRoundKey` from aes-go: reads `a.currentRound` and derives the
round key from `a.roundKeys[a.currentRound-1]` (round 0 is the raw key). -/
def generateNewRoundKey (a : AES) : Blk :=
  if a.currentRound = 0 then a.key
  else
    let previousRoundKey := a.roundKeys.getD (a.currentRound - 1).toNat blkZero
    let w0 := blkW0 previousRoundKey
    let w1 := blkW1 previousRoundKey
    let w2 := blkW2 previousRoundKey
    let w3 := blkW3 previousRoundKey
    let t := rcon a.currentRound.toNat (subWord (rotWord w3))
    let w4 := xorW w0 t
    let w5 := xorW w4 w1
    let w6 := xorW w5 w2
    let w7 := xorW w6 w3
    wordsToBlk w4 w5 w6 w7

/-- The loop body of `generateAllKeys`, iterated `n` times: compute the next
round key, store it at index `currentRound`, advance `currentRound`. -/
def genLoop : Nat → AES → AES
  | 0, a => a
  | n + 1, a =>
    let k := generateNewRoundKey a
    let a' : AES := { a with roundKeys := a.roundKeys.set a.currentRound.toNat k }
    genLoop n { a' with currentRound := a'.currentRound + 1 }

/-- `generateAllKeys` from aes-go: reset `currentRound` to 0, then fill all
`rounds + 1` round keys. -/
def generateAllKeys (a : AES) : AES := genLoop (a.rounds + 1) { a with currentRound := 0 }

/-- `encryptRound` from aes-go: round 0 is AddRoundKey only; rounds below
`rounds` are SubBytes, ShiftRows, MixColumns, AddRoundKey; the last round
skips MixColumns. -/
def encryptRound (a : AES) (state : Mat) : Mat :=
  let key := convertArrayToMatrix (a.roundKeys.getD a.currentRound.toNat blkZero)
  if a.currentRound = 0 then addRoundKey state key
  else
    let r := shiftRows (subMatrix state)
    let r := if a.currentRound < a.rounds then mixColumns r else r
    addRoundKey r key

/-- `decryptRound` from aes-go: the `rounds` round is AddRoundKey only;
other rounds are InvShiftRows, InvSubBytes, AddRoundKey, and (except
round 0) InvMixColumns. -/
def decryptRound (a : AES) (state : Mat) : Mat :=
  let key := convertArrayToMatrix (a.roundKeys.getD a.currentRound.toNat blkZero)
  if a.currentRound = (a.rounds : Int) then addRoundKey state key
  else
    let r := addRoundKey (invSubMatrix (invShiftRows state)) key
    if 0 < a.currentRound then invMixColumns r else r

/-- The encryption loop of `EncryptBlock`, iterated `n` times: apply
`encryptRound`, then `nextRound`. -/
def encLoop : Nat → AES → Mat → AES × Mat
  | 0, a, m => (a, m)
  | n + 1, a, m =>
    let m' := encryptRound a m
    encLoop n { a with currentRound := a.currentRound + 1 } m'

/-- The decryption loop of `DecryptBlock`, iterated `n` times: apply
`decryptRound`, then `previousRound`. -/
def decLoop : Nat → AES → Mat → AES × Mat
  | 0, a, m => (a, m)
  | n + 1, a, m =>
    let m' := decryptRound a m
    decLoop n { a with currentRound := a.currentRound - 1 } m'

/-- `EncryptBlock` from aes-go: regenerate all round keys, reset
`currentRound`, run rounds 0 through `rounds`. The mutated struct is
returned alongside the final state matrix. -/
def EncryptBlock (a : AES) (b : Blk) : AES × Mat :=
  let a1 := generateAllKeys a
  let a2 : AES := { a1 with currentRound := 0 }
  encLoop (a2.rounds + 1) a2 (convertArrayToMatrix b)

/-- `DecryptBlock` from aes-go: regenerate all round keys, start at round
`rounds`, run down to round 0. -/
def DecryptBlock (a : AES) (b : Blk) : AES × Mat :=
  let a1 := generateAllKeys a
  let a2 : AES := { a1 with currentRound := (a1.rounds : Int) }
  decLoop (a2.rounds + 1) a2 (convertArrayToMatrix b)

/-! Pure characterization of the key schedule and the two block loops.
These definitions recompute exactly what the stateful code computes, but as
functions of the key alone; the `_spec` lemmas below prove the agreement. -/

/-- The round key of round `i ≥ 1` derived from the previous round key,
with the same word computation as `generateNewRoundKey`. -/
def nextRoundKey (i : Nat) (prev : Blk) : Blk :=
  let w0 := blkW0 prev
  let w1 := blkW1 prev
  let w2 := blkW2 prev
  let w3 := blkW3 prev
  let t := rcon i (subWord (rotWord w3))
  let w4 := xorW w0 t
  let w5 := xorW w4 w1
  let w6 := xorW w5 w2
  let w7 := xorW w6 w3
  wordsToBlk w4 w5 w6 w7

/-- Round key `i` as a pure function of the 16-byte key. -/
def roundKeyAt (k : Blk) : Nat → Blk
  | 0 => k
  | i + 1 => nextRoundKey (i + 1) (roundKeyAt k i)

/-- The full 11-entry round-key schedule of a key. -/
def keySchedule (k : Blk) : List Blk := (List.range 11).map (roundKeyAt k)

/-- Pure encryption round `i` (matches `encryptRound` when the schedule of
`k` is loaded and `rounds = 10`). -/
def encRoundP (k : Blk) (i : Nat) (m : Mat) : Mat :=
  let km := convertArrayToMatrix (roundKeyAt k i)
  if i = 0 then addRoundKey m km
  else
    let r := shiftRows (subMatrix m)
    let r := if i < 10 then mixColumns r else r
    addRoundKey r km

/-- Pure decryption round `i` (matches `decryptRound` when the schedule of
`k` is loaded and `rounds = 10`). -/
def decRoundP (k : Blk) (i : Nat) (m : Mat) : Mat :=
  let km := convertArrayToMatrix (roundKeyAt k i)
  if i = 10 then addRoundKey m km
  else
    let r := addRoundKey (invSubMatrix (invShiftRows m)) km
    if 0 < i then invMixColumns r else r

/-- `n` pure encryption rounds starting at round index `j`. -/
def encIter (k : Blk) : Nat → Nat → Mat → Mat
  | 0, _, m => m
  | n + 1, j, m => encIter k n (j + 1) (encRoundP k j m)

/-- `n` pure decryption rounds starting at round index `j`, counting down. -/
def decIter (k : Blk) : Nat → Nat → Mat → Mat
  | 0, _, m => m
  | n + 1, j, m => decIter k n (j - 1) (decRoundP k j m)

/-- Two `AES` values with the same four fields are equal. -/
theorem aesExt (x y : AES) (h1 : x.key = y.key) (h2 : x.rounds = y.rounds)
    (h3 : x.currentRound = y.currentRound) (h4 : x.roundKeys = y.roundKeys) : x = y := by
  cases x; cases y; simp_all

/-- Invariant-based characterization of the `generateAllKeys` loop. -/
theorem genLoop_spec (k : Blk) : ∀ (n j : Nat) (a : AES),
    a.rounds = 10 → a.key = k → a.currentRound = (j : Int) → a.roundKeys.length = 11 →
    j + n = 11 →
    (∀ i, i < j → a.roundKeys.getD i blkZero = roundKeyAt k i) →
    (genLoop n a).rounds = 10 ∧ (genLoop n a).key = k ∧
      (genLoop n a).currentRound = ((j + n : Nat) : Int) ∧
      (genLoop n a).roundKeys.length = 11 ∧
      (∀ i, i < 11 → (genLoop n a).roundKeys.getD i blkZero = roundKeyAt k i) := by
  intro n
  induction n with
  | zero =>
    intro j a hr hk hc hl hjn hinv
    refine ⟨hr, hk, by simpa using hc, hl, ?_⟩
    intro i hi
    exact hinv i (by omega)
  | succ n ih =>
    intro j a hr hk hc hl hjn hinv
    have hj11 : j < 11 := by omega
    have htoNat : a.currentRound.toNat = j := by rw [hc]; simp
    have hnewkey : generateNewRoundKey a = roundKeyAt k j := by
      unfold generateNewRoundKey
      cases j with
      | zero => simp [hc, hk, roundKeyAt]
      | succ s =>
        have hne : a.currentRound ≠ 0 := by rw [hc]; omega
        have h1 : ((a.currentRound - 1).toNat) = s := by rw [hc]; simp
        have h2 : a.currentRound.toNat = s + 1 := by rw [hc]; simp
        simp only [hne, if_neg hne, h1, h2]
        rw [hinv s (by omega)]
        rfl
    have hstep :
        genLoop (n + 1) a =
          genLoop n
            { a with
              roundKeys := a.roundKeys.set j (roundKeyAt k j),
              currentRound := a.currentRound + 1 } := by
      rw [genLoop]
      simp only [hnewkey, htoNat]
    rw [hstep]
    have := ih (j + 1)
      { a with
        roundKeys := a.roundKeys.set j (roundKeyAt k j),
        currentRound := a.currentRound + 1 }
      (by simpa using hr) (by simpa using hk)
      (by simp [hc])
      (by simpa using hl)
      (by omega)
      (by
        intro i hi
        simp only
        rcases Nat.lt_or_ge i j with hij | hij
        · rw [List.getD_eq_getElem?_getD, List.getElem?_set_ne (by omega),
            ← List.getD_eq_getElem?_getD]
          exact hinv i hij
        · have : i = j := by omega
          subst this
          rw [List.getD_eq_getElem?_getD, List.getElem?_set_self (by omega)]
          rfl)
    refine ⟨this.1, this.2.1, ?_, this.2.2.2.1, this.2.2.2.2⟩
    rw [this.2.2.1]
    push_cast
    ring

/-- `generateAllKeys` on a well-formed cipher loads exactly the pure key
schedule and leaves `currentRound` at 11. -/
theorem generateAllKeys_spec (a : AES) (k : Blk) (hk : a.key = k) (hr : a.rounds = 10)
    (hl : a.roundKeys.length = 11) :
    generateAllKeys a = { a with currentRound := 11, roundKeys := keySchedule k } := by
  obtain ⟨ky, rnds, cr, rks⟩ := a
  simp only at hk hr hl
  subst hk hr
  unfold generateAllKeys
  show genLoop 11 ⟨ky, 10, 0, rks⟩ = _
  have h := genLoop_spec ky 11 0 ⟨ky, 10, 0, rks⟩ rfl rfl (by simp) hl (by omega)
    (by intro i hi; omega)
  refine aesExt _ _ h.2.1 h.1 (by simpa using h.2.2.1) ?_
  have hlen : (genLoop 11 ⟨ky, 10, 0, rks⟩).roundKeys.length = 11 := h.2.2.2.1
  have hget := h.2.2.2.2
  apply List.ext_getElem
  · simp [hlen, keySchedule]
  · intro i hi hi'
    have hi11 : i < 11 := by
      rw [hlen] at hi
      exact hi
    have hthis := hget i hi11
    rw [List.getD_eq_getElem?_getD, List.getElem?_eq_getElem hi] at hthis
    simp only [Option.getD_some] at hthis
    simp only [hthis, keySchedule]
    simp [List.getElem_map, List.getElem_range]

/-- A cipher state that carries the full schedule of key `k`. -/
def Loaded (k : Blk) (a : AES) : Prop :=
  a.rounds = 10 ∧ a.roundKeys.length = 11 ∧
    ∀ i, i < 11 → a.roundKeys.getD i blkZero = roundKeyAt k i

/-- The encryption loop computes the pure iteration `encIter` and only
advances `currentRound`. -/
theorem encLoop_spec (k : Blk) : ∀ (n j : Nat) (a : AES) (m : Mat),
    Loaded k a → a.currentRound = (j : Int) → j + n ≤ 11 →
    encLoop n a m = ({ a with currentRound := ((j + n : Nat) : Int) }, encIter k n j m) := by
  intro n
  induction n with
  | zero =>
    intro j a m _ hc _
    simp [encLoop, encIter, ← hc]
  | succ n ih =>
    intro j a m hL hc hjn
    have hj : j ≤ 10 := by omega
    have htoNat : a.currentRound.toNat = j := by rw [hc]; simp
    have hround : encryptRound a m = encRoundP k j m := by
      unfold encryptRound encRoundP
      rw [htoNat, hL.2.2 j (by omega), hc, hL.1]
      have h0 : ((j : Int) = 0) = (j = 0) := by
        simp [Nat.cast_eq_zero]
      have hlt : ((j : Int) < ((10 : Nat) : Int)) = (j < 10) := by
        simp [Nat.cast_lt]
      simp only [h0, show ((10 : Nat) : Int) = (10 : Int) from by norm_num] at hlt ⊢
      simp only [hlt]
    rw [encLoop]
    simp only [hround, encIter]
    have hrec := ih (j + 1) { a with currentRound := a.currentRound + 1 } (encRoundP k j m)
      ⟨hL.1, hL.2.1, hL.2.2⟩ (by simp [hc]) (by omega)
    rw [hrec, show j + 1 + n = j + (n + 1) from by omega]

/-- The decryption loop computes the pure iteration `decIter` and only
decrements `currentRound`. -/
theorem decLoop_spec (k : Blk) : ∀ (n j : Nat) (a : AES) (m : Mat),
    Loaded k a → a.currentRound = (j : Int) → n ≤ j + 1 → j ≤ 10 →
    decLoop n a m = ({ a with currentRound := (j : Int) - (n : Int) }, decIter k n j m) := by
  intro n
  induction n with
  | zero =>
    intro j a m _ hc _ _
    simp [decLoop, decIter, ← hc]
  | succ n ih =>
    intro j a m hL hc hnj hj
    have htoNat : a.currentRound.toNat = j := by rw [hc]; simp
    have hround : decryptRound a m = decRoundP k j m := by
      unfold decryptRound decRoundP
      rw [htoNat, hL.2.2 j (by omega), hc, hL.1]
      have h10 : ((j : Int) = ((10 : Nat) : Int)) ↔ (j = 10) := by omega
      have hpos : ((0 : Int) < (j : Int)) ↔ (0 < j) := by omega
      simp only [h10, hpos]
    rw [decLoop]
    simp only [hround]
    cases n with
    | zero =>
      simp only [decLoop, decIter]
      congr 1
      refine aesExt _ _ rfl rfl ?_ rfl
      simp only
      omega
    | succ s =>
      have hj1 : 1 ≤ j := by omega
      have hcast : ({ a with currentRound := a.currentRound - 1 } : AES).currentRound
          = ((j - 1 : Nat) : Int) := by
        simp only
        omega
      have hrec := ih (j - 1) { a with currentRound := a.currentRound - 1 } (decRoundP k j m)
        ⟨hL.1, hL.2.1, hL.2.2⟩ hcast (by omega) (by omega)
      rw [hrec]
      simp only [decIter]
      congr 1
      refine aesExt _ _ rfl rfl ?_ rfl
      simp only
      omega

/-- `EncryptBlock` on any well-formed cipher state: the result matrix is the
pure 11-round encryption under the schedule of the stored key, and the
returned struct has `currentRound = 11` and the schedule loaded. -/
theorem EncryptBlock_spec (a : AES) (k : Blk) (b : Blk) (hk : a.key = k)
    (hr : a.rounds = 10) (hl : a.roundKeys.length = 11) :
    EncryptBlock a b =
      ({ a with currentRound := 11, roundKeys := keySchedule k },
        encIter k 11 0 (convertArrayToMatrix b)) := by
  unfold EncryptBlock
  rw [generateAllKeys_spec a k hk hr hl]
  have hL : Loaded k { a with currentRound := (0 : Int), roundKeys := keySchedule k } := by
    refine ⟨by simpa using hr, by simp [keySchedule], ?_⟩
    intro i hi
    simp only [keySchedule]
    rw [List.getD_eq_getElem?_getD, List.getElem?_eq_getElem (by simpa using hi)]
    simp [List.getElem_map, List.getElem_range]
  have := encLoop_spec k 11 0
    { a with currentRound := (0 : Int), roundKeys := keySchedule k }
    (convertArrayToMatrix b) hL (by simp) (by omega)
  simp only [hr] at this ⊢
  exact this

/-- `DecryptBlock` on any well-formed cipher state: the result matrix is the
pure 11-round decryption under the schedule of the stored key, and the
returned struct has `currentRound = -1` and the schedule loaded. -/
theorem DecryptBlock_spec (a : AES) (k : Blk) (b : Blk) (hk : a.key = k)
    (hr : a.rounds = 10) (hl : a.roundKeys.length = 11) :
    DecryptBlock a b =
      ({ a with currentRound := (-1 : Int), roundKeys := keySchedule k },
        decIter k 11 10 (convertArrayToMatrix b)) := by
  unfold DecryptBlock
  rw [generateAllKeys_spec a k hk hr hl]
  have hL : Loaded k { a with currentRound := ((10 : Nat) : Int), roundKeys := keySchedule k } := by
    refine ⟨by simpa using hr, by simp [keySchedule], ?_⟩
    intro i hi
    simp only [keySchedule]
    rw [List.getD_eq_getElem?_getD, List.getElem?_eq_getElem (by simpa using hi)]
    simp [List.getElem_map, List.getElem_range]
  have := decLoop_spec k 11 10
    { a with currentRound := ((10 : Nat) : Int), roundKeys := keySchedule k }
    (convertArrayToMatrix b) hL (by simp) (by omega) (by omega)
  simp only [hr] at this ⊢
  rw [show ((10 : Nat) : Int) - (11 : Nat) = (-1 : Int) by omega] at this
  exact this

/-! Byte ranges. Go's `byte` type keeps every value below 256; in the `Nat`
embedding this becomes an explicit validity predicate. -/

/-- All four bytes of a word are below 256. -/
def WordValid (w : Word) : Prop := w.a < 256 ∧ w.b < 256 ∧ w.c < 256 ∧ w.d < 256

/-- All sixteen entries of a state matrix are below 256. -/
def MatValid (m : Mat) : Prop :=
  WordValid m.r0 ∧ WordValid m.r1 ∧ WordValid m.r2 ∧ WordValid m.r3

/-- All sixteen bytes of a block are below 256. -/
def BlkValid (b : Blk) : Prop :=
  b.b0 < 256 ∧ b.b1 < 256 ∧ b.b2 < 256 ∧ b.b3 < 256 ∧
  b.b4 < 256 ∧ b.b5 < 256 ∧ b.b6 < 256 ∧ b.b7 < 256 ∧
  b.b8 < 256 ∧ b.b9 < 256 ∧ b.b10 < 256 ∧ b.b11 < 256 ∧
  b.b12 < 256 ∧ b.b13 < 256 ∧ b.b14 < 256 ∧ b.b15 < 256

instance (w : Word) : Decidable (WordValid w) := by unfold WordValid; infer_instance

instance (m : Mat) : Decidable (MatValid m) := by unfold MatValid; infer_instance

instance (b : Blk) : Decidable (BlkValid b) := by unfold BlkValid; infer_instance

theorem xor_lt_256 {x y : Nat} (hx : x < 256) (hy : y < 256) : x ^^^ y < 256 := by
  have h : x ^^^ y < 2 ^ 8 := Nat.xor_lt_two_pow hx hy
  omega

/-- The accumulator of `gmulAux` splits off as an XOR. -/
theorem gmulAux_acc : ∀ (n a b p : Nat), gmulAux n a b p = p ^^^ gmulAux n a b 0 := by
  intro n
  induction n with
  | zero => intro a b p; simp [gmulAux]
  | succ n ih =>
    intro a b p
    simp only [gmulAux]
    by_cases hb : b % 2 = 1
    · simp only [if_pos hb]
      rw [ih _ _ (p ^^^ a), ih _ _ (0 ^^^ a)]
      simp [Nat.xor_assoc]
    · simp only [if_neg hb]
      rw [ih _ _ p]

/-- XOR on `Nat` commutes across association (AC rewriting helper). -/
theorem xor_left_comm (a b c : Nat) : a ^^^ (b ^^^ c) = b ^^^ (a ^^^ c) := by
  rw [← Nat.xor_assoc, Nat.xor_comm a b, Nat.xor_assoc]

/-- `gmul` is XOR-linear in its second argument. -/
theorem gmul_xor_right : ∀ (n a x y : Nat),
    gmulAux n a (x ^^^ y) 0 = gmulAux n a x 0 ^^^ gmulAux n a y 0 := by
  intro n
  induction n with
  | zero => intro a x y; simp [gmulAux]
  | succ n ih =>
    intro a x y
    simp only [gmulAux]
    rw [gmulAux_acc n _ _ (if (x ^^^ y) % 2 = 1 then 0 ^^^ a else 0),
      gmulAux_acc n _ _ (if x % 2 = 1 then 0 ^^^ a else 0),
      gmulAux_acc n _ _ (if y % 2 = 1 then 0 ^^^ a else 0),
      Nat.xor_div_two, ih]
    have hx2 := Nat.mod_two_eq_zero_or_one x
    have hy2 := Nat.mod_two_eq_zero_or_one y
    have hxy : (x ^^^ y) % 2 = (x + y) % 2 := Nat.xor_mod_two_eq
    rw [Nat.add_mod] at hxy
    rcases hx2 with hx | hx <;> rcases hy2 with hy | hy <;>
      simp only [hx, hy] at hxy <;>
      simp [hxy, hx, hy, Nat.xor_assoc, Nat.xor_comm, xor_left_comm, Nat.xor_cancel_left]

/-- `gmul c` of an XOR is the XOR of the `gmul c`s. -/
theorem gmul_xor (c x y : Nat) : gmul c (x ^^^ y) = gmul c x ^^^ gmul c y :=
  gmul_xor_right 8 c x y

/-- The `gmulAux` accumulator stays a byte when `a` and `p` are bytes. -/
theorem gmulAux_lt : ∀ (n a b p : Nat), a < 256 → p < 256 → gmulAux n a b p < 256 := by
  intro n
  induction n with
  | zero => intro a b p _ hp; simpa [gmulAux] using hp
  | succ n ih =>
    intro a b p ha hp
    simp only [gmulAux]
    apply ih
    · by_cases hh : a / 128 % 2 = 1 <;>
        simp [hh, xor_lt_256 (Nat.mod_lt _ (by omega)) (by omega : (0x1B : Nat) < 256),
          Nat.mod_lt _ (by omega : (0 : Nat) < 256)]
    · by_cases hb : b % 2 = 1 <;> simp [hb, xor_lt_256 hp ha, hp]

/-- `gmul` of bytes is a byte (only the first argument needs to be one). -/
theorem gmul_lt (a b : Nat) (ha : a < 256) : gmul a b < 256 :=
  gmulAux_lt 8 a b 0 ha (by omega)

/-- Turn a kernel-checked boolean range scan into a bounded universal fact. -/
theorem of_range_all (n : Nat) (f : Nat → Bool) (h : (List.range n).all f = true) :
    ∀ x, x < n → f x = true := by
  intro x hx
  exact List.all_eq_true.mp h x (List.mem_range.mpr hx)

/-- Every S-box entry (and the out-of-range default) is a byte. -/
theorem sBox_getD_lt (x : Nat) : sBox.getD x 0 < 256 := by
  by_cases hx : x < 256
  · have h := of_range_all 256 (fun v => decide (sBox.getD v 0 < 256)) (by decide) x hx
    simpa using h
  · rw [List.getD_eq_getElem?_getD, List.getElem?_eq_none]
    · simp
    · rw [show sBox.length = 256 from by decide]
      omega

/-- Every inverse S-box entry (and the out-of-range default) is a byte. -/
theorem invSBox_getD_lt (x : Nat) : invSBox.getD x 0 < 256 := by
  by_cases hx : x < 256
  · have h := of_range_all 256 (fun v => decide (invSBox.getD v 0 < 256)) (by decide) x hx
    simpa using h
  · rw [List.getD_eq_getElem?_getD, List.getElem?_eq_none]
    · simp
    · rw [show invSBox.length = 256 from by decide]
      omega

/-- The inverse S-box inverts the S-box on every byte. -/
theorem invSBox_sBox (x : Nat) (hx : x < 256) : invSBox.getD (sBox.getD x 0) 0 = x := by
  have h := of_range_all 256 (fun v => invSBox.getD (sBox.getD v 0) 0 == v) (by decide) x hx
  simpa using h

/-- The S-box inverts the inverse S-box on every byte. -/
theorem sBox_invSBox (x : Nat) (hx : x < 256) : sBox.getD (invSBox.getD x 0) 0 = x := by
  have h := of_range_all 256 (fun v => sBox.getD (invSBox.getD v 0) 0 == v) (by decide) x hx
  simpa using h

/-! Inverse lemmas for the four state transforms. -/

theorem invShiftRows_shiftRows (m : Mat) : invShiftRows (shiftRows m) = m := rfl

theorem shiftRows_invShiftRows (m : Mat) : shiftRows (invShiftRows m) = m := rfl

/-- XOR of words cancels on the right. -/
theorem xorW_cancel (u v : Word) : xorW (xorW u v) v = u := by
  cases u; cases v
  simp [xorW, Nat.xor_cancel_right]

/-- Adding the same round key twice is the identity. -/
theorem addRoundKey_addRoundKey (s k : Mat) : addRoundKey (addRoundKey s k) k = s := by
  cases s; cases k
  simp [addRoundKey, xorMatrix, xorW_cancel]

theorem invSubW_subW (w : Word) (h : WordValid w) : invSubW (subW w) = w := by
  obtain ⟨ha, hb, hc, hd⟩ := h
  cases w
  simp only [invSubW, subW]
  rw [invSBox_sBox _ ha, invSBox_sBox _ hb, invSBox_sBox _ hc, invSBox_sBox _ hd]

theorem subW_invSubW (w : Word) (h : WordValid w) : subW (invSubW w) = w := by
  obtain ⟨ha, hb, hc, hd⟩ := h
  cases w
  simp only [invSubW, subW]
  rw [sBox_invSBox _ ha, sBox_invSBox _ hb, sBox_invSBox _ hc, sBox_invSBox _ hd]

theorem invSubMatrix_subMatrix (m : Mat) (h : MatValid m) : invSubMatrix (subMatrix m) = m := by
  obtain ⟨h0, h1, h2, h3⟩ := h
  cases m
  simp_all [invSubMatrix, subMatrix, invSubW_subW]

theorem subMatrix_invSubMatrix (m : Mat) (h : MatValid m) : subMatrix (invSubMatrix m) = m := by
  obtain ⟨h0, h1, h2, h3⟩ := h
  cases m
  simp_all [invSubMatrix, subMatrix, subW_invSubW]

/-! MixColumns and its inverse cancel: by XOR-linearity of `gmul` both column
maps are additive, so the composition is checked on single-byte columns by a
kernel range scan and extended by superposition. -/

/-- `mixColW` is additive with respect to componentwise XOR. -/
theorem mixColW_xorW (u v : Word) : mixColW (xorW u v) = xorW (mixColW u) (mixColW v) := by
  cases u; cases v
  simp only [mixColW, xorW, gmul_xor]
  congr 1 <;> simp [Nat.xor_assoc, Nat.xor_comm, xor_left_comm]

/-- `invMixColW` is additive with respect to componentwise XOR. -/
theorem invMixColW_xorW (u v : Word) :
    invMixColW (xorW u v) = xorW (invMixColW u) (invMixColW v) := by
  cases u; cases v
  simp only [invMixColW, xorW, gmul_xor]
  congr 1 <;> simp [Nat.xor_assoc, Nat.xor_comm, xor_left_comm]

/-- Any word is the XOR of its four single-byte components. -/
theorem word_decompose (w : Word) :
    w = xorW ⟨w.a, 0, 0, 0⟩ (xorW ⟨0, w.b, 0, 0⟩ (xorW ⟨0, 0, w.c, 0⟩ ⟨0, 0, 0, w.d⟩)) := by
  cases w
  simp [xorW]

/-- Kernel-checked single-byte cases of `invMixColW ∘ mixColW = id`. -/
theorem invMix_mix_single (x : Nat) (hx : x < 256) :
    invMixColW (mixColW ⟨x, 0, 0, 0⟩) = ⟨x, 0, 0, 0⟩ ∧
    invMixColW (mixColW ⟨0, x, 0, 0⟩) = ⟨0, x, 0, 0⟩ ∧
    invMixColW (mixColW ⟨0, 0, x, 0⟩) = ⟨0, 0, x, 0⟩ ∧
    invMixColW (mixColW ⟨0, 0, 0, x⟩) = ⟨0, 0, 0, x⟩ := by
  have h := of_range_all 256 (fun v =>
    decide (invMixColW (mixColW ⟨v, 0, 0, 0⟩) = ⟨v, 0, 0, 0⟩ ∧
      invMixColW (mixColW ⟨0, v, 0, 0⟩) = ⟨0, v, 0, 0⟩ ∧
      invMixColW (mixColW ⟨0, 0, v, 0⟩) = ⟨0, 0, v, 0⟩ ∧
      invMixColW (mixColW ⟨0, 0, 0, v⟩) = ⟨0, 0, 0, v⟩)) (by decide) x hx
  simpa using h

/-- Kernel-checked single-byte cases of `mixColW ∘ invMixColW = id`. -/
theorem mix_invMix_single (x : Nat) (hx : x < 256) :
    mixColW (invMixColW ⟨x, 0, 0, 0⟩) = ⟨x, 0, 0, 0⟩ ∧
    mixColW (invMixColW ⟨0, x, 0, 0⟩) = ⟨0, x, 0, 0⟩ ∧
    mixColW (invMixColW ⟨0, 0, x, 0⟩) = ⟨0, 0, x, 0⟩ ∧
    mixColW (invMixColW ⟨0, 0, 0, x⟩) = ⟨0, 0, 0, x⟩ := by
  have h := of_range_all 256 (fun v =>
    decide (mixColW (invMixColW ⟨v, 0, 0, 0⟩) = ⟨v, 0, 0, 0⟩ ∧
      mixColW (invMixColW ⟨0, v, 0, 0⟩) = ⟨0, v, 0, 0⟩ ∧
      mixColW (invMixColW ⟨0, 0, v, 0⟩) = ⟨0, 0, v, 0⟩ ∧
      mixColW (invMixColW ⟨0, 0, 0, v⟩) = ⟨0, 0, 0, v⟩)) (by decide) x hx
  simpa using h

/-- `invMixColW` undoes `mixColW` on byte-valued columns. -/
theorem invMixColW_mixColW (w : Word) (h : WordValid w) : invMixColW (mixColW w) = w := by
  obtain ⟨ha, hb, hc, hd⟩ := h
  have key : invMixColW (mixColW
      (xorW ⟨w.a, 0, 0, 0⟩ (xorW ⟨0, w.b, 0, 0⟩ (xorW ⟨0, 0, w.c, 0⟩ ⟨0, 0, 0, w.d⟩)))) =
      xorW ⟨w.a, 0, 0, 0⟩ (xorW ⟨0, w.b, 0, 0⟩ (xorW ⟨0, 0, w.c, 0⟩ ⟨0, 0, 0, w.d⟩)) := by
    rw [mixColW_xorW, mixColW_xorW, mixColW_xorW,
      invMixColW_xorW, invMixColW_xorW, invMixColW_xorW,
      (invMix_mix_single w.a ha).1, (invMix_mix_single w.b hb).2.1,
      (invMix_mix_single w.c hc).2.2.1, (invMix_mix_single w.d hd).2.2.2]
  rw [← word_decompose w] at key
  exact key

/-- `mixColW` undoes `invMixColW` on byte-valued columns. -/
theorem mixColW_invMixColW (w : Word) (h : WordValid w) : mixColW (invMixColW w) = w := by
  obtain ⟨ha, hb, hc, hd⟩ := h
  have key : mixColW (invMixColW
      (xorW ⟨w.a, 0, 0, 0⟩ (xorW ⟨0, w.b, 0, 0⟩ (xorW ⟨0, 0, w.c, 0⟩ ⟨0, 0, 0, w.d⟩)))) =
      xorW ⟨w.a, 0, 0, 0⟩ (xorW ⟨0, w.b, 0, 0⟩ (xorW ⟨0, 0, w.c, 0⟩ ⟨0, 0, 0, w.d⟩)) := by
    rw [invMixColW_xorW, invMixColW_xorW, invMixColW_xorW,
      mixColW_xorW, mixColW_xorW, mixColW_xorW,
      (mix_invMix_single w.a ha).1, (mix_invMix_single w.b hb).2.1,
      (mix_invMix_single w.c hc).2.2.1, (mix_invMix_single w.d hd).2.2.2]
  rw [← word_decompose w] at key
  exact key

/-- Columns of a valid matrix are valid words. -/
theorem getCol_valid (m : Mat) (h : MatValid m) (sel : Word → Nat)
    (hsel : ∀ w, WordValid w → sel w < 256) : WordValid (getCol m sel) :=
  ⟨hsel _ h.1, hsel _ h.2.1, hsel _ h.2.2.1, hsel _ h.2.2.2⟩

/-- `invMixColumns` undoes `mixColumns` on byte-valued states. -/
theorem invMixColumns_mixColumns (m : Mat) (h : MatValid m) :
    invMixColumns (mixColumns m) = m := by
  obtain ⟨⟨a0, b0, c0, d0⟩, ⟨a1, b1, c1, d1⟩, ⟨a2, b2, c2, d2⟩, ⟨a3, b3, c3, d3⟩⟩ := m
  obtain ⟨⟨h00, h01, h02, h03⟩, ⟨h10, h11, h12, h13⟩, ⟨h20, h21, h22, h23⟩,
    ⟨h30, h31, h32, h33⟩⟩ := h
  simp only [mixColumns, invMixColumns, getCol, fromCols]
  rw [invMixColW_mixColW ⟨a0, a1, a2, a3⟩ ⟨h00, h10, h20, h30⟩,
    invMixColW_mixColW ⟨b0, b1, b2, b3⟩ ⟨h01, h11, h21, h31⟩,
    invMixColW_mixColW ⟨c0, c1, c2, c3⟩ ⟨h02, h12, h22, h32⟩,
    invMixColW_mixColW ⟨d0, d1, d2, d3⟩ ⟨h03, h13, h23, h33⟩]

/-- `mixColumns` undoes `invMixColumns` on byte-valued states. -/
theorem mixColumns_invMixColumns (m : Mat) (h : MatValid m) :
    mixColumns (invMixColumns m) = m := by
  obtain ⟨⟨a0, b0, c0, d0⟩, ⟨a1, b1, c1, d1⟩, ⟨a2, b2, c2, d2⟩, ⟨a3, b3, c3, d3⟩⟩ := m
  obtain ⟨⟨h00, h01, h02, h03⟩, ⟨h10, h11, h12, h13⟩, ⟨h20, h21, h22, h23⟩,
    ⟨h30, h31, h32, h33⟩⟩ := h
  simp only [mixColumns, invMixColumns, getCol, fromCols]
  rw [mixColW_invMixColW ⟨a0, a1, a2, a3⟩ ⟨h00, h10, h20, h30⟩,
    mixColW_invMixColW ⟨b0, b1, b2, b3⟩ ⟨h01, h11, h21, h31⟩,
    mixColW_invMixColW ⟨c0, c1, c2, c3⟩ ⟨h02, h12, h22, h32⟩,
    mixColW_invMixColW ⟨d0, d1, d2, d3⟩ ⟨h03, h13, h23, h33⟩]

/-! Validity preservation for all transforms. -/

theorem subW_valid (w : Word) : WordValid (subW w) :=
  ⟨sBox_getD_lt _, sBox_getD_lt _, sBox_getD_lt _, sBox_getD_lt _⟩

theorem invSubW_valid (w : Word) : WordValid (invSubW w) :=
  ⟨invSBox_getD_lt _, invSBox_getD_lt _, invSBox_getD_lt _, invSBox_getD_lt _⟩

theorem subMatrix_valid (m : Mat) : MatValid (subMatrix m) :=
  ⟨subW_valid _, subW_valid _, subW_valid _, subW_valid _⟩

theorem invSubMatrix_valid (m : Mat) : MatValid (invSubMatrix m) :=
  ⟨invSubW_valid _, invSubW_valid _, invSubW_valid _, invSubW_valid _⟩

theorem shiftRows_valid (m : Mat) (h : MatValid m) : MatValid (shiftRows m) := by
  obtain ⟨⟨a0, b0, c0, d0⟩, ⟨a1, b1, c1, d1⟩, ⟨a2, b2, c2, d2⟩, ⟨a3, b3, c3, d3⟩⟩ := m
  obtain ⟨⟨h00, h01, h02, h03⟩, ⟨h10, h11, h12, h13⟩, ⟨h20, h21, h22, h23⟩,
    ⟨h30, h31, h32, h33⟩⟩ := h
  exact ⟨⟨h00, h01, h02, h03⟩, ⟨h11, h12, h13, h10⟩, ⟨h22, h23, h20, h21⟩,
    ⟨h33, h30, h31, h32⟩⟩

theorem invShiftRows_valid (m : Mat) (h : MatValid m) : MatValid (invShiftRows m) := by
  obtain ⟨⟨a0, b0, c0, d0⟩, ⟨a1, b1, c1, d1⟩, ⟨a2, b2, c2, d2⟩, ⟨a3, b3, c3, d3⟩⟩ := m
  obtain ⟨⟨h00, h01, h02, h03⟩, ⟨h10, h11, h12, h13⟩, ⟨h20, h21, h22, h23⟩,
    ⟨h30, h31, h32, h33⟩⟩ := h
  exact ⟨⟨h00, h01, h02, h03⟩, ⟨h13, h10, h11, h12⟩, ⟨h22, h23, h20, h21⟩,
    ⟨h31, h32, h33, h30⟩⟩

theorem xorW_valid (u v : Word) (hu : WordValid u) (hv : WordValid v) : WordValid (xorW u v) :=
  ⟨xor_lt_256 hu.1 hv.1, xor_lt_256 hu.2.1 hv.2.1, xor_lt_256 hu.2.2.1 hv.2.2.1,
    xor_lt_256 hu.2.2.2 hv.2.2.2⟩

theorem addRoundKey_valid (s k : Mat) (hs : MatValid s) (hk : MatValid k) :
    MatValid (addRoundKey s k) :=
  ⟨xorW_valid _ _ hs.1 hk.1, xorW_valid _ _ hs.2.1 hk.2.1, xorW_valid _ _ hs.2.2.1 hk.2.2.1,
    xorW_valid _ _ hs.2.2.2 hk.2.2.2⟩

theorem mixColW_valid (w : Word) (h : WordValid w) : WordValid (mixColW w) := by
  obtain ⟨ha, hb, hc, hd⟩ := h
  exact
    ⟨xor_lt_256 (xor_lt_256 (xor_lt_256 (gmul_lt _ _ (by omega)) (gmul_lt _ _ (by omega))) hc) hd,
     xor_lt_256 (xor_lt_256 (xor_lt_256 ha (gmul_lt _ _ (by omega))) (gmul_lt _ _ (by omega))) hd,
     xor_lt_256 (xor_lt_256 (xor_lt_256 ha hb) (gmul_lt _ _ (by omega))) (gmul_lt _ _ (by omega)),
     xor_lt_256 (xor_lt_256 (xor_lt_256 (gmul_lt _ _ (by omega)) hb) hc) (gmul_lt _ _ (by omega))⟩

theorem invMixColW_valid (w : Word) (h : WordValid w) : WordValid (invMixColW w) := by
  obtain ⟨ha, hb, hc, hd⟩ := h
  refine ⟨?_, ?_, ?_, ?_⟩ <;>
    exact xor_lt_256 (xor_lt_256 (xor_lt_256 (gmul_lt _ _ (by omega)) (gmul_lt _ _ (by omega)))
      (gmul_lt _ _ (by omega))) (gmul_lt _ _ (by omega))

theorem getColA_valid (m : Mat) (h : MatValid m) : WordValid (getCol m Word.a) :=
  ⟨h.1.1, h.2.1.1, h.2.2.1.1, h.2.2.2.1⟩

theorem getColB_valid (m : Mat) (h : MatValid m) : WordValid (getCol m Word.b) :=
  ⟨h.1.2.1, h.2.1.2.1, h.2.2.1.2.1, h.2.2.2.2.1⟩

theorem getColC_valid (m : Mat) (h : MatValid m) : WordValid (getCol m Word.c) :=
  ⟨h.1.2.2.1, h.2.1.2.2.1, h.2.2.1.2.2.1, h.2.2.2.2.2.1⟩

theorem getColD_valid (m : Mat) (h : MatValid m) : WordValid (getCol m Word.d) :=
  ⟨h.1.2.2.2, h.2.1.2.2.2, h.2.2.1.2.2.2, h.2.2.2.2.2.2⟩

theorem fromCols_valid (c0 c1 c2 c3 : Word) (h0 : WordValid c0) (h1 : WordValid c1)
    (h2 : WordValid c2) (h3 : WordValid c3) : MatValid (fromCols c0 c1 c2 c3) :=
  ⟨⟨h0.1, h1.1, h2.1, h3.1⟩, ⟨h0.2.1, h1.2.1, h2.2.1, h3.2.1⟩,
    ⟨h0.2.2.1, h1.2.2.1, h2.2.2.1, h3.2.2.1⟩, ⟨h0.2.2.2, h1.2.2.2, h2.2.2.2, h3.2.2.2⟩⟩

theorem mixColumns_valid (m : Mat) (h : MatValid m) : MatValid (mixColumns m) :=
  fromCols_valid _ _ _ _ (mixColW_valid _ (getColA_valid m h)) (mixColW_valid _ (getColB_valid m h))
    (mixColW_valid _ (getColC_valid m h)) (mixColW_valid _ (getColD_valid m h))

theorem invMixColumns_valid (m : Mat) (h : MatValid m) : MatValid (invMixColumns m) :=
  fromCols_valid _ _ _ _ (invMixColW_valid _ (getColA_valid m h))
    (invMixColW_valid _ (getColB_valid m h)) (invMixColW_valid _ (getColC_valid m h))
    (invMixColW_valid _ (getColD_valid m h))

theorem convertArrayToMatrix_valid (b : Blk) (h : BlkValid b) :
    MatValid (convertArrayToMatrix b) := by
  obtain ⟨h0, h1, h2, h3, h4, h5, h6, h7, h8, h9, h10, h11, h12, h13, h14, h15⟩ := h
  exact ⟨⟨h0, h4, h8, h12⟩, ⟨h1, h5, h9, h13⟩, ⟨h2, h6, h10, h14⟩, ⟨h3, h7, h11, h15⟩⟩

theorem convertMatrixToArray_valid (m : Mat) (h : MatValid m) :
    BlkValid (convertMatrixToArray m) := by
  obtain ⟨⟨a0, b0, c0, d0⟩, ⟨a1, b1, c1, d1⟩, ⟨a2, b2, c2, d2⟩, ⟨a3, b3, c3, d3⟩⟩ := m
  obtain ⟨⟨h00, h01, h02, h03⟩, ⟨h10, h11, h12, h13⟩, ⟨h20, h21, h22, h23⟩,
    ⟨h30, h31, h32, h33⟩⟩ := h
  exact ⟨h00, h10, h20, h30, h01, h11, h21, h31, h02, h12, h22, h32, h03, h13, h23, h33⟩

theorem rconW_valid (i : Nat) : WordValid (rconTable.getD i ⟨0, 0, 0, 0⟩) := by
  match i with
  | 0 | 1 | 2 | 3 | 4 | 5 | 6 | 7 | 8 | 9 => exact by decide
  | n + 10 =>
    rw [List.getD_eq_getElem?_getD,
      List.getElem?_eq_none (by rw [show rconTable.length = 10 from by decide]; omega)]
    exact ⟨by decide, by decide, by decide, by decide⟩

theorem blkW_valid (b : Blk) (h : BlkValid b) :
    WordValid (blkW0 b) ∧ WordValid (blkW1 b) ∧ WordValid (blkW2 b) ∧ WordValid (blkW3 b) := by
  obtain ⟨h0, h1, h2, h3, h4, h5, h6, h7, h8, h9, h10, h11, h12, h13, h14, h15⟩ := h
  exact ⟨⟨h0, h1, h2, h3⟩, ⟨h4, h5, h6, h7⟩, ⟨h8, h9, h10, h11⟩, ⟨h12, h13, h14, h15⟩⟩

theorem wordsToBlk_valid (w4 w5 w6 w7 : Word) (h4 : WordValid w4) (h5 : WordValid w5)
    (h6 : WordValid w6) (h7 : WordValid w7) : BlkValid (wordsToBlk w4 w5 w6 w7) :=
  ⟨h4.1, h4.2.1, h4.2.2.1, h4.2.2.2, h5.1, h5.2.1, h5.2.2.1, h5.2.2.2,
    h6.1, h6.2.1, h6.2.2.1, h6.2.2.2, h7.1, h7.2.1, h7.2.2.1, h7.2.2.2⟩

theorem nextRoundKey_valid (i : Nat) (prev : Blk) (h : BlkValid prev) :
    BlkValid (nextRoundKey i prev) := by
  obtain ⟨hw0, hw1, hw2, hw3⟩ := blkW_valid prev h
  have ht : WordValid (rcon i (subWord (rotWord (blkW3 prev)))) :=
    xorW_valid _ _ (subW_valid _) (rconW_valid _)
  have h4 := xorW_valid _ _ hw0 ht
  have h5 := xorW_valid _ _ h4 hw1
  have h6 := xorW_valid _ _ h5 hw2
  have h7 := xorW_valid _ _ h6 hw3
  exact wordsToBlk_valid _ _ _ _ h4 h5 h6 h7

theorem roundKeyAt_valid (k : Blk) (hk : BlkValid k) : ∀ i, BlkValid (roundKeyAt k i) := by
  intro i
  induction i with
  | zero => exact hk
  | succ n ih => exact nextRoundKey_valid _ _ ih

theorem encRoundP_valid (k : Blk) (i : Nat) (m : Mat) (hk : BlkValid k) (hm : MatValid m) :
    MatValid (encRoundP k i m) := by
  have hkm : MatValid (convertArrayToMatrix (roundKeyAt k i)) :=
    convertArrayToMatrix_valid _ (roundKeyAt_valid k hk i)
  unfold encRoundP
  by_cases h0 : i = 0
  · simp only [if_pos h0]
    exact addRoundKey_valid _ _ hm hkm
  · simp only [if_neg h0]
    by_cases hlt : i < 10 <;>
      simp only [if_pos, if_neg, hlt, if_true, if_false] <;>
      [exact addRoundKey_valid _ _
        (mixColumns_valid _ (shiftRows_valid _ (subMatrix_valid _))) hkm;
       exact addRoundKey_valid _ _ (shiftRows_valid _ (subMatrix_valid _)) hkm]

theorem decRoundP_valid (k : Blk) (i : Nat) (m : Mat) (hk : BlkValid k) (hm : MatValid m) :
    MatValid (decRoundP k i m) := by
  have hkm : MatValid (convertArrayToMatrix (roundKeyAt k i)) :=
    convertArrayToMatrix_valid _ (roundKeyAt_valid k hk i)
  unfold decRoundP
  by_cases h0 : i = 10
  · simp only [if_pos h0]
    exact addRoundKey_valid _ _ hm hkm
  · simp only [if_neg h0]
    by_cases hlt : 0 < i <;>
      simp only [if_pos, if_neg, hlt, if_true, if_false] <;>
      [exact invMixColumns_valid _
        (addRoundKey_valid _ _ (invSubMatrix_valid _) hkm);
       exact addRoundKey_valid _ _ (invSubMatrix_valid _) hkm]

/-! The block-level inverse theorems: each decryption round undoes the
matching encryption round, assembled over the fixed 11-round structure. -/

/-- Round 10 of decryption undoes round 10 of encryption up to the final
ShiftRows/SubBytes pair. -/
theorem decEnc10 (k : Blk) (z : Mat) :
    decRoundP k 10 (encRoundP k 10 z) = shiftRows (subMatrix z) := by
  unfold encRoundP decRoundP
  simp
  rw [addRoundKey_addRoundKey]

/-- A middle decryption round undoes the matching encryption round. -/
theorem midCancel (k : Blk) (i : Nat) (hi0 : i ≠ 0) (hi10 : i < 10) (hk : BlkValid k)
    (y : Mat) :
    decRoundP k i (shiftRows (subMatrix (encRoundP k i y))) = shiftRows (subMatrix y) := by
  have hkm : MatValid (convertArrayToMatrix (roundKeyAt k i)) :=
    convertArrayToMatrix_valid _ (roundKeyAt_valid k hk i)
  have h10 : ¬ i = 10 := by omega
  have hpos : 0 < i := by omega
  unfold encRoundP decRoundP
  simp only [if_neg hi0, if_pos hi10, if_neg h10, if_pos hpos]
  rw [invShiftRows_shiftRows,
    invSubMatrix_subMatrix _
      (addRoundKey_valid _ _ (mixColumns_valid _ (shiftRows_valid _ (subMatrix_valid _))) hkm),
    addRoundKey_addRoundKey,
    invMixColumns_mixColumns _ (shiftRows_valid _ (subMatrix_valid _))]

/-- Round 0 of decryption undoes round 0 of encryption. -/
theorem botCancel (k : Blk) (m : Mat) (hk : BlkValid k) (hm : MatValid m) :
    decRoundP k 0 (shiftRows (subMatrix (encRoundP k 0 m))) = m := by
  have hkm : MatValid (convertArrayToMatrix (roundKeyAt k 0)) :=
    convertArrayToMatrix_valid _ (roundKeyAt_valid k hk 0)
  unfold encRoundP decRoundP
  simp
  rw [invShiftRows_shiftRows, invSubMatrix_subMatrix _ (addRoundKey_valid _ _ hm hkm),
    addRoundKey_addRoundKey]

/-- The full 11-round decryption undoes the full 11-round encryption on any
byte-valued state, for every byte-valued key. -/
theorem decIter_encIter (k : Blk) (m : Mat) (hk : BlkValid k) (hm : MatValid m) :
    decIter k 11 10 (encIter k 11 0 m) = m := by
  show decRoundP k 0 (decRoundP k 1 (decRoundP k 2 (decRoundP k 3 (decRoundP k 4 (decRoundP k 5 (decRoundP k 6 (decRoundP k 7 (decRoundP k 8 (decRoundP k 9 (decRoundP k 10 (encRoundP k 10 (encRoundP k 9 (encRoundP k 8 (encRoundP k 7 (encRoundP k 6 (encRoundP k 5 (encRoundP k 4 (encRoundP k 3 (encRoundP k 2 (encRoundP k 1 (encRoundP k 0 (m)))))))))))))))))))))) = m
  rw [decEnc10 k _]
  rw [midCancel k 9 (by omega) (by omega) hk _]
  rw [midCancel k 8 (by omega) (by omega) hk _]
  rw [midCancel k 7 (by omega) (by omega) hk _]
  rw [midCancel k 6 (by omega) (by omega) hk _]
  rw [midCancel k 5 (by omega) (by omega) hk _]
  rw [midCancel k 4 (by omega) (by omega) hk _]
  rw [midCancel k 3 (by omega) (by omega) hk _]
  rw [midCancel k 2 (by omega) (by omega) hk _]
  rw [midCancel k 1 (by omega) (by omega) hk _]
  exact botCancel k m hk hm

/-- Round 0 of encryption undoes round 0 of decryption up to the final
inverse ShiftRows/SubBytes pair. -/
theorem encDec0 (k : Blk) (w : Mat) :
    encRoundP k 0 (decRoundP k 0 w) = invSubMatrix (invShiftRows w) := by
  unfold encRoundP decRoundP
  simp
  rw [addRoundKey_addRoundKey]

/-- A middle encryption round undoes the matching decryption round. -/
theorem midCancel2 (k : Blk) (i : Nat) (hi0 : i ≠ 0) (hi10 : i < 10) (w : Mat)
    (hk : BlkValid k) :
    encRoundP k i (invSubMatrix (invShiftRows (decRoundP k i w))) =
      invSubMatrix (invShiftRows w) := by
  have hkm : MatValid (convertArrayToMatrix (roundKeyAt k i)) :=
    convertArrayToMatrix_valid _ (roundKeyAt_valid k hk i)
  have h10 : ¬ i = 10 := by omega
  have hpos : 0 < i := by omega
  unfold encRoundP decRoundP
  simp only [if_neg hi0, if_pos hi10, if_neg h10, if_pos hpos]
  rw [subMatrix_invSubMatrix _
      (invShiftRows_valid _
        (invMixColumns_valid _ (addRoundKey_valid _ _ (invSubMatrix_valid _) hkm))),
    shiftRows_invShiftRows,
    mixColumns_invMixColumns _ (addRoundKey_valid _ _ (invSubMatrix_valid _) hkm),
    addRoundKey_addRoundKey]

/-- Round 10 of encryption undoes round 10 of decryption. -/
theorem topCancel2 (k : Blk) (c : Mat) (hk : BlkValid k) (hc : MatValid c) :
    encRoundP k 10 (invSubMatrix (invShiftRows (decRoundP k 10 c))) = c := by
  have hkm : MatValid (convertArrayToMatrix (roundKeyAt k 10)) :=
    convertArrayToMatrix_valid _ (roundKeyAt_valid k hk 10)
  unfold encRoundP decRoundP
  simp
  rw [subMatrix_invSubMatrix _ (invShiftRows_valid _ (addRoundKey_valid _ _ hc hkm)),
    shiftRows_invShiftRows, addRoundKey_addRoundKey]

/-- The full 11-round encryption undoes the full 11-round decryption on any
byte-valued state, for every byte-valued key. -/
theorem encIter_decIter (k : Blk) (c : Mat) (hk : BlkValid k) (hc : MatValid c) :
    encIter k 11 0 (decIter k 11 10 c) = c := by
  show encRoundP k 10 (encRoundP k 9 (encRoundP k 8 (encRoundP k 7 (encRoundP k 6 (encRoundP k 5 (encRoundP k 4 (encRoundP k 3 (encRoundP k 2 (encRoundP k 1 (encRoundP k 0 (decRoundP k 0 (decRoundP k 1 (decRoundP k 2 (decRoundP k 3 (decRoundP k 4 (decRoundP k 5 (decRoundP k 6 (decRoundP k 7 (decRoundP k 8 (decRoundP k 9 (decRoundP k 10 (c)))))))))))))))))))))) = c
  rw [encDec0 k _]
  rw [midCancel2 k 1 (by omega) (by omega) _ hk]
  rw [midCancel2 k 2 (by omega) (by omega) _ hk]
  rw [midCancel2 k 3 (by omega) (by omega) _ hk]
  rw [midCancel2 k 4 (by omega) (by omega) _ hk]
  rw [midCancel2 k 5 (by omega) (by omega) _ hk]
  rw [midCancel2 k 6 (by omega) (by omega) _ hk]
  rw [midCancel2 k 7 (by omega) (by omega) _ hk]
  rw [midCancel2 k 8 (by omega) (by omega) _ hk]
  rw [midCancel2 k 9 (by omega) (by omega) _ hk]
  exact topCancel2 k c hk hc

/-- Array-to-matrix conversion round trip, array side. -/
theorem convertMatrixToArray_convertArrayToMatrix (b : Blk) :
    convertMatrixToArray (convertArrayToMatrix b) = b := rfl

/-- Array-to-matrix conversion round trip, matrix side. -/
theorem convertArrayToMatrix_convertMatrixToArray (m : Mat) :
    convertArrayToMatrix (convertMatrixToArray m) = m := rfl

/-- C1: for every 16-byte key and every 16-byte block `b`,
`DecryptBlock (EncryptBlock b) = b` and `EncryptBlock (DecryptBlock b) = b`,
composing through `convertMatrixToArray` since the block functions return the
4x4 state, and threading the mutated cipher struct from the first call into
the second exactly as Go method calls on the same receiver would. -/
theorem C1_block_roundtrip (k b : Blk) (hk : BlkValid k) (hb : BlkValid b) :
    convertMatrixToArray
        (DecryptBlock (EncryptBlock (New k) b).1
          (convertMatrixToArray (EncryptBlock (New k) b).2)).2 = b ∧
    convertMatrixToArray
        (EncryptBlock (DecryptBlock (New k) b).1
          (convertMatrixToArray (DecryptBlock (New k) b).2)).2 = b := by
  have hNewLen : (New k).roundKeys.length = 11 := by simp [New]
  have hSchedLen : (keySchedule k).length = 11 := by simp [keySchedule]
  constructor
  · rw [EncryptBlock_spec (New k) k b rfl rfl hNewLen]
    simp only
    rw [DecryptBlock_spec _ k _ rfl rfl (by simpa using hSchedLen)]
    simp only
    rw [convertArrayToMatrix_convertMatrixToArray,
      decIter_encIter k _ hk (convertArrayToMatrix_valid b hb),
      convertMatrixToArray_convertArrayToMatrix]
  · rw [DecryptBlock_spec (New k) k b rfl rfl hNewLen]
    simp only
    rw [EncryptBlock_spec _ k _ rfl rfl (by simpa using hSchedLen)]
    simp only
    rw [convertArrayToMatrix_convertMatrixToArray,
      encIter_decIter k _ hk (convertArrayToMatrix_valid b hb),
      convertMatrixToArray_convertArrayToMatrix]

/-- Witness for C1 at a concrete key and block. -/
theorem C1_block_roundtrip_witness :
    convertMatrixToArray
        (DecryptBlock
          (EncryptBlock (New ⟨0, 1, 2, 3, 4, 5, 6, 7, 8, 9, 10, 11, 12, 13, 14, 15⟩)
            ⟨0x32, 0x43, 0xf6, 0xa8, 0x88, 0x5a, 0x30, 0x8d,
             0x31, 0x31, 0x98, 0xa2, 0xe0, 0x37, 0x07, 0x34⟩).1
          (convertMatrixToArray
            (EncryptBlock (New ⟨0, 1, 2, 3, 4, 5, 6, 7, 8, 9, 10, 11, 12, 13, 14, 15⟩)
              ⟨0x32, 0x43, 0xf6, 0xa8, 0x88, 0x5a, 0x30, 0x8d,
               0x31, 0x31, 0x98, 0xa2, 0xe0, 0x37, 0x07, 0x34⟩).2)).2 =
      ⟨0x32, 0x43, 0xf6, 0xa8, 0x88, 0x5a, 0x30, 0x8d,
       0x31, 0x31, 0x98, 0xa2, 0xe0, 0x37, 0x07, 0x34⟩ ∧
    convertMatrixToArray
        (EncryptBlock
          (DecryptBlock (New ⟨0, 1, 2, 3, 4, 5, 6, 7, 8, 9, 10, 11, 12, 13, 14, 15⟩)
            ⟨0x32, 0x43, 0xf6, 0xa8, 0x88, 0x5a, 0x30, 0x8d,
             0x31, 0x31, 0x98, 0xa2, 0xe0, 0x37, 0x07, 0x34⟩).1
          (convertMatrixToArray
            (DecryptBlock (New ⟨0, 1, 2, 3, 4, 5, 6, 7, 8, 9, 10, 11, 12, 13, 14, 15⟩)
              ⟨0x32, 0x43, 0xf6, 0xa8, 0x88, 0x5a, 0x30, 0x8d,
               0x31, 0x31, 0x98, 0xa2, 0xe0, 0x37, 0x07, 0x34⟩).2)).2 =
      ⟨0x32, 0x43, 0xf6, 0xa8, 0x88, 0x5a, 0x30, 0x8d,
       0x31, 0x31, 0x98, 0xa2, 0xe0, 0x37, 0x07, 0x34⟩ :=
  C1_block_roundtrip _ _ (by decide) (by decide)

/-- C2: `EncryptBlock` reproduces the FIPS-197 known-answer vectors: key
`000102030405060708090a0b0c0d0e0f` maps `00112233445566778899aabbccddeeff`
to `69c4e0d86a7b0430d8cdb78070b4c55a` (Appendix C.1), and key
`2b7e151628aed2a6abf7158809cf4f3c` maps `3243f6a8885a308d313198a2e0370734`
to `3925841d02dc09fbdc118597196a0b32` (Appendix B). -/
theorem C2_fips197_vectors :
    convertMatrixToArray
        (EncryptBlock
          (New ⟨0x00, 0x01, 0x02, 0x03, 0x04, 0x05, 0x06, 0x07,
                0x08, 0x09, 0x0a, 0x0b, 0x0c, 0x0d, 0x0e, 0x0f⟩)
          ⟨0x00, 0x11, 0x22, 0x33, 0x44, 0x55, 0x66, 0x77,
           0x88, 0x99, 0xaa, 0xbb, 0xcc, 0xdd, 0xee, 0xff⟩).2 =
      ⟨0x69, 0xc4, 0xe0, 0xd8, 0x6a, 0x7b, 0x04, 0x30,
       0xd8, 0xcd, 0xb7, 0x80, 0x70, 0xb4, 0xc5, 0x5a⟩ ∧
    convertMatrixToArray
        (EncryptBlock
          (New ⟨0x2b, 0x7e, 0x15, 0x16, 0x28, 0xae, 0xd2, 0xa6,
                0xab, 0xf7, 0x15, 0x88, 0x09, 0xcf, 0x4f, 0x3c⟩)
          ⟨0x32, 0x43, 0xf6, 0xa8, 0x88, 0x5a, 0x30, 0x8d,
           0x31, 0x31, 0x98, 0xa2, 0xe0, 0x37, 0x07, 0x34⟩).2 =
      ⟨0x39, 0x25, 0x84, 0x1d, 0x02, 0xdc, 0x09, 0xfb,
       0xdc, 0x11, 0x85, 0x97, 0x19, 0x6a, 0x0b, 0x32⟩ :=
  ⟨by decide, by decide⟩

/-- C5 as written is false on this code: `New` stores 11 zero blocks rather
than a derived schedule, and `EncryptBlock` both recomputes the schedule and
mutates `currentRound` (leaving it at 11). Concrete disproof at the zero key
and zero block. -/
theorem C5_counterexample :
    (New blkZero).roundKeys.getD 1 blkZero ≠ roundKeyAt blkZero 1 ∧
    (EncryptBlock (New blkZero) blkZero).1.currentRound ≠ (New blkZero).currentRound := by
  constructor
  · decide
  · decide

/-- C5 amended: the schedule is recomputed by `generateAllKeys` at the start
of every `EncryptBlock`/`DecryptBlock` call and the calls mutate the struct
(`currentRound` ends at 11 after encryption and -1 after decryption, and
`roundKeys` is overwritten with the schedule); the recomputation is
deterministic, so every call on a well-formed struct with key `k` uses the
same schedule `keySchedule k` and the output block depends only on the key
and the input. -/
theorem C5_schedule_recomputed (a : AES) (k b : Blk) (hk : a.key = k)
    (hr : a.rounds = 10) (hl : a.roundKeys.length = 11) :
    (EncryptBlock a b).1 = { a with currentRound := 11, roundKeys := keySchedule k } ∧
    (DecryptBlock a b).1 = { a with currentRound := -1, roundKeys := keySchedule k } ∧
    (EncryptBlock a b).2 = encIter k 11 0 (convertArrayToMatrix b) ∧
    (DecryptBlock a b).2 = decIter k 11 10 (convertArrayToMatrix b) := by
  rw [EncryptBlock_spec a k b hk hr hl, DecryptBlock_spec a k b hk hr hl]
  exact ⟨rfl, rfl, rfl, rfl⟩

/-- Witness for the amended C5 at the zero key and zero block. -/
theorem C5_schedule_recomputed_witness :
    (EncryptBlock (New blkZero) blkZero).1 =
      { New blkZero with currentRound := 11, roundKeys := keySchedule blkZero } ∧
    (DecryptBlock (New blkZero) blkZero).1 =
      { New blkZero with currentRound := -1, roundKeys := keySchedule blkZero } ∧
    (EncryptBlock (New blkZero) blkZero).2 =
      encIter blkZero 11 0 (convertArrayToMatrix blkZero) ∧
    (DecryptBlock (New blkZero) blkZero).2 =
      decIter blkZero 11 10 (convertArrayToMatrix blkZero) :=
  C5_schedule_recomputed (New blkZero) blkZero blkZero rfl rfl (by decide)

/-! The mode-of-operation layer. Byte slices are `List Nat`; a Go `panic`
and a returned `error` are distinguished as two failure constructors. -/

/-- A Go failure: either a returned `error` value or a `panic`. -/
inductive Fail where
  | err (msg : String)
  | panik (msg : String)
  deriving DecidableEq, Repr

/-- Result of a fallible (or panicking) Go function. -/
abbrev Res (α : Type) := Except Fail α

/-- Bytes of a slice are all below 256. -/
def ValidBytes (l : List Nat) : Prop := ∀ x, x ∈ l → x < 256

instance (l : List Nat) : Decidable (ValidBytes l) := by
  unfold ValidBytes
  infer_instance

/-- `split` from aes-go: cut a slice into 16-byte chunks (last may be short). -/
def split (plainText : List Nat) : List (List Nat) :=
  if h : plainText = [] then []
  else
    have : (plainText.drop 16).length < plainText.length := by
      have : 0 < plainText.length := List.length_pos.mpr h
      simp only [List.length_drop]
      omega
    plainText.take 16 :: split (plainText.drop 16)
termination_by plainText.length

/-- `join` from aes-go: concatenate blocks. -/
def join : List (List Nat) → List Nat
  | [] => []
  | block :: rest => block ++ join rest

/-- Go's `[16]byte(slice)` conversion: panics (`none`) when the slice is
shorter than 16, otherwise takes the first 16 bytes. -/
def listToBlock (l : List Nat) : Option Blk :=
  if l.length < 16 then none
  else
    some ⟨l.getD 0 0, l.getD 1 0, l.getD 2 0, l.getD 3 0,
          l.getD 4 0, l.getD 5 0, l.getD 6 0, l.getD 7 0,
          l.getD 8 0, l.getD 9 0, l.getD 10 0, l.getD 11 0,
          l.getD 12 0, l.getD 13 0, l.getD 14 0, l.getD 15 0⟩

/-- Go's `c[:]` on a `[16]byte`: the 16 bytes as a slice. -/
def blkToList (b : Blk) : List Nat :=
  [b.b0, b.b1, b.b2, b.b3, b.b4, b.b5, b.b6, b.b7,
   b.b8, b.b9, b.b10, b.b11, b.b12, b.b13, b.b14, b.b15]

/-- `xorBytes` from aes-go: XOR up to the shorter length (`minLen` loop). -/
def xorBytes (a b : List Nat) : List Nat := List.zipWith (fun x y => x ^^^ y) a b

/-- `padding` from aes-go: a 16-byte block gets a full extra `0x10` block;
a shorter block is filled up to 16 bytes with the byte value `16 - len`
(Go's `byte(r)` wraps, hence the `% 256` on the `Int` difference). -/
def padding (block : List Nat) : List Nat :=
  if block.length = 16 then block ++ List.replicate 16 0x10
  else
    block.take 16 ++
      List.replicate (16 - block.length) (((16 - (block.length : Int)) % 256).toNat)

/-- `RemovePadding` from aes-go. The Go code reads `blocks[len(blocks)-1]`
and `b[len(b)-1]`, which panic on an empty input; the `begin < 0` check in
the source is unreachable because `p > len(last)` already returned. -/
def RemovePadding (b : List Nat) : Res (List Nat) :=
  match (split b).getLast? with
  | none => .error (.panik "index out of range")
  | some last =>
    let p := b.getLast?.getD 0
    if p = 0 ∨ last.length < p then .error (.err "Invalid padding")
    else
      let start := last.length - p
      if (last.drop start).all (fun x => x == p) then
        .ok (join ((split b).dropLast ++ [last.take start]))
      else .error (.err "Invalid padding")

/-- Helper for `addOneToByteSlice`: increment a little-endian (reversed)
byte list; `none` when every byte was 255. -/
def incRev : List Nat → Option (List Nat)
  | [] => none
  | x :: rest => if x < 255 then some ((x + 1) :: rest) else (incRev rest).map (fun r => 0 :: r)

/-- `addOneToByteSlice` from aes-go: big-endian increment from the last byte
leftward; on overflow of every byte, prepend a 1 (the bytes all became 0). -/
def addOneToByteSlice (b : List Nat) : List Nat :=
  match incRev b.reverse with
  | some r => r.reverse
  | none => 1 :: List.replicate b.length 0

/-- `createBlocks` from aes-go: split, then pad the last block (indexing
`blocks[len(blocks)-1]` panics on empty input). -/
def createBlocks (b : List Nat) : Res (List (List Nat)) :=
  let blocks := split b
  match blocks.getLast? with
  | none => .error (.panik "index out of range")
  | some last =>
    let paddedLast := padding last
    if paddedLast.length = 16 then .ok (blocks.dropLast ++ [paddedLast])
    else if paddedLast.length = 32 then
      let bs := split paddedLast
      .ok (blocks.dropLast ++ [bs.getD 0 [], bs.getD 1 []])
    else .ok blocks

/-- The block loop of `encryptECB`, threading the mutated struct. -/
def encryptBlocksECB (a : AES) : List (List Nat) → Res (AES × List Nat)
  | [] => .ok (a, [])
  | bl :: rest =>
    match listToBlock bl with
    | none => .error (.panik "slice to 16-byte array conversion")
    | some blk =>
      let r := EncryptBlock a blk
      match encryptBlocksECB r.1 rest with
      | .error e => .error e
      | .ok (a2, s) => .ok (a2, blkToList (convertMatrixToArray r.2) ++ s)

/-- `encryptECB` from aes-go. -/
def encryptECB (a : AES) (plainText : List Nat) : Res (AES × List Nat) :=
  match createBlocks plainText with
  | .error e => .error e
  | .ok blocks => encryptBlocksECB a blocks

/-- The block loop of `encryptCBC`: XOR with the previous ciphertext block,
encrypt, chain. -/
def encryptBlocksCBC (a : AES) (prev : List Nat) : List (List Nat) → Res (AES × List Nat)
  | [] => .ok (a, [])
  | bl :: rest =>
    let x := xorBytes bl prev
    match listToBlock x with
    | none => .error (.panik "slice to 16-byte array conversion")
    | some blk =>
      let r := EncryptBlock a blk
      let s := blkToList (convertMatrixToArray r.2)
      match encryptBlocksCBC r.1 s rest with
      | .error e => .error e
      | .ok (a2, t) => .ok (a2, s ++ t)

/-- `encryptCBC` from aes-go: pad, check the IV length (panic otherwise),
chain-encrypt, and prepend the IV. -/
def encryptCBC (a : AES) (plainText iv : List Nat) : Res (AES × List Nat) :=
  match createBlocks plainText with
  | .error e => .error e
  | .ok blocks =>
    if iv.length ≠ 16 then .error (.panik "IV must have 16 bytes")
    else
      match encryptBlocksCBC a iv blocks with
      | .error e => .error e
      | .ok (a2, r) => .ok (a2, iv ++ r)

/-- The block loop of `encryptCTR`: encrypt the counter, XOR with the block,
increment the counter. -/
def encryptBlocksCTR (a : AES) (counter : List Nat) : List (List Nat) → Res (AES × List Nat)
  | [] => .ok (a, [])
  | bl :: rest =>
    match listToBlock counter with
    | none => .error (.panik "slice to 16-byte array conversion")
    | some cb =>
      let r := EncryptBlock a cb
      let s := blkToList (convertMatrixToArray r.2)
      let x := xorBytes bl s
      match encryptBlocksCTR r.1 (addOneToByteSlice counter) rest with
      | .error e => .error e
      | .ok (a2, t) => .ok (a2, x ++ t)

/-- `encryptCTR` from aes-go: no padding; the counter is prepended. -/
def encryptCTR (a : AES) (plainText counter : List Nat) : Res (AES × List Nat) :=
  match encryptBlocksCTR a counter (split plainText) with
  | .error e => .error e
  | .ok (a2, r) => .ok (a2, counter ++ r)

/-- The block loop of `decryptCBC`: decrypt, XOR with the previous
ciphertext block, chain. -/
def decryptBlocksCBC (a : AES) (prev : List Nat) : List (List Nat) → Res (AES × List Nat)
  | [] => .ok (a, [])
  | bl :: rest =>
    match listToBlock bl with
    | none => .error (.panik "slice to 16-byte array conversion")
    | some blk =>
      let r := DecryptBlock a blk
      let s := xorBytes (blkToList (convertMatrixToArray r.2)) prev
      match decryptBlocksCBC r.1 bl rest with
      | .error e => .error e
      | .ok (a2, t) => .ok (a2, s ++ t)

/-- `decryptCBC` from aes-go: chain-decrypt then validate and strip the
padding; a padding failure is returned as an error. -/
def decryptCBC (a : AES) (encrypted iv : List Nat) : Res (AES × List Nat) :=
  if iv.length ≠ 16 then .error (.panik "IV must have 16 bytes")
  else
    match decryptBlocksCBC a iv (split encrypted) with
    | .error e => .error e
    | .ok (a2, r) =>
      match RemovePadding r with
      | .error e => .error e
      | .ok b => .ok (a2, b)

/-- The block loop of `decryptECB`. -/
def decryptBlocksECB (a : AES) : List (List Nat) → Res (AES × List Nat)
  | [] => .ok (a, [])
  | bl :: rest =>
    match listToBlock bl with
    | none => .error (.panik "slice to 16-byte array conversion")
    | some blk =>
      let r := DecryptBlock a blk
      match decryptBlocksECB r.1 rest with
      | .error e => .error e
      | .ok (a2, s) => .ok (a2, blkToList (convertMatrixToArray r.2) ++ s)

/-- `decryptECB` from aes-go: decrypt blockwise then remove padding; a
padding error becomes `panic(err)`. -/
def decryptECB (a : AES) (encrypted : List Nat) : Res (AES × List Nat) :=
  match decryptBlocksECB a (split encrypted) with
  | .error e => .error e
  | .ok (a2, r) =>
    match RemovePadding r with
    | .error (.panik s) => .error (.panik s)
    | .error (.err s) => .error (.panik s)
    | .ok b => .ok (a2, b)

/-- The Go `Mode` constants (an `int` in the source, so unknown selectors
are representable and hit the `Invalid mode` branch). -/
abbrev Mode := Nat

def ECB : Mode := 0

def CBC : Mode := 1

def CTR : Mode := 2

/-- `Encrypt` from aes-go. The source draws a 16-byte random IV/nonce from
`key.Bit128()` inside the CBC/CTR branches; that random draw is modelled as
the explicit argument `rand`. -/
def Encrypt (a : AES) (rand : List Nat) (mode : Mode) (plaintext : List Nat) :
    Res (AES × List Nat) :=
  if mode = ECB then encryptECB a plaintext
  else if mode = CBC then encryptCBC a plaintext rand
  else if mode = CTR then encryptCTR a plaintext rand
  else .error (.err "Invalid mode")

/-- `Decrypt` from aes-go: CBC needs at least 32 bytes, CTR more than 16;
CTR decryption reuses `encryptCTR` and strips the prepended nonce. -/
def Decrypt (a : AES) (mode : Mode) (encrypted : List Nat) : Res (AES × List Nat) :=
  if mode = ECB then decryptECB a encrypted
  else if mode = CBC then
    if encrypted.length < 32 then
      .error (.err "Invalid encrypted text. Must have at least 2 blocks: iv + encrypted block")
    else decryptCBC a (encrypted.drop 16) (encrypted.take 16)
  else if mode = CTR then
    if encrypted.length ≤ 16 then
      .error (.err "Invalid encrypted text. Must have at least 2 blocks: nonce + encrypted block")
    else
      match encryptCTR a (encrypted.drop 16) (encrypted.take 16) with
      | .error e => .error e
      | .ok (a2, d) => .ok (a2, d.drop 16)
  else .error (.err "Invalid mode")

/-- Big-endian value of a byte string (for the CTR counter claim). -/
def beVal (b : List Nat) : Nat := b.foldl (fun acc d => 256 * acc + d) 0

/-- Little-endian value of a byte string (helper for `beVal` proofs). -/
def leVal : List Nat → Nat
  | [] => 0
  | x :: r => x + 256 * leVal r

instance {α : Type} [DecidableEq α] : DecidableEq (Res α) := fun x y =>
  match x, y with
  | .ok a, .ok b =>
    if h : a = b then isTrue (by rw [h])
    else isFalse (by intro hh; injection hh; contradiction)
  | .ok _, .error _ => isFalse (by intro hh; injection hh)
  | .error _, .ok _ => isFalse (by intro hh; injection hh)
  | .error e, .error f =>
    if h : e = f then isTrue (by rw [h])
    else isFalse (by intro hh; injection hh; contradiction)

/-! Structural lemmas about `split` and `join`. -/

theorem split_nil : split [] = [] := by
  rw [split]
  simp

theorem split_eq_cons (b : List Nat) (hb : b ≠ []) :
    split b = b.take 16 :: split (b.drop 16) := by
  rw [split]
  simp [hb]

theorem split_append_16 (u v : List Nat) (hu : u.length = 16) :
    split (u ++ v) = u :: split v := by
  have hne : u ++ v ≠ [] := by
    intro h
    rcases List.append_eq_nil.mp h with ⟨h1, _⟩
    rw [h1] at hu
    simp at hu
  rw [split_eq_cons _ hne]
  congr 1
  · rw [List.take_append_eq_append_take, hu]
    simp [List.take_of_length_le (le_of_eq hu)]
  · rw [List.drop_append_eq_append_drop, hu]
    simp [List.drop_of_length_le (le_of_eq hu)]

/-- `split` distributes over appending a multiple-of-16 prefix. -/
theorem split_append_mult16 : ∀ (n : Nat) (u v : List Nat), u.length ≤ n →
    u.length % 16 = 0 → split (u ++ v) = split u ++ split v := by
  intro n
  induction n with
  | zero =>
    intro u v hu _
    have : u = [] := by
      cases u with
      | nil => rfl
      | cons x r => simp at hu
    subst this
    simp [split_nil]
  | succ n ih =>
    intro u v hun hu
    by_cases hue : u = []
    · subst hue
      simp [split_nil]
    · have hlen : 16 ≤ u.length := by
        rcases Nat.lt_or_ge u.length 16 with h | h
        · interval_cases hl : u.length <;> simp_all
        · exact h
      have htake : (u.take 16).length = 16 := by
        simp [List.length_take]
        omega
      calc split (u ++ v) = split (u.take 16 ++ (u.drop 16 ++ v)) := by
              rw [← List.append_assoc, List.take_append_drop]
        _ = u.take 16 :: split (u.drop 16 ++ v) := split_append_16 _ _ htake
        _ = u.take 16 :: (split (u.drop 16) ++ split v) := by
              rw [ih (u.drop 16) v (by simp; omega) (by simp; omega)]
        _ = split u ++ split v := by rw [split_eq_cons u hue]; simp

theorem join_append (xs ys : List (List Nat)) : join (xs ++ ys) = join xs ++ join ys := by
  induction xs with
  | nil => simp [join]
  | cons x r ih => simp [join, ih]

theorem join_split : ∀ (n : Nat) (b : List Nat), b.length ≤ n → join (split b) = b := by
  intro n
  induction n with
  | zero =>
    intro b hb
    have : b = [] := by
      cases b with
      | nil => rfl
      | cons x r => simp at hb
    subst this
    simp [split_nil, join]
  | succ n ih =>
    intro b hb
    by_cases hbe : b = []
    · subst hbe
      simp [split_nil, join]
    · rw [split_eq_cons b hbe, join, ih (b.drop 16) (by simp; omega), List.take_append_drop]

/-- Every chunk produced by `split` on a multiple-of-16 buffer has 16 bytes. -/
theorem split_mult16_lengths : ∀ (n : Nat) (b : List Nat), b.length ≤ n →
    b.length % 16 = 0 → ∀ bl, bl ∈ split b → bl.length = 16 := by
  intro n
  induction n with
  | zero =>
    intro b hb _ bl hbl
    have : b = [] := by
      cases b with
      | nil => rfl
      | cons x r => simp at hb
    subst this
    rw [split_nil] at hbl
    simp at hbl
  | succ n ih =>
    intro b hb hmod bl hbl
    by_cases hbe : b = []
    · subst hbe
      rw [split_nil] at hbl
      simp at hbl
    · have hlen : 16 ≤ b.length := by
        rcases Nat.lt_or_ge b.length 16 with h | h
        · interval_cases hl : b.length <;> simp_all
        · exact h
      rw [split_eq_cons b hbe] at hbl
      rcases List.mem_cons.mp hbl with h | h
      · rw [h]
        simp [List.length_take]
        omega
      · exact ih (b.drop 16) (by simp; omega) (by simp; omega) bl h

/-- Dropping all but the last `q` elements of an append lands in the suffix. -/
theorem drop_long_suffix (u v : List Nat) (q : Nat) (hq : q ≤ v.length) :
    (u ++ v).drop ((u ++ v).length - q) = v.drop (v.length - q) := by
  have hnil : u.drop (u.length + v.length - q) = [] := List.drop_eq_nil_of_le (by omega)
  rw [List.drop_append_eq_append_drop, List.length_append, hnil]
  simp only [List.nil_append]
  congr 1
  omega

/-- Taking all but the last `q` elements of an append keeps the prefix. -/
theorem take_long_prefix (u v : List Nat) (q : Nat) (hq : q ≤ v.length) :
    (u ++ v).take ((u ++ v).length - q) = u ++ v.take (v.length - q) := by
  have htk : u.take (u.length + v.length - q) = u := List.take_of_length_le (by omega)
  have harg : u.length + v.length - q - u.length = v.length - q := by omega
  rw [List.take_append_eq_append_take, List.length_append, htk, harg]

/-- A nonempty multiple-of-16 buffer splits into the blocks of its prefix
plus its final 16-byte block. -/
theorem buffer_decomp (b : List Nat) (hmod : b.length % 16 = 0) (hpos : 0 < b.length) :
    split b = split (b.take (b.length - 16)) ++ [b.drop (b.length - 16)] ∧
    (b.drop (b.length - 16)).length = 16 := by
  have h16 : 16 ≤ b.length := by omega
  have htake_len : (b.take (b.length - 16)).length = b.length - 16 := by
    simp [List.length_take]
  have hdrop_len : (b.drop (b.length - 16)).length = 16 := by
    simp [List.length_drop]
    omega
  refine ⟨?_, hdrop_len⟩
  conv_lhs => rw [← List.take_append_drop (b.length - 16) b]
  rw [split_append_mult16 b.length _ _ (by rw [htake_len]; omega) (by rw [htake_len]; omega)]
  congr 1
  rw [split_eq_cons _ (by intro h; rw [h] at hdrop_len; simp at hdrop_len),
    List.take_of_length_le (le_of_eq hdrop_len), List.drop_eq_nil_of_le (le_of_eq hdrop_len),
    split_nil]

/-- Full characterization of `RemovePadding` on buffers whose length is a
positive multiple of 16 (shared helper for the padding claims). -/
theorem removePadding_spec (b : List Nat) (p : Nat) (hmod : b.length % 16 = 0)
    (hpos : 0 < b.length) (hp : b.getLast? = some p) :
    (RemovePadding b = .error (.err "Invalid padding") ↔
      (p = 0 ∨ 16 < p ∨ ((16 : Int) - p < 0) ∨ ∃ x ∈ b.drop (b.length - p), x ≠ p)) ∧
    ((¬ (p = 0 ∨ 16 < p ∨ ((16 : Int) - p < 0) ∨ ∃ x ∈ b.drop (b.length - p), x ≠ p)) →
      RemovePadding b = .ok (b.take (b.length - p))) := by
  have h16 : 16 ≤ b.length := by omega
  obtain ⟨hsplit, hlast_len⟩ := buffer_decomp b hmod hpos
  set u := b.take (b.length - 16) with hu
  set last := b.drop (b.length - 16) with hlast
  have hu_len : u.length = b.length - 16 := by
    rw [hu]
    simp [List.length_take]
  have hlast_ne : last ≠ [] := by
    intro h
    rw [h] at hlast_len
    simp at hlast_len
  have hgl : (split b).getLast? = some last := by
    rw [hsplit]
    exact List.getLast?_concat _
  have hbgl : b.getLast? = last.getLast? := by
    conv_lhs => rw [← List.take_append_drop (b.length - 16) b]
    rw [List.getLast?_append, ← hlast]
    cases hcase : last.getLast? with
    | none => exact absurd (List.getLast?_eq_none_iff.mp hcase) hlast_ne
    | some x => rfl
  have hb_eq : b = u ++ last := (List.take_append_drop _ b).symm
  have hdrop_eq : ∀ q : Nat, q ≤ 16 → b.drop (b.length - q) = last.drop (16 - q) := by
    intro q hq
    have h := drop_long_suffix u last q (by rw [hlast_len]; omega)
    rw [hlast_len] at h
    rw [hb_eq]
    exact h
  have htake_eq : ∀ q : Nat, q ≤ 16 → b.take (b.length - q) = u ++ last.take (16 - q) := by
    intro q hq
    have h := take_long_prefix u last q (by rw [hlast_len]; omega)
    rw [hlast_len] at h
    rw [hb_eq]
    exact h
  have hjoin_u : join (split u) = u := join_split u.length u le_rfl
  have hRP : RemovePadding b =
      (if p = 0 ∨ last.length < p then .error (.err "Invalid padding")
       else if (last.drop (last.length - p)).all (fun x => x == p) then
         .ok (join ((split b).dropLast ++ [last.take (last.length - p)]))
       else .error (.err "Invalid padding")) := by
    unfold RemovePadding
    rw [hgl, hbgl]
    simp only [Option.getD_some]
    cases hcase : last.getLast? with
    | none => exact absurd (List.getLast?_eq_none_iff.mp hcase) hlast_ne
    | some x =>
      rw [hcase] at hbgl
      have : x = p := by
        rw [hbgl] at hp
        injection hp
      subst this
      rfl
  rw [hlast_len] at hRP
  constructor
  · rw [hRP]
    by_cases h1 : p = 0 ∨ 16 < p
    · rw [if_pos h1]
      constructor
      · intro _
        rcases h1 with h | h
        · exact Or.inl h
        · exact Or.inr (Or.inl h)
      · intro _
        rfl
    · rw [if_neg h1]
      push_neg at h1
      have hple : p ≤ 16 := by omega
      by_cases h2 : (last.drop (16 - p)).all (fun x => x == p) = true
      · rw [if_pos h2]
        simp only [List.all_eq_true, beq_iff_eq] at h2
        constructor
        · intro hcontra
          exact absurd hcontra (by simp)
        · intro hcond
          rcases hcond with h | h | h | ⟨x, hx, hxp⟩
          · exact absurd h h1.1
          · omega
          · omega
          · rw [hdrop_eq p hple] at hx
            exact absurd (h2 x hx) hxp
      · rw [if_neg h2]
        simp only [List.all_eq_true, beq_iff_eq] at h2
        push_neg at h2
        obtain ⟨x, hx, hxp⟩ := h2
        constructor
        · intro _
          refine Or.inr (Or.inr (Or.inr ⟨x, ?_, hxp⟩))
          rw [hdrop_eq p hple]
          exact hx
        · intro _
          rfl
  · intro hcond
    push_neg at hcond
    obtain ⟨hp0, hple', _, hall⟩ := hcond
    have hple : p ≤ 16 := by omega
    rw [hRP, if_neg (by push_neg; omega),
      if_pos (by
        simp only [List.all_eq_true, beq_iff_eq]
        intro x hx
        refine hall x ?_
        rw [hdrop_eq p hple]
        exact hx),
      hsplit, List.dropLast_concat, htake_eq p hple, join_append, hjoin_u, join]
    simp [join]

/-- C6: on a buffer whose length is a positive multiple of 16,
`RemovePadding` errors exactly when the last byte `p` is 0, or `p` exceeds
the 16-byte final block, or the computed start index would be negative, or
one of the last `p` bytes differs from `p`; otherwise it returns the buffer
with its last `p` bytes removed. -/
theorem C6_removePadding_spec (b : List Nat) (p : Nat) (hmod : b.length % 16 = 0)
    (hpos : 0 < b.length) (hp : b.getLast? = some p) :
    (RemovePadding b = .error (.err "Invalid padding") ↔
      (p = 0 ∨ 16 < p ∨ ((16 : Int) - p < 0) ∨ ∃ x ∈ b.drop (b.length - p), x ≠ p)) ∧
    ((¬ (p = 0 ∨ 16 < p ∨ ((16 : Int) - p < 0) ∨ ∃ x ∈ b.drop (b.length - p), x ≠ p)) →
      RemovePadding b = .ok (b.take (b.length - p))) :=
  removePadding_spec b p hmod hpos hp

/-- Witness for C6: a buffer with a single valid padding byte. -/
theorem C6_removePadding_spec_witness :
    (RemovePadding [7, 7, 7, 7, 7, 7, 7, 7, 7, 7, 7, 7, 7, 7, 7, 1] =
        .error (.err "Invalid padding") ↔
      ((1 : Nat) = 0 ∨ 16 < (1 : Nat) ∨ ((16 : Int) - (1 : Nat) < 0) ∨
        ∃ x ∈ ([7, 7, 7, 7, 7, 7, 7, 7, 7, 7, 7, 7, 7, 7, 7, 1] : List Nat).drop
          (([7, 7, 7, 7, 7, 7, 7, 7, 7, 7, 7, 7, 7, 7, 7, 1] : List Nat).length - 1),
          x ≠ 1)) ∧
    ((¬ ((1 : Nat) = 0 ∨ 16 < (1 : Nat) ∨ ((16 : Int) - (1 : Nat) < 0) ∨
        ∃ x ∈ ([7, 7, 7, 7, 7, 7, 7, 7, 7, 7, 7, 7, 7, 7, 7, 1] : List Nat).drop
          (([7, 7, 7, 7, 7, 7, 7, 7, 7, 7, 7, 7, 7, 7, 7, 1] : List Nat).length - 1),
          x ≠ 1)) →
      RemovePadding [7, 7, 7, 7, 7, 7, 7, 7, 7, 7, 7, 7, 7, 7, 7, 1] =
        .ok (([7, 7, 7, 7, 7, 7, 7, 7, 7, 7, 7, 7, 7, 7, 7, 1] : List Nat).take
          (([7, 7, 7, 7, 7, 7, 7, 7, 7, 7, 7, 7, 7, 7, 7, 1] : List Nat).length - 1))) :=
  C6_removePadding_spec [7, 7, 7, 7, 7, 7, 7, 7, 7, 7, 7, 7, 7, 7, 7, 1] 1
    (by decide) (by decide) (by decide)

/-- `RemovePadding` strips a well-formed padding run (shared helper). -/
theorem removePadding_pad (u : List Nat) (n : Nat) (h1 : 1 ≤ n) (h16 : n ≤ 16)
    (hmod : (u.length + n) % 16 = 0) :
    RemovePadding (u ++ List.replicate n n) = .ok u := by
  have hlen : (u ++ List.replicate n n).length = u.length + n := by
    simp [List.length_append, List.length_replicate]
  have hp : (u ++ List.replicate n n).getLast? = some n := by
    rw [List.getLast?_append, List.getLast?_replicate, if_neg (by omega)]
    rfl
  have hspec := removePadding_spec (u ++ List.replicate n n) n
    (by rw [hlen]; exact hmod) (by rw [hlen]; omega) hp
  have hdrop : (u ++ List.replicate n n).drop ((u ++ List.replicate n n).length - n) =
      List.replicate n n := by
    rw [hlen, Nat.add_sub_cancel, List.drop_left' (rfl)]
  have hnone : ¬ ((n = 0 ∨ 16 < n ∨ ((16 : Int) - n < 0) ∨
      ∃ x ∈ (u ++ List.replicate n n).drop ((u ++ List.replicate n n).length - n), x ≠ n)) := by
    push_neg
    refine ⟨by omega, by omega, by omega, ?_⟩
    intro x hx
    rw [hdrop] at hx
    exact (List.mem_replicate.mp hx).2
  have := hspec.2 hnone
  rw [hlen, Nat.add_sub_cancel, List.take_left' (rfl)] at this
  exact this

/-- The padding byte written by `padding` on a short block is `16 - len`. -/
theorem padByte_eq (l : Nat) (h : l < 16) :
    (((16 : Int) - (l : Int)) % 256).toNat = 16 - l := by
  omega

/-- C7: `RemovePadding` undoes `padding` on any block of at most 16 bytes;
a 16-byte block gains a full 0x10 block (32 bytes total) and a shorter block
is filled to exactly 16 bytes with the value `16 - len`. -/
theorem C7_padding_roundtrip (block : List Nat) (hlen : block.length ≤ 16) :
    RemovePadding (padding block) = .ok block ∧
    (block.length = 16 →
      padding block = block ++ List.replicate 16 16 ∧ (padding block).length = 32) ∧
    (block.length < 16 →
      padding block = block ++ List.replicate (16 - block.length) (16 - block.length) ∧
      (padding block).length = 16) := by
  by_cases h16 : block.length = 16
  · have hpad : padding block = block ++ List.replicate 16 16 := by
      unfold padding
      rw [if_pos h16]
    refine ⟨?_, fun _ => ⟨hpad, by rw [hpad]; simp [h16]⟩, fun h => absurd h (by omega)⟩
    rw [hpad]
    exact removePadding_pad block 16 (by omega) (by omega) (by omega)
  · have hlt : block.length < 16 := by omega
    have hpad : padding block =
        block ++ List.replicate (16 - block.length) (16 - block.length) := by
      unfold padding
      rw [if_neg h16, List.take_of_length_le hlen, padByte_eq _ hlt]
    refine ⟨?_, fun h => absurd h h16, fun _ => ⟨hpad, by rw [hpad]; simp; omega⟩⟩
    rw [hpad]
    exact removePadding_pad block (16 - block.length) (by omega) (by omega) (by omega)

/-- Witness for C7 at a concrete 3-byte block. -/
theorem C7_padding_roundtrip_witness :
    RemovePadding (padding [1, 2, 3]) = .ok [1, 2, 3] ∧
    (([1, 2, 3] : List Nat).length = 16 →
      padding [1, 2, 3] = [1, 2, 3] ++ List.replicate 16 16 ∧
      (padding [1, 2, 3]).length = 32) ∧
    (([1, 2, 3] : List Nat).length < 16 →
      padding [1, 2, 3] =
        [1, 2, 3] ++ List.replicate (16 - ([1, 2, 3] : List Nat).length)
          (16 - ([1, 2, 3] : List Nat).length) ∧
      (padding [1, 2, 3]).length = 16) :=
  C7_padding_roundtrip [1, 2, 3] (by decide)

/-! Counter increment (C8). -/

theorem beVal_append_singleton (l : List Nat) (x : Nat) :
    beVal (l ++ [x]) = 256 * beVal l + x := by
  simp [beVal, List.foldl_append]

theorem beVal_eq_leVal_reverse (b : List Nat) : beVal b = leVal b.reverse := by
  induction b using List.reverseRecOn with
  | nil => simp [beVal, leVal]
  | append_singleton l x ih =>
    rw [beVal_append_singleton, List.reverse_append]
    simp only [List.reverse_cons, List.reverse_nil, List.nil_append, List.singleton_append]
    rw [leVal, ← ih]
    omega

theorem incRev_none_iff (l : List Nat) : incRev l = none ↔ ∀ x ∈ l, ¬ x < 255 := by
  induction l with
  | nil => simp [incRev]
  | cons x r ih =>
    unfold incRev
    by_cases hx : x < 255
    · simp [hx]
    · simp only [if_neg hx, Option.map_eq_none', ih]
      constructor
      · intro h y hy
        rcases List.mem_cons.mp hy with h' | h'
        · rw [h']; exact hx
        · exact h y h'
      · intro h y hy
        exact h y (List.mem_cons_of_mem _ hy)

theorem incRev_some_spec : ∀ (l r : List Nat), ValidBytes l → incRev l = some r →
    leVal r = leVal l + 1 ∧ r.length = l.length := by
  intro l
  induction l with
  | nil => intro r _ h; simp [incRev] at h
  | cons x t ih =>
    intro r hv h
    unfold incRev at h
    by_cases hx : x < 255
    · rw [if_pos hx] at h
      injection h with h
      subst h
      simp [leVal]
      omega
    · rw [if_neg hx] at h
      obtain ⟨r', hr', hrr⟩ := Option.map_eq_some'.mp h
      obtain ⟨h1, h2⟩ := ih r' (fun y hy => hv y (List.mem_cons_of_mem _ hy)) hr'
      have hx255 : x = 255 := by
        have := hv x (List.mem_cons_self _ _)
        omega
      subst hrr
      constructor
      · simp [leVal, h1, hx255]
        omega
      · simp [h2]

theorem beVal_all255 : ∀ (b : List Nat), (∀ x ∈ b, x = 255) →
    beVal b + 1 = 256 ^ b.length := by
  intro b
  induction b using List.reverseRecOn with
  | nil => simp [beVal]
  | append_singleton l x ih =>
    intro h
    have hx : x = 255 := h x (by simp)
    rw [beVal_append_singleton, hx]
    have := ih (fun y hy => h y (by simp [hy]))
    simp only [List.length_append, List.length_cons, List.length_nil]
    rw [Nat.pow_add]
    omega

theorem beVal_one_zeros (n : Nat) : beVal (1 :: List.replicate n 0) = 256 ^ n := by
  have key : ∀ (m : Nat) (acc : Nat),
      List.foldl (fun acc d => 256 * acc + d) acc (List.replicate m 0) = acc * 256 ^ m := by
    intro m
    induction m with
    | zero => intro acc; simp
    | succ m ihm =>
      intro acc
      rw [List.replicate_succ, List.foldl_cons, ihm]
      ring
  rw [beVal, List.foldl_cons, key]
  ring_nf

/-- C8: `addOneToByteSlice` increments the counter as a big-endian byte
sequence (its value always grows by exactly 1 and the length is unchanged as
long as some byte is below 0xFF), and on an all-0xFF counter it prepends an
extra byte, yielding 1 followed by all-zero bytes, one byte longer, instead
of wrapping to zero. -/
theorem C8_ctr_counter_increment (b : List Nat) (hv : ValidBytes b) :
    beVal (addOneToByteSlice b) = beVal b + 1 ∧
    ((∃ x ∈ b, x < 255) → (addOneToByteSlice b).length = b.length) ∧
    ((∀ x ∈ b, x = 255) →
      addOneToByteSlice b = 1 :: List.replicate b.length 0 ∧
      (addOneToByteSlice b).length = b.length + 1) := by
  unfold addOneToByteSlice
  cases hcase : incRev b.reverse with
  | none =>
    have hall : ∀ x ∈ b, x = 255 := by
      intro x hx
      have h1 := (incRev_none_iff _).mp hcase x (List.mem_reverse.mpr hx)
      have h2 := hv x hx
      omega
    refine ⟨?_, ?_, fun _ => ⟨rfl, by simp⟩⟩
    · rw [beVal_all255 b hall, beVal_one_zeros]
    · intro ⟨x, hx, hlt⟩
      exact absurd (hall x hx) (by omega)
  | some r =>
    obtain ⟨h1, h2⟩ := incRev_some_spec b.reverse r
      (fun x hx => hv x (List.mem_reverse.mp hx)) hcase
    refine ⟨?_, fun _ => by simpa using h2, ?_⟩
    · rw [beVal_eq_leVal_reverse, List.reverse_reverse, h1, ← beVal_eq_leVal_reverse]
    · intro hall
      have : incRev b.reverse = none := (incRev_none_iff _).mpr
        (fun x hx => by have := hall x (List.mem_reverse.mp hx); omega)
      rw [this] at hcase
      cases hcase

/-- Witness for C8 at a short concrete counter. -/
theorem C8_ctr_counter_increment_witness :
    beVal (addOneToByteSlice [0, 255]) = beVal [0, 255] + 1 ∧
    ((∃ x ∈ ([0, 255] : List Nat), x < 255) →
      (addOneToByteSlice [0, 255]).length = ([0, 255] : List Nat).length) ∧
    ((∀ x ∈ ([0, 255] : List Nat), x = 255) →
      addOneToByteSlice [0, 255] = 1 :: List.replicate ([0, 255] : List Nat).length 0 ∧
      (addOneToByteSlice [0, 255]).length = ([0, 255] : List Nat).length + 1) :=
  C8_ctr_counter_increment [0, 255] (by decide)

/-! Panics on ragged lengths (C9) and empty plaintext (C10). -/

theorem listToBlock_of_short (bl : List Nat) (h : bl.length < 16) : listToBlock bl = none := by
  unfold listToBlock
  rw [if_pos h]

theorem listToBlock_of_long (bl : List Nat) (h : 16 ≤ bl.length) :
    ∃ blk, listToBlock bl = some blk := by
  unfold listToBlock
  rw [if_neg (by omega)]
  exact ⟨_, rfl⟩

/-- `split` of a buffer whose length is not a multiple of 16: all blocks are
16 bytes except the last, which is short and nonempty. -/
theorem split_ragged (e : List Nat) (h : e.length % 16 ≠ 0) :
    split e = split (e.take (e.length - e.length % 16)) ++ [e.drop (e.length - e.length % 16)] ∧
    (∀ bl ∈ (split e).dropLast, bl.length = 16) ∧
    ((split e).getLast?.getD []).length < 16 ∧ 0 < ((split e).getLast?.getD []).length := by
  set r := e.length % 16 with hr
  have hrlt : r < 16 := Nat.mod_lt _ (by omega)
  have hrpos : 0 < r := by omega
  have hle : r ≤ e.length := Nat.mod_le _ _
  have htake_len : (e.take (e.length - r)).length = e.length - r := by
    simp [List.length_take]
  have hdrop_len : (e.drop (e.length - r)).length = r := by
    simp [List.length_drop]
    omega
  have htake_mod : (e.length - r) % 16 = 0 := by omega
  have hsplit : split e =
      split (e.take (e.length - r)) ++ [e.drop (e.length - r)] := by
    conv_lhs => rw [← List.take_append_drop (e.length - r) e]
    rw [split_append_mult16 e.length _ _ (by rw [htake_len]; omega) (by rw [htake_len]; omega)]
    congr 1
    have ht : (e.drop (e.length - r)).take 16 = e.drop (e.length - r) :=
      List.take_of_length_le (by omega)
    have hd : (e.drop (e.length - r)).drop 16 = [] :=
      List.drop_eq_nil_of_le (by omega)
    rw [split_eq_cons _ (by intro hc; rw [hc] at hdrop_len; simp at hdrop_len; omega),
      ht, hd, split_nil]
  refine ⟨hsplit, ?_, ?_, ?_⟩
  · intro bl hbl
    rw [hsplit, List.dropLast_concat] at hbl
    exact split_mult16_lengths (e.length - r) _ (le_of_eq htake_len) (by omega) bl hbl
  · rw [hsplit, List.getLast?_concat]
    simp only [Option.getD_some]
    omega
  · rw [hsplit, List.getLast?_concat]
    simp only [Option.getD_some]
    omega

/-- The CBC decryption loop panics at the first short block. -/
theorem decryptBlocksCBC_short : ∀ (blocks : List (List Nat)) (a : AES) (prev : List Nat),
    blocks ≠ [] → (∀ bl ∈ blocks.dropLast, bl.length = 16) →
    ((blocks.getLast?.getD []).length < 16) →
    decryptBlocksCBC a prev blocks = .error (.panik "slice to 16-byte array conversion") := by
  intro blocks
  induction blocks with
  | nil => intro a prev h; exact absurd rfl h
  | cons bl rest ih =>
    intro a prev _ hdrop hlast
    cases rest with
    | nil =>
      have hshort : bl.length < 16 := by simpa using hlast
      unfold decryptBlocksCBC
      rw [listToBlock_of_short bl hshort]
    | cons b2 r2 =>
      have hbl : bl.length = 16 := hdrop bl (by simp)
      obtain ⟨blk, hblk⟩ := listToBlock_of_long bl (by omega)
      have hrec := ih (DecryptBlock a blk).1 bl (by simp)
        (fun x hx => hdrop x (by simp [hx]))
        (by simpa using hlast)
      unfold decryptBlocksCBC
      rw [hblk]
      simp only [hrec]

/-- The ECB decryption loop panics at the first short block. -/
theorem decryptBlocksECB_short : ∀ (blocks : List (List Nat)) (a : AES),
    blocks ≠ [] → (∀ bl ∈ blocks.dropLast, bl.length = 16) →
    ((blocks.getLast?.getD []).length < 16) →
    decryptBlocksECB a blocks = .error (.panik "slice to 16-byte array conversion") := by
  intro blocks
  induction blocks with
  | nil => intro a h; exact absurd rfl h
  | cons bl rest ih =>
    intro a _ hdrop hlast
    cases rest with
    | nil =>
      have hshort : bl.length < 16 := by simpa using hlast
      unfold decryptBlocksECB
      rw [listToBlock_of_short bl hshort]
    | cons b2 r2 =>
      have hbl : bl.length = 16 := hdrop bl (by simp)
      obtain ⟨blk, hblk⟩ := listToBlock_of_long bl (by omega)
      have hrec := ih (DecryptBlock a blk).1 (by simp)
        (fun x hx => hdrop x (by simp [hx]))
        (by simpa using hlast)
      unfold decryptBlocksECB
      rw [hblk]
      simp only [hrec]

theorem Encrypt_ECB (a : AES) (rand pt : List Nat) :
    Encrypt a rand ECB pt = encryptECB a pt := rfl

theorem Encrypt_CBC (a : AES) (rand pt : List Nat) :
    Encrypt a rand CBC pt = encryptCBC a pt rand := rfl

theorem Encrypt_CTR (a : AES) (rand pt : List Nat) :
    Encrypt a rand CTR pt = encryptCTR a pt rand := rfl

theorem Decrypt_ECB (a : AES) (ct : List Nat) : Decrypt a ECB ct = decryptECB a ct := rfl

theorem Decrypt_CBC (a : AES) (ct : List Nat) :
    Decrypt a CBC ct =
      (if ct.length < 32 then
        .error (.err "Invalid encrypted text. Must have at least 2 blocks: iv + encrypted block")
      else decryptCBC a (ct.drop 16) (ct.take 16)) := rfl

theorem Decrypt_CTR (a : AES) (ct : List Nat) :
    Decrypt a CTR ct =
      (if ct.length ≤ 16 then
        .error
          (.err "Invalid encrypted text. Must have at least 2 blocks: nonce + encrypted block")
      else
        match encryptCTR a (ct.drop 16) (ct.take 16) with
        | .error e => .error e
        | .ok (a2, d) => .ok (a2, d.drop 16)) := rfl

/-- C9: a ciphertext that passes the mode-level length checks but whose
block portion is not a multiple of 16 bytes makes `Decrypt` panic at the
conversion of the short final block to a 16-byte array, instead of
returning an error (CBC: length at least 32 but not a multiple of 16;
ECB: any length not a multiple of 16). -/
theorem C9_ragged_decrypt_panics (a : AES) (ct ct2 : List Nat)
    (h1 : ct.length % 16 ≠ 0) (h2 : 32 ≤ ct.length) (h3 : ct2.length % 16 ≠ 0) :
    Decrypt a CBC ct = .error (.panik "slice to 16-byte array conversion") ∧
    Decrypt a ECB ct2 = .error (.panik "slice to 16-byte array conversion") := by
  constructor
  · have hdlen : (ct.drop 16).length = ct.length - 16 := by simp
    have hdmod : (ct.drop 16).length % 16 ≠ 0 := by
      rw [hdlen]
      omega
    obtain ⟨_, hall, hshort, hpos⟩ := split_ragged (ct.drop 16) hdmod
    have hne : split (ct.drop 16) ≠ [] := by
      intro hc
      rw [hc] at hpos
      simp at hpos
    have hloop := decryptBlocksCBC_short (split (ct.drop 16)) a (ct.take 16) hne hall hshort
    rw [Decrypt_CBC, if_neg (show ¬ ct.length < 32 by omega)]
    unfold decryptCBC
    rw [if_neg (show ¬ (ct.take 16).length ≠ 16 by simp [List.length_take]; omega)]
    simp only [hloop]
  · obtain ⟨_, hall, hshort, hpos⟩ := split_ragged ct2 h3
    have hne : split ct2 ≠ [] := by
      intro hc
      rw [hc] at hpos
      simp at hpos
    have hloop := decryptBlocksECB_short (split ct2) a hne hall hshort
    rw [Decrypt_ECB]
    unfold decryptECB
    simp only [hloop]

/-- Witness for C9 at concrete ragged ciphertexts. -/
theorem C9_ragged_decrypt_panics_witness :
    Decrypt (New blkZero) CBC (List.replicate 40 1) =
      .error (.panik "slice to 16-byte array conversion") ∧
    Decrypt (New blkZero) ECB (List.replicate 17 1) =
      .error (.panik "slice to 16-byte array conversion") :=
  C9_ragged_decrypt_panics (New blkZero) (List.replicate 40 1) (List.replicate 17 1)
    (by decide) (by decide) (by decide)

/-- C10: for the empty plaintext, ECB and CBC encryption panic with an
index-out-of-range in `createBlocks` (taking the last element of the empty
block list) instead of encrypting a single full padding block, for every
cipher state and every drawn random IV. -/
theorem C10_empty_plaintext_panics (a : AES) (rand : List Nat) :
    Encrypt a rand ECB [] = .error (.panik "index out of range") ∧
    Encrypt a rand CBC [] = .error (.panik "index out of range") := by
  constructor
  · rw [Encrypt_ECB]
    unfold encryptECB createBlocks
    simp [split_nil]
  · rw [Encrypt_CBC]
    unfold encryptCBC createBlocks
    simp [split_nil]

/-! Byte-level block encryption helpers for the mode round-trip claims. -/

/-- A well-formed cipher struct for key `k` (what `New k` creates and what
every `EncryptBlock`/`DecryptBlock` call preserves). -/
def AESok (k : Blk) (a : AES) : Prop :=
  a.key = k ∧ a.rounds = 10 ∧ a.roundKeys.length = 11

theorem AESok_New (k : Blk) : AESok k (New k) := ⟨rfl, rfl, by simp [New]⟩

theorem AESok_next (k : Blk) (a : AES) (c : Int) (h : AESok k a) :
    AESok k { a with currentRound := c, roundKeys := keySchedule k } :=
  ⟨h.1, h.2.1, by simp [keySchedule]⟩

theorem EncryptBlock_ok (k : Blk) (a : AES) (b : Blk) (h : AESok k a) :
    EncryptBlock a b =
      ({ a with currentRound := 11, roundKeys := keySchedule k },
        encIter k 11 0 (convertArrayToMatrix b)) :=
  EncryptBlock_spec a k b h.1 h.2.1 h.2.2

theorem DecryptBlock_ok (k : Blk) (a : AES) (b : Blk) (h : AESok k a) :
    DecryptBlock a b =
      ({ a with currentRound := (-1 : Int), roundKeys := keySchedule k },
        decIter k 11 10 (convertArrayToMatrix b)) :=
  DecryptBlock_spec a k b h.1 h.2.1 h.2.2

theorem blkToList_length (b : Blk) : (blkToList b).length = 16 := rfl

theorem listToBlock_blkToList (b : Blk) : listToBlock (blkToList b) = some b := rfl

theorem blkToList_valid (b : Blk) (h : BlkValid b) : ValidBytes (blkToList b) := by
  obtain ⟨h0, h1, h2, h3, h4, h5, h6, h7, h8, h9, h10, h11, h12, h13, h14, h15⟩ := h
  intro x hx
  simp only [blkToList, List.mem_cons, List.not_mem_nil, or_false] at hx
  rcases hx with hx | hx | hx | hx | hx | hx | hx | hx | hx | hx | hx | hx | hx | hx | hx | hx <;>
    subst hx <;> assumption

theorem getD_lt_of_valid (l : List Nat) (h : ValidBytes l) (i : Nat) : l.getD i 0 < 256 := by
  by_cases hi : i < l.length
  · rw [List.getD_eq_getElem?_getD, List.getElem?_eq_getElem hi]
    exact h _ (List.getElem_mem hi)
  · rw [List.getD_eq_getElem?_getD, List.getElem?_eq_none (by omega)]
    simp

theorem listToBlock_valid (bl : List Nat) (h : ValidBytes bl) :
    BlkValid ((listToBlock bl).getD blkZero) := by
  unfold listToBlock
  by_cases hlen : bl.length < 16
  · rw [if_pos hlen]
    exact (by decide : BlkValid blkZero)
  · rw [if_neg hlen]
    simp only [Option.getD_some]
    exact ⟨getD_lt_of_valid bl h 0, getD_lt_of_valid bl h 1, getD_lt_of_valid bl h 2,
      getD_lt_of_valid bl h 3, getD_lt_of_valid bl h 4, getD_lt_of_valid bl h 5,
      getD_lt_of_valid bl h 6, getD_lt_of_valid bl h 7, getD_lt_of_valid bl h 8,
      getD_lt_of_valid bl h 9, getD_lt_of_valid bl h 10, getD_lt_of_valid bl h 11,
      getD_lt_of_valid bl h 12, getD_lt_of_valid bl h 13, getD_lt_of_valid bl h 14,
      getD_lt_of_valid bl h 15⟩

theorem blkToList_listToBlock (bl : List Nat) (h : bl.length = 16) :
    blkToList ((listToBlock bl).getD blkZero) = bl := by
  unfold listToBlock
  rw [if_neg (by omega)]
  simp only [Option.getD_some]
  unfold blkToList
  apply List.ext_getElem
  · simp [h]
  · intro i hi hi'
    have hi16 : i < 16 := by
      simp only [List.length_cons, List.length_nil] at hi
      omega
    interval_cases i <;>
      simp [List.getD_eq_getElem?_getD, List.getElem?_eq_getElem hi']

/-- Pure byte-level single-block encryption (what one loop iteration of the
mode layer computes on a well-formed struct). -/
def encB (k : Blk) (bl : List Nat) : List Nat :=
  blkToList (convertMatrixToArray
    (encIter k 11 0 (convertArrayToMatrix ((listToBlock bl).getD blkZero))))

/-- Pure byte-level single-block decryption. -/
def decB (k : Blk) (bl : List Nat) : List Nat :=
  blkToList (convertMatrixToArray
    (decIter k 11 10 (convertArrayToMatrix ((listToBlock bl).getD blkZero))))

theorem encIter_valid (k : Blk) (hk : BlkValid k) :
    ∀ (n j : Nat) (m : Mat), MatValid m → MatValid (encIter k n j m) := by
  intro n
  induction n with
  | zero => intro j m hm; exact hm
  | succ n ih => intro j m hm; exact ih _ _ (encRoundP_valid k j m hk hm)

theorem decIter_valid (k : Blk) (hk : BlkValid k) :
    ∀ (n j : Nat) (m : Mat), MatValid m → MatValid (decIter k n j m) := by
  intro n
  induction n with
  | zero => intro j m hm; exact hm
  | succ n ih => intro j m hm; exact ih _ _ (decRoundP_valid k j m hk hm)

theorem encB_length (k : Blk) (bl : List Nat) : (encB k bl).length = 16 := rfl

theorem decB_length (k : Blk) (bl : List Nat) : (decB k bl).length = 16 := rfl

theorem encB_valid (k : Blk) (bl : List Nat) (hk : BlkValid k) (hv : ValidBytes bl) :
    ValidBytes (encB k bl) :=
  blkToList_valid _ (convertMatrixToArray_valid _
    (encIter_valid k hk 11 0 _ (convertArrayToMatrix_valid _ (listToBlock_valid bl hv))))

theorem decB_valid (k : Blk) (bl : List Nat) (hk : BlkValid k) (hv : ValidBytes bl) :
    ValidBytes (decB k bl) :=
  blkToList_valid _ (convertMatrixToArray_valid _
    (decIter_valid k hk 11 10 _ (convertArrayToMatrix_valid _ (listToBlock_valid bl hv))))

/-- Byte-level block decryption undoes byte-level block encryption. -/
theorem decB_encB (k : Blk) (bl : List Nat) (hk : BlkValid k) (hv : ValidBytes bl)
    (hl : bl.length = 16) : decB k (encB k bl) = bl := by
  unfold decB encB
  rw [listToBlock_blkToList]
  simp only [Option.getD_some]
  rw [convertArrayToMatrix_convertMatrixToArray,
    decIter_encIter k _ hk (convertArrayToMatrix_valid _ (listToBlock_valid bl hv)),
    convertMatrixToArray_convertArrayToMatrix, blkToList_listToBlock bl hl]

/-- XOR twice with the same (at least as long) mask is the identity. -/
theorem xorBytes_cancel : ∀ (u v : List Nat), u.length ≤ v.length →
    xorBytes (xorBytes u v) v = u := by
  intro u
  induction u with
  | nil => intro v _; cases v <;> rfl
  | cons x t ih =>
    intro v hl
    cases v with
    | nil => simp at hl
    | cons y s =>
      simp only [xorBytes, List.zipWith_cons_cons] at *
      rw [Nat.xor_cancel_right]
      congr 1
      exact ih s (by simpa using hl)

theorem xorBytes_length (u v : List Nat) :
    (xorBytes u v).length = min u.length v.length := by
  simp [xorBytes]

theorem xorBytes_valid : ∀ (u v : List Nat), ValidBytes u → ValidBytes v →
    ValidBytes (xorBytes u v) := by
  intro u
  induction u with
  | nil => intro v _ _ x hx; simp [xorBytes] at hx
  | cons a t ih =>
    intro v hu hv x hx
    cases v with
    | nil => simp [xorBytes] at hx
    | cons b s =>
      simp only [xorBytes, List.zipWith_cons_cons, List.mem_cons] at hx
      rcases hx with hx | hx
      · subst hx
        exact xor_lt_256 (hu a (by simp)) (hv b (by simp))
      · exact ih s (fun y hy => hu y (by simp [hy])) (fun y hy => hv y (by simp [hy])) x hx

/-! Chunk structure of `split` output and its inverses. -/

theorem split_eq_nil_iff (e : List Nat) : split e = [] ↔ e = [] := by
  constructor
  · intro h
    by_contra hne
    rw [split_eq_cons e hne] at h
    cases h
  · intro h
    rw [h, split_nil]

/-- `split` undoes `join` when every block has exactly 16 bytes. -/
theorem split_join_16 : ∀ (blocks : List (List Nat)),
    (∀ bl ∈ blocks, bl.length = 16) → split (join blocks) = blocks := by
  intro blocks
  induction blocks with
  | nil => simp [join, split_nil]
  | cons bl rest ih =>
    intro h
    rw [join, split_append_16 _ _ (h bl (by simp)), ih (fun x hx => h x (by simp [hx]))]

/-- The shape of `split` output: every block is 16 bytes except the last,
which is nonempty and at most 16 bytes. -/
inductive Chunks : List (List Nat) → Prop
  | nil : Chunks []
  | single (bl : List Nat) (h1 : 0 < bl.length) (h2 : bl.length ≤ 16) : Chunks [bl]
  | cons (bl : List Nat) (rest : List (List Nat)) (h : bl.length = 16) (hne : rest ≠ [])
      (hr : Chunks rest) : Chunks (bl :: rest)

theorem split_chunks : ∀ (n : Nat) (pt : List Nat), pt.length ≤ n → pt ≠ [] →
    Chunks (split pt) := by
  intro n
  induction n with
  | zero =>
    intro pt hn hne
    cases pt with
    | nil => exact absurd rfl hne
    | cons x r => simp at hn
  | succ n ih =>
    intro pt hn hne
    rw [split_eq_cons pt hne]
    by_cases hlen : pt.length ≤ 16
    · rw [List.drop_eq_nil_of_le hlen, split_nil]
      exact Chunks.single _ (by simp [List.length_take]; exact List.length_pos.mpr hne)
        (by simp [List.length_take])
    · have hdne : pt.drop 16 ≠ [] := by
        intro h
        have := congrArg List.length h
        simp at this
        omega
      exact Chunks.cons _ _ (by simp [List.length_take]; omega)
        (by rw [Ne, split_eq_nil_iff]; exact hdne)
        (ih (pt.drop 16) (by simp; omega) hdne)

/-- `split` undoes `join` on chunk-shaped block lists. -/
theorem split_join_chunks : ∀ (blocks : List (List Nat)), Chunks blocks →
    split (join blocks) = blocks := by
  intro blocks h
  induction h with
  | nil => simp [join, split_nil]
  | single bl h1 h2 =>
    show split (bl ++ join []) = [bl]
    rw [join, List.append_nil, split_eq_cons bl (by intro hc; rw [hc] at h1; simp at h1),
      List.take_of_length_le h2, List.drop_eq_nil_of_le h2, split_nil]
  | cons bl rest h hne hr ih =>
    show split (bl ++ join rest) = bl :: rest
    rw [split_append_16 _ _ h, ih]

/-- Chunk shape only depends on the blocks' lengths. -/
theorem chunks_of_map_length : ∀ (blocks blocks2 : List (List Nat)), Chunks blocks →
    blocks2.map List.length = blocks.map List.length → Chunks blocks2 := by
  intro blocks blocks2 h
  induction h generalizing blocks2 with
  | nil =>
    intro hm
    have : blocks2 = [] := by
      cases blocks2 with
      | nil => rfl
      | cons x r => simp at hm
    rw [this]
    exact Chunks.nil
  | single bl h1 h2 =>
    intro hm
    cases blocks2 with
    | nil => simp at hm
    | cons b2 r2 =>
      cases r2 with
      | nil =>
        simp only [List.map_cons, List.map_nil, List.cons.injEq] at hm
        exact Chunks.single b2 (by omega) (by omega)
      | cons b3 r3 => simp at hm
  | cons bl rest h hne hr ih =>
    intro hm
    cases blocks2 with
    | nil => simp at hm
    | cons b2 r2 =>
      simp only [List.map_cons, List.cons.injEq] at hm
      refine Chunks.cons b2 r2 (by omega) ?_ (ih r2 hm.2)
      intro hc
      rw [hc] at hm
      cases rest with
      | nil => exact absurd rfl hne
      | cons x r => simp at hm

theorem join_length_of_map_length : ∀ (blocks blocks2 : List (List Nat)),
    blocks2.map List.length = blocks.map List.length →
    (join blocks2).length = (join blocks).length := by
  intro blocks
  induction blocks with
  | nil =>
    intro blocks2 hm
    cases blocks2 with
    | nil => rfl
    | cons x r => simp at hm
  | cons bl rest ih =>
    intro blocks2 hm
    cases blocks2 with
    | nil => simp at hm
    | cons b2 r2 =>
      simp only [List.map_cons, List.cons.injEq] at hm
      simp only [join, List.length_append, hm.1, ih r2 hm.2]

/-- Every byte of a `split` chunk comes from the original buffer. -/
theorem split_mem_subset : ∀ (n : Nat) (e : List Nat), e.length ≤ n →
    ∀ bl ∈ split e, ∀ x ∈ bl, x ∈ e := by
  intro n
  induction n with
  | zero =>
    intro e hn bl hbl
    cases e with
    | nil => rw [split_nil] at hbl; simp at hbl
    | cons y r => simp at hn
  | succ n ih =>
    intro e hn bl hbl x hx
    by_cases hne : e = []
    · rw [hne, split_nil] at hbl
      simp at hbl
    · rw [split_eq_cons e hne] at hbl
      rcases List.mem_cons.mp hbl with h | h
      · subst h
        exact List.take_subset _ _ hx
      · exact List.drop_subset _ _ (ih (e.drop 16) (by simp; omega) bl h x hx)

theorem split_le_16 : ∀ (n : Nat) (e : List Nat), e.length ≤ n →
    ∀ bl ∈ split e, bl.length ≤ 16 := by
  intro n
  induction n with
  | zero =>
    intro e hn bl hbl
    cases e with
    | nil => rw [split_nil] at hbl; simp at hbl
    | cons y r => simp at hn
  | succ n ih =>
    intro e hn bl hbl
    by_cases hne : e = []
    · rw [hne, split_nil] at hbl
      simp at hbl
    · rw [split_eq_cons e hne] at hbl
      rcases List.mem_cons.mp hbl with h | h
      · subst h
        simp [List.length_take]
      · exact ih (e.drop 16) (by simp; omega) bl h

/-- `padding` on an exactly-16-byte block appends a full 0x10 block. -/
theorem padding_full (l : List Nat) (h : l.length = 16) :
    padding l = l ++ List.replicate 16 16 := by
  unfold padding
  rw [if_pos h]

/-- `padding` on a short block fills to 16 bytes with the value `16 - len`. -/
theorem padding_short (l : List Nat) (h : l.length < 16) :
    padding l = l ++ List.replicate (16 - l.length) (16 - l.length) := by
  unfold padding
  rw [if_neg (by omega), List.take_of_length_le (by omega), padByte_eq _ h]

/-- What `createBlocks` produces on a nonempty byte-valued plaintext: a
nonempty list of full 16-byte blocks whose concatenation is the plaintext
followed by a padding run. -/
theorem createBlocks_spec (pt : List Nat) (hne : pt ≠ []) (hv : ValidBytes pt) :
    ∃ (blocks : List (List Nat)) (n : Nat), createBlocks pt = .ok blocks ∧
      (∀ bl ∈ blocks, bl.length = 16 ∧ ValidBytes bl) ∧ blocks ≠ [] ∧
      1 ≤ n ∧ n ≤ 16 ∧ join blocks = pt ++ List.replicate n n ∧
      (pt.length + n) % 16 = 0 := by
  have hpos : 0 < pt.length := List.length_pos.mpr hne
  have hrepv : ∀ (m v : Nat), v ≤ 16 → ValidBytes (List.replicate m v) := by
    intro m v hvle x hx
    rw [List.eq_of_mem_replicate hx]
    omega
  by_cases hmod : pt.length % 16 = 0
  · obtain ⟨hsplit, hlast_len⟩ := buffer_decomp pt hmod hpos
    set u := pt.take (pt.length - 16) with hu
    set last := pt.drop (pt.length - 16) with hlast
    have hjoin_u : join (split u) = u := join_split u.length u le_rfl
    refine ⟨split u ++ [last, List.replicate 16 16], 16, ?_, ?_, by simp, by omega, by omega,
      ?_, by omega⟩
    · unfold createBlocks
      simp only [hsplit, List.getLast?_concat]
      rw [padding_full last hlast_len]
      have hplen : (last ++ List.replicate 16 16).length = 32 := by
        simp [hlast_len]
      have hsr : split (List.replicate 16 (16 : Nat)) = [List.replicate 16 16] := by
        have ht : (List.replicate 16 (16 : Nat)).take 16 = List.replicate 16 16 :=
          List.take_of_length_le (by simp)
        have hd : (List.replicate 16 (16 : Nat)).drop 16 = [] :=
          List.drop_eq_nil_of_le (by simp)
        rw [split_eq_cons _ (by simp), ht, hd, split_nil]
      rw [if_neg (by rw [hplen]; omega), if_pos hplen, split_append_16 _ _ hlast_len, hsr,
        List.dropLast_concat]
      rfl
    · intro bl hbl
      rcases List.mem_append.mp hbl with h | h
      · refine ⟨split_mult16_lengths u.length u le_rfl (by rw [hu]; simp [List.length_take]; omega) bl h, ?_⟩
        intro x hx
        exact hv x (List.take_subset _ _ (split_mem_subset u.length u le_rfl bl h x hx))
      · rcases List.mem_cons.mp h with h | h
        · subst h
          exact ⟨hlast_len, fun x hx => hv x (List.drop_subset _ _ hx)⟩
        · rw [List.mem_singleton.mp h]
          exact ⟨by simp, hrepv 16 16 le_rfl⟩
    · rw [join_append, hjoin_u, join, join, join, List.append_nil]
      conv_rhs => rw [← List.take_append_drop (pt.length - 16) pt]
      rw [List.append_assoc]
  · obtain ⟨hsplit, _, _, _⟩ := split_ragged pt hmod
    set r := pt.length % 16 with hr
    have hrlt : r < 16 := Nat.mod_lt _ (by omega)
    have hrpos : 0 < r := by omega
    set u := pt.take (pt.length - r) with hu
    set v := pt.drop (pt.length - r) with hvdef
    have hv_len : v.length = r := by
      rw [hvdef]
      simp [List.length_drop]
      omega
    have hjoin_u : join (split u) = u := join_split u.length u le_rfl
    refine ⟨split u ++ [v ++ List.replicate (16 - r) (16 - r)], 16 - r, ?_, ?_, by simp,
      by omega, by omega, ?_, by omega⟩
    · unfold createBlocks
      simp only [hsplit, List.getLast?_concat]
      rw [padding_short v (by omega), hv_len]
      have hplen : (v ++ List.replicate (16 - r) (16 - r)).length = 16 := by
        simp [hv_len]
        omega
      rw [if_pos hplen, List.dropLast_concat]
    · intro bl hbl
      rcases List.mem_append.mp hbl with h | h
      · refine ⟨split_mult16_lengths u.length u le_rfl
          (by rw [hu]; simp [List.length_take]; omega) bl h, ?_⟩
        intro x hx
        exact hv x (List.take_subset _ _ (split_mem_subset u.length u le_rfl bl h x hx))
      · rw [List.mem_singleton.mp h]
        refine ⟨by simp [hv_len]; omega, ?_⟩
        intro x hx
        rcases List.mem_append.mp hx with h' | h'
        · exact hv x (List.drop_subset _ _ h')
        · rw [List.eq_of_mem_replicate h']
          omega
    · rw [join_append, hjoin_u, join, join, List.append_nil]
      conv_rhs => rw [← List.take_append_drop (pt.length - r) pt]
      rw [List.append_assoc]



/-! The three mode loops, characterized as pure per-block maps. -/

/-- The ECB encryption loop encrypts blockwise with `encB`. -/
theorem encryptBlocksECB_spec (k : Blk) : ∀ (blocks : List (List Nat)) (a : AES), AESok k a →
    (∀ bl ∈ blocks, bl.length = 16) →
    ∃ a1, encryptBlocksECB a blocks = .ok (a1, join (blocks.map (encB k))) ∧ AESok k a1 := by
  intro blocks
  induction blocks with
  | nil => intro a ha _; exact ⟨a, rfl, ha⟩
  | cons bl rest ih =>
    intro a ha hbl
    have hlen := hbl bl (by simp)
    obtain ⟨blk, hblk⟩ := listToBlock_of_long bl (by omega)
    obtain ⟨a1, hrec, ha1⟩ := ih { a with currentRound := 11, roundKeys := keySchedule k }
      (AESok_next k a 11 ha) (fun x hx => hbl x (by simp [hx]))
    unfold encryptBlocksECB
    simp only [hblk]
    rw [EncryptBlock_ok k a blk ha]
    simp only [hrec]
    refine ⟨a1, ?_, ha1⟩
    simp only [List.map_cons, join, encB, hblk, Option.getD_some]

/-- The ECB decryption loop decrypts blockwise with `decB`. -/
theorem decryptBlocksECB_spec (k : Blk) : ∀ (blocks : List (List Nat)) (a : AES), AESok k a →
    (∀ bl ∈ blocks, bl.length = 16) →
    ∃ a1, decryptBlocksECB a blocks = .ok (a1, join (blocks.map (decB k))) ∧ AESok k a1 := by
  intro blocks
  induction blocks with
  | nil => intro a ha _; exact ⟨a, rfl, ha⟩
  | cons bl rest ih =>
    intro a ha hbl
    have hlen := hbl bl (by simp)
    obtain ⟨blk, hblk⟩ := listToBlock_of_long bl (by omega)
    obtain ⟨a1, hrec, ha1⟩ := ih { a with currentRound := (-1 : Int), roundKeys := keySchedule k }
      (AESok_next k a (-1) ha) (fun x hx => hbl x (by simp [hx]))
    unfold decryptBlocksECB
    simp only [hblk]
    rw [DecryptBlock_ok k a blk ha]
    simp only [hrec]
    refine ⟨a1, ?_, ha1⟩
    simp only [List.map_cons, join, decB, hblk, Option.getD_some]

/-- The CBC encryption loop, with its matching decryption loop undoing it. -/
theorem encryptBlocksCBC_spec (k : Blk) (hk : BlkValid k) :
    ∀ (blocks : List (List Nat)) (a : AES) (prev : List Nat), AESok k a →
    prev.length = 16 → ValidBytes prev →
    (∀ bl ∈ blocks, bl.length = 16 ∧ ValidBytes bl) →
    ∃ a1 ct, encryptBlocksCBC a prev blocks = .ok (a1, ct) ∧ AESok k a1 ∧
      (∀ c ∈ split ct, c.length = 16) ∧ ValidBytes ct ∧
      ct.length = 16 * blocks.length ∧
      (∀ a2, AESok k a2 →
        ∃ a3, decryptBlocksCBC a2 prev (split ct) = .ok (a3, join blocks) ∧ AESok k a3) := by
  intro blocks
  induction blocks with
  | nil =>
    intro a prev ha _ _ _
    refine ⟨a, [], rfl, ha, by simp [split_nil], by intro x hx; simp at hx, by simp, ?_⟩
    intro a2 ha2
    rw [split_nil]
    exact ⟨a2, rfl, ha2⟩
  | cons bl rest ih =>
    intro a prev ha hprevlen hprevv hbl
    obtain ⟨hlen, hv⟩ := hbl bl (by simp)
    have hxlen : (xorBytes bl prev).length = 16 := by
      rw [xorBytes_length, hlen, hprevlen, Nat.min_self]
    have hxv : ValidBytes (xorBytes bl prev) := xorBytes_valid bl prev hv hprevv
    obtain ⟨blk, hblk⟩ := listToBlock_of_long (xorBytes bl prev) (by omega)
    have hsv : ValidBytes (encB k (xorBytes bl prev)) := encB_valid k _ hk hxv
    obtain ⟨a1, ct, hrec, ha1, hctblocks, hctv, hctlen, hdec⟩ :=
      ih { a with currentRound := 11, roundKeys := keySchedule k }
        (encB k (xorBytes bl prev)) (AESok_next k a 11 ha) (encB_length k _) hsv
        (fun x hx => hbl x (by simp [hx]))
    refine ⟨a1, encB k (xorBytes bl prev) ++ ct, ?_, ha1, ?_, ?_, ?_, ?_⟩
    · simp only [encryptBlocksCBC, hblk]
      simp only [EncryptBlock_ok k a blk ha]
      simp only [encB, hblk, Option.getD_some] at hrec ⊢
      simp only [hrec]
    · rw [split_append_16 _ _ (encB_length k _)]
      intro c hc
      rcases List.mem_cons.mp hc with h | h
      · rw [h]
        exact encB_length k _
      · exact hctblocks c h
    · intro x hx
      rcases List.mem_append.mp hx with h | h
      · exact hsv x h
      · exact hctv x h
    · simp only [List.length_append, encB_length, hctlen, List.length_cons]
      ring
    · intro a2 ha2
      rw [split_append_16 _ _ (encB_length k _)]
      obtain ⟨blk2, hblk2⟩ := listToBlock_of_long (encB k (xorBytes bl prev))
        (by rw [encB_length])
      have hblk2' : blk2 = (listToBlock (encB k (xorBytes bl prev))).getD blkZero := by
        rw [hblk2]
        rfl
      have ha2n := AESok_next k a2 (-1) ha2
      obtain ⟨a3, hrecd, ha3⟩ := hdec _ ha2n
      refine ⟨a3, ?_, ha3⟩
      simp only [decryptBlocksCBC, hblk2]
      simp only [DecryptBlock_ok k a2 blk2 ha2]
      simp only [hrecd]
      have hstep : xorBytes (blkToList (convertMatrixToArray
          (decIter k 11 10 (convertArrayToMatrix blk2)))) prev = bl := by
        rw [hblk2']
        have hthis : blkToList (convertMatrixToArray
            (decIter k 11 10 (convertArrayToMatrix
              ((listToBlock (encB k (xorBytes bl prev))).getD blkZero)))) =
            decB k (encB k (xorBytes bl prev)) := rfl
        rw [hthis, decB_encB k _ hk hxv hxlen]
        exact xorBytes_cancel bl prev (by omega)
      rw [hstep]
      simp [join]


/-! CTR infrastructure: the counter evolves independently of the data, so the
loop is XOR with a pure key stream. -/

/-- Increment preserves byte-validity (`incRev` case). -/
theorem incRev_valid : ∀ (l r : List Nat), ValidBytes l → incRev l = some r →
    ValidBytes r := by
  intro l
  induction l with
  | nil => intro r _ h; simp [incRev] at h
  | cons x t ih =>
    intro r hv h
    unfold incRev at h
    by_cases hx : x < 255
    · rw [if_pos hx] at h
      injection h with h
      subst h
      intro y hy
      rcases List.mem_cons.mp hy with h' | h'
      · omega
      · exact hv y (List.mem_cons_of_mem _ h')
    · rw [if_neg hx] at h
      obtain ⟨r', hr', hrr⟩ := Option.map_eq_some'.mp h
      subst hrr
      intro y hy
      rcases List.mem_cons.mp hy with h' | h'
      · omega
      · exact ih r' (fun z hz => hv z (List.mem_cons_of_mem _ hz)) hr' y h'

/-- `addOneToByteSlice` preserves byte-validity. -/
theorem addOne_valid (b : List Nat) (hv : ValidBytes b) :
    ValidBytes (addOneToByteSlice b) := by
  unfold addOneToByteSlice
  cases hcase : incRev b.reverse with
  | none =>
    intro y hy
    rcases List.mem_cons.mp hy with h' | h'
    · omega
    · rw [List.eq_of_mem_replicate h']
      omega
  | some r =>
    intro y hy
    exact incRev_valid b.reverse r (fun z hz => hv z (List.mem_reverse.mp hz)) hcase y
      (List.mem_reverse.mp hy)

/-- `addOneToByteSlice` never shortens the counter. -/
theorem addOne_length_ge (b : List Nat) (hv : ValidBytes b) :
    b.length ≤ (addOneToByteSlice b).length := by
  unfold addOneToByteSlice
  cases hcase : incRev b.reverse with
  | none =>
    simp only [List.length_cons, List.length_replicate]
    omega
  | some r =>
    have h2 := (incRev_some_spec b.reverse r
      (fun z hz => hv z (List.mem_reverse.mp hz)) hcase).2
    simp only [List.length_reverse] at h2 ⊢
    omega

/-- Pure description of the CTR key-stream application: XOR each block with
the encryption of the running counter. -/
def ctrStream (k : Blk) : List Nat → List (List Nat) → List (List Nat)
  | _, [] => []
  | counter, bl :: rest =>
    xorBytes bl (encB k counter) :: ctrStream k (addOneToByteSlice counter) rest

/-- The CTR stream preserves the blocks' lengths. -/
theorem ctrStream_map_length (k : Blk) : ∀ (blocks : List (List Nat)) (counter : List Nat),
    (∀ bl ∈ blocks, bl.length ≤ 16) →
    (ctrStream k counter blocks).map List.length = blocks.map List.length := by
  intro blocks
  induction blocks with
  | nil => intro counter _; rfl
  | cons bl rest ih =>
    intro counter h
    have hlen : (xorBytes bl (encB k counter)).length = bl.length := by
      rw [xorBytes_length, encB_length]
      have := h bl (by simp)
      omega
    simp only [ctrStream, List.map_cons, hlen,
      ih (addOneToByteSlice counter) (fun x hx => h x (by simp [hx]))]

/-- Applying the CTR stream twice with the same initial counter is the
identity on block lists of chunks of at most 16 bytes. -/
theorem ctrStream_cancel (k : Blk) : ∀ (blocks : List (List Nat)) (counter : List Nat),
    (∀ bl ∈ blocks, bl.length ≤ 16) →
    ctrStream k counter (ctrStream k counter blocks) = blocks := by
  intro blocks
  induction blocks with
  | nil => intro counter _; rfl
  | cons bl rest ih =>
    intro counter h
    have hle : bl.length ≤ (encB k counter).length := by
      rw [encB_length]
      exact h bl (by simp)
    simp only [ctrStream, xorBytes_cancel bl (encB k counter) hle,
      ih (addOneToByteSlice counter) (fun x hx => h x (by simp [hx]))]

/-- The CTR loop computes exactly the key-stream XOR. -/
theorem encryptBlocksCTR_spec (k : Blk) :
    ∀ (blocks : List (List Nat)) (a : AES) (counter : List Nat), AESok k a →
    16 ≤ counter.length → ValidBytes counter →
    ∃ a1, encryptBlocksCTR a counter blocks =
      .ok (a1, join (ctrStream k counter blocks)) ∧ AESok k a1 := by
  intro blocks
  induction blocks with
  | nil => intro a counter ha _ _; exact ⟨a, rfl, ha⟩
  | cons bl rest ih =>
    intro a counter ha hclen hcv
    obtain ⟨cb, hcb⟩ := listToBlock_of_long counter hclen
    obtain ⟨a1, hrec, ha1⟩ := ih { a with currentRound := 11, roundKeys := keySchedule k }
      (addOneToByteSlice counter) (AESok_next k a 11 ha)
      (le_trans hclen (addOne_length_ge counter hcv)) (addOne_valid counter hcv)
    refine ⟨a1, ?_, ha1⟩
    simp only [encryptBlocksCTR, hcb]
    simp only [EncryptBlock_ok k a cb ha]
    simp only [hrec]
    simp only [ctrStream, join, encB, hcb, Option.getD_some]

/-! Round trips at the mode level. -/

/-- ECB: `decryptECB` undoes `encryptECB` on nonempty byte plaintexts. -/
theorem encryptECB_roundtrip (k : Blk) (hk : BlkValid k) (a : AES) (ha : AESok k a)
    (pt : List Nat) (hpt : pt ≠ []) (hptv : ValidBytes pt) :
    ∃ a1 ct, encryptECB a pt = .ok (a1, ct) ∧ AESok k a1 ∧
      ∀ a2, AESok k a2 → ∃ a3, decryptECB a2 ct = .ok (a3, pt) ∧ AESok k a3 := by
  obtain ⟨blocks, n, hcb, hblk, hbne, hn1, hn16, hjoin, hmod⟩ := createBlocks_spec pt hpt hptv
  obtain ⟨a1, henc, ha1⟩ := encryptBlocksECB_spec k blocks a ha (fun bl h => (hblk bl h).1)
  have henc16 : ∀ bl ∈ blocks.map (encB k), bl.length = 16 := by
    intro bl h
    obtain ⟨c, hc, hcc⟩ := List.mem_map.mp h
    rw [← hcc]
    exact encB_length k c
  refine ⟨a1, join (blocks.map (encB k)), ?_, ha1, ?_⟩
  · unfold encryptECB
    simp only [hcb]
    exact henc
  · intro a2 ha2
    have hsplit : split (join (blocks.map (encB k))) = blocks.map (encB k) :=
      split_join_16 _ henc16
    obtain ⟨a3, hdec, ha3⟩ := decryptBlocksECB_spec k (blocks.map (encB k)) a2 ha2 henc16
    have hmapdec : (blocks.map (encB k)).map (decB k) = blocks := by
      rw [List.map_map]
      have h : ∀ bl ∈ blocks, (decB k ∘ encB k) bl = id bl := by
        intro bl hb
        simp only [Function.comp_apply, id_eq]
        exact decB_encB k bl hk (hblk bl hb).2 (hblk bl hb).1
      rw [List.map_congr_left h, List.map_id]
    refine ⟨a3, ?_, ha3⟩
    unfold decryptECB
    simp only [hsplit, hdec, hmapdec, hjoin, removePadding_pad pt n hn1 hn16 hmod]

/-- CBC: `decryptCBC` with the same IV undoes `encryptCBC`. -/
theorem encryptCBC_roundtrip (k : Blk) (hk : BlkValid k) (a : AES) (ha : AESok k a)
    (pt iv : List Nat) (hpt : pt ≠ []) (hptv : ValidBytes pt)
    (hivl : iv.length = 16) (hivv : ValidBytes iv) :
    ∃ a1 ct, encryptCBC a pt iv = .ok (a1, iv ++ ct) ∧ AESok k a1 ∧
      32 ≤ (iv ++ ct).length ∧
      ∀ a2, AESok k a2 → ∃ a3, decryptCBC a2 ct iv = .ok (a3, pt) ∧ AESok k a3 := by
  obtain ⟨blocks, n, hcb, hblk, hbne, hn1, hn16, hjoin, hmod⟩ := createBlocks_spec pt hpt hptv
  obtain ⟨a1, ct, henc, ha1, hctblocks, hctv, hctlen, hdec⟩ :=
    encryptBlocksCBC_spec k hk blocks a iv ha hivl hivv hblk
  have hbpos : 0 < blocks.length := List.length_pos.mpr hbne
  refine ⟨a1, ct, ?_, ha1, ?_, ?_⟩
  · unfold encryptCBC
    simp only [hcb]
    rw [if_neg (by omega)]
    simp only [henc]
  · rw [List.length_append, hivl, hctlen]
    omega
  · intro a2 ha2
    obtain ⟨a3, hd, ha3⟩ := hdec a2 ha2
    refine ⟨a3, ?_, ha3⟩
    unfold decryptCBC
    rw [if_neg (by omega)]
    simp only [hd, hjoin, removePadding_pad pt n hn1 hn16 hmod]

/-- CTR: re-running `encryptCTR` with the same nonce undoes it. -/
theorem encryptCTR_roundtrip (k : Blk) (a : AES) (ha : AESok k a)
    (pt ctr0 : List Nat) (hpt : pt ≠ [])
    (hcl : ctr0.length = 16) (hcv : ValidBytes ctr0) :
    ∃ a1 ct, encryptCTR a pt ctr0 = .ok (a1, ctr0 ++ ct) ∧ AESok k a1 ∧
      ct.length = pt.length ∧
      ∀ a2, AESok k a2 → ∃ a3, encryptCTR a2 ct ctr0 = .ok (a3, ctr0 ++ pt) ∧
        AESok k a3 := by
  have hle16 : ∀ bl ∈ split pt, bl.length ≤ 16 := split_le_16 pt.length pt le_rfl
  have hchunks : Chunks (split pt) := split_chunks pt.length pt le_rfl hpt
  have hjoinpt : join (split pt) = pt := join_split pt.length pt le_rfl
  obtain ⟨a1, henc, ha1⟩ := encryptBlocksCTR_spec k (split pt) a ctr0 ha (by omega) hcv
  have hmaplen : (ctrStream k ctr0 (split pt)).map List.length =
      (split pt).map List.length := ctrStream_map_length k (split pt) ctr0 hle16
  have hstreamlen : (join (ctrStream k ctr0 (split pt))).length = pt.length := by
    rw [join_length_of_map_length (split pt) _ hmaplen, hjoinpt]
  refine ⟨a1, join (ctrStream k ctr0 (split pt)), ?_, ha1, hstreamlen, ?_⟩
  · unfold encryptCTR
    simp only [henc]
  · intro a2 ha2
    have hsplitct : split (join (ctrStream k ctr0 (split pt))) =
        ctrStream k ctr0 (split pt) :=
      split_join_chunks _ (chunks_of_map_length (split pt) _ hchunks hmaplen)
    obtain ⟨a3, hd, ha3⟩ :=
      encryptBlocksCTR_spec k (ctrStream k ctr0 (split pt)) a2 ctr0 ha2 (by omega) hcv
    refine ⟨a3, ?_, ha3⟩
    unfold encryptCTR
    simp only [hsplitct, hd, ctrStream_cancel k (split pt) ctr0 hle16, hjoinpt]

/-- C4: for every nonempty byte-valued plaintext, every key, and every value
of the internally drawn 16-byte IV/nonce, decrypting the produced ciphertext
with the same key recovers the plaintext in all three modes; in CBC and CTR
the IV/nonce is the first 16 bytes of the ciphertext. -/
theorem C4_mode_roundtrips (k : Blk) (hk : BlkValid k) (pt rand : List Nat)
    (hpt : pt ≠ []) (hptv : ValidBytes pt) (hrl : rand.length = 16)
    (hrv : ValidBytes rand) :
    (∃ a1 ct a2, Encrypt (New k) rand ECB pt = .ok (a1, ct) ∧
      Decrypt a1 ECB ct = .ok (a2, pt)) ∧
    (∃ a1 ct a2, Encrypt (New k) rand CBC pt = .ok (a1, ct) ∧ ct.take 16 = rand ∧
      Decrypt a1 CBC ct = .ok (a2, pt)) ∧
    (∃ a1 ct a2, Encrypt (New k) rand CTR pt = .ok (a1, ct) ∧ ct.take 16 = rand ∧
      Decrypt a1 CTR ct = .ok (a2, pt)) := by
  have ha : AESok k (New k) := AESok_New k
  refine ⟨?_, ?_, ?_⟩
  · obtain ⟨a1, ct, henc, ha1, hdec⟩ := encryptECB_roundtrip k hk (New k) ha pt hpt hptv
    obtain ⟨a3, hd, _⟩ := hdec a1 ha1
    refine ⟨a1, ct, a3, ?_, ?_⟩
    · rw [Encrypt_ECB]
      exact henc
    · rw [Decrypt_ECB]
      exact hd
  · obtain ⟨a1, ct, henc, ha1, hlen32, hdec⟩ :=
      encryptCBC_roundtrip k hk (New k) ha pt rand hpt hptv hrl hrv
    obtain ⟨a3, hd, _⟩ := hdec a1 ha1
    have htake : (rand ++ ct).take 16 = rand := by
      rw [← hrl]
      exact List.take_left rand ct
    have hdrop : (rand ++ ct).drop 16 = ct := by
      rw [← hrl]
      exact List.drop_left rand ct
    refine ⟨a1, rand ++ ct, a3, ?_, htake, ?_⟩
    · rw [Encrypt_CBC]
      exact henc
    · rw [Decrypt_CBC, if_neg (by omega), htake, hdrop]
      exact hd
  · obtain ⟨a1, ct, henc, ha1, hctlen, hdec⟩ :=
      encryptCTR_roundtrip k (New k) ha pt rand hpt hrl hrv
    obtain ⟨a3, hd, _⟩ := hdec a1 ha1
    have htake : (rand ++ ct).take 16 = rand := by
      rw [← hrl]
      exact List.take_left rand ct
    have hdrop : (rand ++ ct).drop 16 = ct := by
      rw [← hrl]
      exact List.drop_left rand ct
    have hdrop2 : (rand ++ pt).drop 16 = pt := by
      rw [← hrl]
      exact List.drop_left rand pt
    have hplen : 0 < pt.length := List.length_pos.mpr hpt
    have hlenct : (rand ++ ct).length = 16 + pt.length := by
      rw [List.length_append, hrl, hctlen]
    refine ⟨a1, rand ++ ct, a3, ?_, htake, ?_⟩
    · rw [Encrypt_CTR]
      exact henc
    · rw [Decrypt_CTR, if_neg (by omega), htake, hdrop]
      simp only [hd, hdrop2]

theorem C4_mode_roundtrips_witness :
    BlkValid ⟨0, 1, 2, 3, 4, 5, 6, 7, 8, 9, 10, 11, 12, 13, 14, 15⟩ ∧
    ([42] : List Nat) ≠ [] ∧ ValidBytes [42] ∧
    (List.replicate 16 7).length = 16 ∧ ValidBytes (List.replicate 16 7) ∧
    ((∃ a1 ct a2,
        Encrypt (New ⟨0, 1, 2, 3, 4, 5, 6, 7, 8, 9, 10, 11, 12, 13, 14, 15⟩)
          (List.replicate 16 7) ECB [42] = .ok (a1, ct) ∧
        Decrypt a1 ECB ct = .ok (a2, [42])) ∧
     (∃ a1 ct a2,
        Encrypt (New ⟨0, 1, 2, 3, 4, 5, 6, 7, 8, 9, 10, 11, 12, 13, 14, 15⟩)
          (List.replicate 16 7) CBC [42] = .ok (a1, ct) ∧
        ct.take 16 = List.replicate 16 7 ∧
        Decrypt a1 CBC ct = .ok (a2, [42])) ∧
     (∃ a1 ct a2,
        Encrypt (New ⟨0, 1, 2, 3, 4, 5, 6, 7, 8, 9, 10, 11, 12, 13, 14, 15⟩)
          (List.replicate 16 7) CTR [42] = .ok (a1, ct) ∧
        ct.take 16 = List.replicate 16 7 ∧
        Decrypt a1 CTR ct = .ok (a2, [42]))) :=
  ⟨by decide, by decide, by decide, by decide, by decide,
    C4_mode_roundtrips ⟨0, 1, 2, 3, 4, 5, 6, 7, 8, 9, 10, 11, 12, 13, 14, 15⟩
      (by decide) [42] (List.replicate 16 7) (by decide) (by decide)
      (by decide) (by decide)⟩

/-! The padding-oracle attack (the `Oracle` type, `PaddingOracle` and
`findPaddingByte`). Go mutates the `prev`/`dec`/`decrypted` slices in
place; the embedding threads the updated lists explicitly and returns
them. A Go `panic` inside a query would crash the attack, so it is
propagated as a `Fail.panik`. -/

/-- `Oracle.Decrypt`: build a fresh cipher from the key, CBC-decrypt, and
return only the error (`none` = success, the decrypted bytes are dropped). -/
def oracleDecrypt (k : Blk) (encrypted : List Nat) : Res (Option String) :=
  match Decrypt (New k) CBC encrypted with
  | .ok _ => .ok none
  | .error (.err s) => .ok (some s)
  | .error (.panik s) => .error (.panik s)

/-- The `for x := 15; x > z; x--` loop of `findPaddingByte`:
`prev[x] = dec[x] ^ paddingValue` on the way down (first argument is `x`). -/
def adjustLoop (dec : List Nat) (pv z : Nat) : Nat → List Nat → List Nat
  | 0, p => p
  | x + 1, p =>
    if z < x + 1 then adjustLoop dec pv z x (p.set (x + 1) ((dec.getD (x + 1) 0) ^^^ pv))
    else p

/-- The `for j := 0x0; j <= 0xff; j++` search of `findPaddingByte`, with the
flip-byte-14 re-query on a success at position 15; `fuel` counts the
remaining candidates (256 at `j = 0`), and exhaustion is the source's
`panic("Could not find padding byte")`. -/
def fpbSearch (k : Blk) (last : List Nat) (z : Nat) :
    Nat → Nat → List Nat → Res (Nat × List Nat)
  | 0, _, _ => .error (.panik "Could not find padding byte")
  | fuel + 1, j, p =>
    let p1 := p.set z j
    match oracleDecrypt k (p1 ++ last) with
    | .error e => .error e
    | .ok (some _) => fpbSearch k last z fuel (j + 1) p1
    | .ok none =>
      if z = 15 then
        let p2 := p1.set 14 ((p1.getD 14 0) ^^^ 1)
        match oracleDecrypt k (p2 ++ last) with
        | .error e => .error e
        | .ok (some _) => fpbSearch k last z fuel (j + 1) p2
        | .ok none => .ok (j, p2)
      else .ok (j, p1)

/-- `findPaddingByte` from the attack: adjust the already-solved positions
to the current padding value, then search the byte; returns the found `j`
together with the mutated `prev` slice. -/
def findPaddingByte (k : Blk) (p last dec : List Nat) (z : Nat) : Res (Nat × List Nat) :=
  let paddingValue := 16 - z
  let p1 := if 1 < paddingValue then adjustLoop dec paddingValue z 15 p else p
  fpbSearch k last z 256 0 p1

/-- The `for z := 15; z >= 0; z--` loop of `PaddingOracle` (fuel is `z + 1`):
finds each byte, stores `x = b ^ (16-z)` into `dec[z]` and the plaintext byte
`x ^ prev[z]` into `decrypted[i*16+z]` (`offs = i*16`). -/
def byteLoop (k : Blk) (prev last : List Nat) (offs : Nat) :
    Nat → List Nat → List Nat → List Nat → Res (List Nat × List Nat × List Nat)
  | 0, p, dec, out => .ok (p, dec, out)
  | zf + 1, p, dec, out =>
    match findPaddingByte k p last dec zf with
    | .error e => .error e
    | .ok (b, p1) =>
      let x := b ^^^ (16 - zf)
      byteLoop k prev last offs zf p1 (dec.set zf x) (out.set (offs + zf) (x ^^^ prev.getD zf 0))

/-- The `for i := len(blocks) - 1; i >= 1; i--` loop of `PaddingOracle`
(fuel is `i`); `p` starts as a 16-byte copy of `prev` and `dec` as 16
zero bytes for every block. -/
def blocksLoop (k : Blk) (blocks : List (List Nat)) : Nat → List Nat → Res (List Nat)
  | 0, decrypted => .ok decrypted
  | i + 1, decrypted =>
    let prev := blocks.getD i []
    let last := blocks.getD (i + 1) []
    let p := prev.take 16 ++ List.replicate (16 - prev.length) 0
    match byteLoop k prev last (16 * (i + 1)) 16 p (List.replicate 16 0) decrypted with
    | .error e => .error e
    | .ok (_, _, out) => blocksLoop k blocks i out

/-- `PaddingOracle` from the attack: recover every block after the IV from
oracle answers only, and drop the IV range of the output buffer
(`decrypted[16:]` panics when the input is shorter than 16 bytes). -/
def PaddingOracle (k : Blk) (encrypted : List Nat) : Res (List Nat) :=
  let decrypted := List.replicate encrypted.length 0
  let blocks := split encrypted
  match blocksLoop k blocks (blocks.length - 1) decrypted with
  | .error e => .error e
  | .ok d =>
    if encrypted.length < 16 then .error (.panik "slice bounds out of range")
    else .ok (d.drop 16)

/-- Pure per-block description of CBC encryption (chained `encB`). -/
def cbcEnc (k : Blk) (prev : List Nat) : List (List Nat) → List (List Nat)
  | [] => []
  | bl :: rest =>
    encB k (xorBytes bl prev) :: cbcEnc k (encB k (xorBytes bl prev)) rest

/-- Pure per-block description of CBC decryption (chained `decB` + XOR). -/
def cbcDec (k : Blk) (prev : List Nat) : List (List Nat) → List (List Nat)
  | [] => []
  | c :: rest => xorBytes (decB k c) prev :: cbcDec k c rest

/-! Pointwise list helpers for the attack proofs. -/

theorem getD_set_self : ∀ (l : List Nat) (i v : Nat), i < l.length →
    (l.set i v).getD i 0 = v := by
  intro l
  induction l with
  | nil => intro i v h; simp at h
  | cons a t ih =>
    intro i v h
    cases i with
    | zero => rfl
    | succ n =>
      show (a :: t.set n v).getD (n + 1) 0 = v
      rw [List.getD_cons_succ]
      exact ih n v (by simpa using h)

theorem getD_set_ne : ∀ (l : List Nat) (i j v : Nat), i ≠ j →
    (l.set i v).getD j 0 = l.getD j 0 := by
  intro l
  induction l with
  | nil => intro i j v _; rfl
  | cons a t ih =>
    intro i j v h
    cases i with
    | zero =>
      cases j with
      | zero => exact absurd rfl h
      | succ n => rfl
    | succ m =>
      cases j with
      | zero => rfl
      | succ n =>
        show (a :: t.set m v).getD (n + 1) 0 = (a :: t).getD (n + 1) 0
        rw [List.getD_cons_succ, List.getD_cons_succ]
        exact ih m n v (fun hh => h (by rw [hh]))

theorem xorBytes_getD (u v : List Nat) (i : Nat) (hu : i < u.length) (hv : i < v.length) :
    (xorBytes u v).getD i 0 = u.getD i 0 ^^^ v.getD i 0 := by
  have hlen : i < (xorBytes u v).length := by
    rw [xorBytes_length]
    omega
  rw [List.getD_eq_getElem?_getD, List.getElem?_eq_getElem hlen,
    List.getD_eq_getElem?_getD, List.getElem?_eq_getElem hu,
    List.getD_eq_getElem?_getD, List.getElem?_eq_getElem hv]
  simp only [Option.getD_some]
  exact List.getElem_zipWith

theorem xor_left_cancel_nat (a b : Nat) : a ^^^ (a ^^^ b) = b := by
  rw [← Nat.xor_assoc, Nat.xor_self, Nat.zero_xor]

theorem xor_right_cancel_nat (a b : Nat) : a ^^^ b ^^^ b = a := by
  rw [Nat.xor_assoc, Nat.xor_self, Nat.xor_zero]

theorem xor_ne_self_of_pos (a b : Nat) (hb : 0 < b) : a ^^^ b ≠ a := by
  intro h
  have : a ^^^ b ^^^ a = a ^^^ a := by rw [h]
  rw [Nat.xor_comm a b, Nat.xor_assoc, Nat.xor_self, Nat.xor_zero] at this
  omega

/-- A byte string passes the scheme's padding check: the last byte `p` is in
`[1,16]` and the last `p` bytes all equal `p` (pointwise form for 16-byte
buffers). -/
def PadOK (w : List Nat) : Prop :=
  1 ≤ w.getD 15 0 ∧ w.getD 15 0 ≤ 16 ∧
    ∀ i, 16 - w.getD 15 0 ≤ i → i < 16 → w.getD i 0 = w.getD 15 0

theorem getLast?_len16 (w : List Nat) (h : w.length = 16) :
    w.getLast? = some (w.getD 15 0) := by
  have h15 : 15 < w.length := by omega
  rw [List.getLast?_eq_getElem?, h, show (16 - 1 : Nat) = 15 from rfl,
    List.getElem?_eq_getElem h15, List.getD_eq_getElem?_getD,
    List.getElem?_eq_getElem h15]
  rfl

theorem forall_mem_drop_iff (w : List Nat) (m v : Nat) (hw : w.length = 16) :
    (∀ x ∈ w.drop m, x = v) ↔ (∀ i, m ≤ i → i < 16 → w.getD i 0 = v) := by
  constructor
  · intro h i him hi
    have hiw : i < w.length := by omega
    have hjd : i - m < (w.drop m).length := by
      rw [List.length_drop]
      omega
    have hval : (w.drop m)[i - m] = w.getD i 0 := by
      rw [List.getElem_drop, List.getD_eq_getElem?_getD, List.getElem?_eq_getElem hiw]
      simp only [Option.getD_some]
      congr 1
      omega
    have hmem := List.getElem_mem hjd
    rw [hval] at hmem
    exact h _ hmem
  · intro h x hx
    obtain ⟨j, hj, hje⟩ := List.mem_iff_getElem.mp hx
    have hjlen : m + j < w.length := by
      rw [List.length_drop] at hj
      omega
    have hval : (w.drop m)[j] = w.getD (m + j) 0 := by
      rw [List.getElem_drop, List.getD_eq_getElem?_getD, List.getElem?_eq_getElem hjlen]
      rfl
    rw [← hje, hval]
    exact h (m + j) (by omega) (by rw [List.length_drop] at hj; omega)

theorem padOK_iff_not_err (w : List Nat) (hw : w.length = 16) :
    (w.getD 15 0 = 0 ∨ 16 < w.getD 15 0 ∨ ((16 : Int) - (w.getD 15 0 : Nat) < 0) ∨
      ∃ x ∈ w.drop (w.length - w.getD 15 0), x ≠ w.getD 15 0) ↔ ¬ PadOK w := by
  unfold PadOK
  rw [hw]
  constructor
  · rintro (h | h | h | ⟨x, hx, hne⟩) ⟨h1, h2, h3⟩
    · omega
    · omega
    · omega
    · exact hne
        (((forall_mem_drop_iff w _ _ hw).mpr (fun i hi1 hi2 => h3 i hi1 hi2)) x hx)
  · intro h
    by_cases h1 : 1 ≤ w.getD 15 0
    · by_cases h2 : w.getD 15 0 ≤ 16
      · right; right; right
        by_contra hno
        push_neg at hno
        exact h ⟨h1, h2, (forall_mem_drop_iff w _ _ hw).mp (fun x hx => hno x hx)⟩
      · right; left
        omega
    · left
      omega

/-- What one oracle query sees on a 32-byte forged input `prev ++ c`: success
exactly when the CBC plaintext block `decB c XOR prev` has valid padding (and
the oracle only ever reports this bit, never bytes). -/
theorem oracleDecrypt_query (k : Blk) (prev c : List Nat)
    (hp : prev.length = 16) (hc : c.length = 16) :
    (PadOK (xorBytes (decB k c) prev) → oracleDecrypt k (prev ++ c) = .ok none) ∧
    (¬ PadOK (xorBytes (decB k c) prev) →
      oracleDecrypt k (prev ++ c) = .ok (some "Invalid padding")) := by
  have hlen : (prev ++ c).length = 32 := by rw [List.length_append, hp, hc]
  have htake : (prev ++ c).take 16 = prev := by
    rw [← hp]
    exact List.take_left prev c
  have hdrop : (prev ++ c).drop 16 = c := by
    rw [← hp]
    exact List.drop_left prev c
  have hcne : c ≠ [] := by
    intro hh
    rw [hh] at hc
    simp at hc
  have hctake : c.take 16 = c := List.take_of_length_le (by omega)
  have hcdrop : c.drop 16 = ([] : List Nat) := List.drop_eq_nil_of_le (by omega)
  have hsplitc : split c = [c] := by
    rw [split_eq_cons c hcne, hctake, hcdrop, split_nil]
  obtain ⟨blk, hblk⟩ := listToBlock_of_long c (by omega)
  have hblk' : blk = (listToBlock c).getD blkZero := by
    rw [hblk]
    rfl
  have hdec1 : decryptBlocksCBC (New k) prev [c] =
      .ok ({ New k with currentRound := (-1 : Int), roundKeys := keySchedule k },
        xorBytes (decB k c) prev) := by
    simp only [decryptBlocksCBC, hblk]
    simp only [DecryptBlock_ok k (New k) blk (AESok_New k)]
    rw [hblk']
    simp only [decB, List.append_nil]
  have hDec : ∃ a1, Decrypt (New k) CBC (prev ++ c) =
      (match RemovePadding (xorBytes (decB k c) prev) with
       | .error e => .error e
       | .ok b => .ok (a1, b)) := by
    refine ⟨{ New k with currentRound := (-1 : Int), roundKeys := keySchedule k }, ?_⟩
    rw [Decrypt_CBC, if_neg (by omega), htake, hdrop]
    unfold decryptCBC
    rw [if_neg (by omega)]
    simp only [hsplitc, hdec1]
  obtain ⟨a1, hDec⟩ := hDec
  have hw16 : (xorBytes (decB k c) prev).length = 16 := by
    rw [xorBytes_length, decB_length, hp, Nat.min_self]
  have hmod : (xorBytes (decB k c) prev).length % 16 = 0 := by
    rw [hw16]
  have hpos : 0 < (xorBytes (decB k c) prev).length := by omega
  have hlast : (xorBytes (decB k c) prev).getLast? =
      some ((xorBytes (decB k c) prev).getD 15 0) := getLast?_len16 _ hw16
  obtain ⟨herr_iff, hok⟩ := removePadding_spec (xorBytes (decB k c) prev)
    ((xorBytes (decB k c) prev).getD 15 0) hmod hpos hlast
  constructor
  · intro hcond
    have hnc := (not_iff_not.mpr (padOK_iff_not_err _ hw16)).mpr (not_not_intro hcond)
    have hrp := hok hnc
    unfold oracleDecrypt
    simp only [hDec, hrp]
  · intro hnot
    have hc2 := (padOK_iff_not_err _ hw16).mpr hnot
    have hrp := herr_iff.mpr hc2
    unfold oracleDecrypt
    simp only [hDec, hrp]

theorem wGetD (k : Blk) (c p : List Nat) (hp : p.length = 16) (i : Nat) (hi : i < 16) :
    (xorBytes (decB k c) p).getD i 0 = (decB k c).getD i 0 ^^^ p.getD i 0 :=
  xorBytes_getD _ _ i (by rw [decB_length]; omega) (by omega)

/-- The byte search at positions `z ≤ 14`: with the higher positions already
adjusted to the padding value, the single success is `j = decB(c)[z] ^ (16-z)`
and the search returns it (no disambiguation branch is taken). -/
theorem fpbSearch_low (k : Blk) (hk : BlkValid k) (c : List Nat) (hc : c.length = 16)
    (hcv : ValidBytes c) (z : Nat) (hz : z ≤ 14) :
    ∀ (fuel : Nat), ∀ (j : Nat) (p : List Nat), p.length = 16 →
    (∀ x, z < x → x < 16 → p.getD x 0 = (decB k c).getD x 0 ^^^ (16 - z)) →
    j + fuel = 256 → j ≤ (decB k c).getD z 0 ^^^ (16 - z) →
    fpbSearch k c z fuel j p =
      .ok ((decB k c).getD z 0 ^^^ (16 - z),
        p.set z ((decB k c).getD z 0 ^^^ (16 - z))) := by
  have hIv : ValidBytes (decB k c) := decB_valid k c hk hcv
  have hIz : (decB k c).getD z 0 < 256 := getD_lt_of_valid _ hIv z
  have hjstar : (decB k c).getD z 0 ^^^ (16 - z) < 256 := xor_lt_256 hIz (by omega)
  intro fuel
  induction fuel with
  | zero =>
    intro j p hp hadj hcount hle
    omega
  | succ fuel ih =>
    intro j p hp hadj hcount hle
    have hp1 : (p.set z j).length = 16 := by simp [hp]
    have h15 : (xorBytes (decB k c) (p.set z j)).getD 15 0 = 16 - z := by
      rw [wGetD k c _ hp1 15 (by omega), getD_set_ne p z 15 j (by omega),
        hadj 15 (by omega) (by omega), xor_left_cancel_nat]
    have hzval : (xorBytes (decB k c) (p.set z j)).getD z 0 =
        (decB k c).getD z 0 ^^^ j := by
      rw [wGetD k c _ hp1 z (by omega), getD_set_self p z j (by omega)]
    by_cases hj : j = (decB k c).getD z 0 ^^^ (16 - z)
    · have hPad : PadOK (xorBytes (decB k c) (p.set z j)) := by
        refine ⟨by omega, by omega, ?_⟩
        intro i hi1 hi2
        rw [h15] at hi1 ⊢
        by_cases hiz : i = z
        · subst hiz
          rw [hzval, hj, xor_left_cancel_nat]
        · have hgt : z < i := by omega
          rw [wGetD k c _ hp1 i (by omega), getD_set_ne p z i j (fun hh => hiz hh.symm),
            hadj i hgt (by omega), xor_left_cancel_nat]
      have hq := (oracleDecrypt_query k (p.set z j) c hp1 hc).1 hPad
      simp only [fpbSearch, hq]
      rw [if_neg (show ¬ z = 15 from by omega), hj]
    · have hjlt : j < (decB k c).getD z 0 ^^^ (16 - z) := lt_of_le_of_ne hle hj
      have hNot : ¬ PadOK (xorBytes (decB k c) (p.set z j)) := by
        rintro ⟨h1, h2, h3⟩
        have hzz := h3 z (by omega) (by omega)
        rw [hzval, h15] at hzz
        exact hj (by rw [← xor_left_cancel_nat ((decB k c).getD z 0) j, hzz])
      have hq := (oracleDecrypt_query k (p.set z j) c hp1 hc).2 hNot
      simp only [fpbSearch, hq]
      rw [ih (j + 1) (p.set z j) hp1
        (fun x hx1 hx2 => by rw [getD_set_ne p z x j (by omega)]; exact hadj x hx1 hx2)
        (by omega) (by omega), List.set_set]

/-- The byte search at position 15: the success at `j` with plaintext padding
byte 1 always passes the flip-byte-14 re-query, and every other success is a
false positive that the re-query rejects, so the search returns exactly
`decB(c)[15] ^ 1` (with the prev slice mutated but still 16 bytes long). -/
theorem fpbSearch_top (k : Blk) (hk : BlkValid k) (c : List Nat) (hc : c.length = 16)
    (hcv : ValidBytes c) :
    ∀ (fuel : Nat), ∀ (j : Nat) (p : List Nat), p.length = 16 →
    j + fuel = 256 → j ≤ (decB k c).getD 15 0 ^^^ 1 →
    ∃ q, fpbSearch k c 15 fuel j p = .ok ((decB k c).getD 15 0 ^^^ 1, q) ∧
      q.length = 16 := by
  have hIv : ValidBytes (decB k c) := decB_valid k c hk hcv
  have hI15 : (decB k c).getD 15 0 < 256 := getD_lt_of_valid _ hIv 15
  have hjstar : (decB k c).getD 15 0 ^^^ 1 < 256 := xor_lt_256 hI15 (by omega)
  intro fuel
  induction fuel with
  | zero =>
    intro j p hp hcount hle
    omega
  | succ fuel ih =>
    intro j p hp hcount hle
    have hp1 : (p.set 15 j).length = 16 := by simp [hp]
    have h15 : (xorBytes (decB k c) (p.set 15 j)).getD 15 0 =
        (decB k c).getD 15 0 ^^^ j := by
      rw [wGetD k c _ hp1 15 (by omega), getD_set_self p 15 j (by omega)]
    by_cases hj : j = (decB k c).getD 15 0 ^^^ 1
    · have hone : (xorBytes (decB k c) (p.set 15 j)).getD 15 0 = 1 := by
        rw [h15, hj, xor_left_cancel_nat]
      have hPad : PadOK (xorBytes (decB k c) (p.set 15 j)) := by
        refine ⟨by omega, by omega, ?_⟩
        intro i hi1 hi2
        have : i = 15 := by omega
        subst this
        rfl
      have hq := (oracleDecrypt_query k (p.set 15 j) c hp1 hc).1 hPad
      have hp2 : ((p.set 15 j).set 14 (((p.set 15 j).getD 14 0) ^^^ 1)).length = 16 := by
        simp [hp]
      have hone2 : (xorBytes (decB k c)
          ((p.set 15 j).set 14 (((p.set 15 j).getD 14 0) ^^^ 1))).getD 15 0 = 1 := by
        rw [wGetD k c _ hp2 15 (by omega),
          getD_set_ne (p.set 15 j) 14 15 _ (by omega),
          getD_set_self p 15 j (by omega), hj, xor_left_cancel_nat]
      have hPad2 : PadOK (xorBytes (decB k c)
          ((p.set 15 j).set 14 (((p.set 15 j).getD 14 0) ^^^ 1))) := by
        refine ⟨by omega, by omega, ?_⟩
        intro i hi1 hi2
        have : i = 15 := by omega
        subst this
        rfl
      have hq2 := (oracleDecrypt_query k _ c hp2 hc).1 hPad2
      refine ⟨(p.set 15 j).set 14 (((p.set 15 j).getD 14 0) ^^^ 1), ?_, hp2⟩
      simp only [fpbSearch, hq]
      rw [if_pos trivial]
      simp only [hq2]
      rw [hj]
    · have hjlt : j < (decB k c).getD 15 0 ^^^ 1 := lt_of_le_of_ne hle hj
      have hne1 : (xorBytes (decB k c) (p.set 15 j)).getD 15 0 ≠ 1 := by
        rw [h15]
        intro hh
        exact hj (by rw [← xor_left_cancel_nat ((decB k c).getD 15 0) j, hh])
      by_cases hPad : PadOK (xorBytes (decB k c) (p.set 15 j))
      · obtain ⟨h1, h2, h3⟩ := hPad
        have hge2 : 2 ≤ (xorBytes (decB k c) (p.set 15 j)).getD 15 0 := by omega
        have h14 := h3 14 (by omega) (by omega)
        have hq := (oracleDecrypt_query k (p.set 15 j) c hp1 hc).1 ⟨h1, h2, h3⟩
        have hp2 : ((p.set 15 j).set 14 (((p.set 15 j).getD 14 0) ^^^ 1)).length = 16 := by
          simp [hp]
        have hw2_15 : (xorBytes (decB k c)
            ((p.set 15 j).set 14 (((p.set 15 j).getD 14 0) ^^^ 1))).getD 15 0 =
            (xorBytes (decB k c) (p.set 15 j)).getD 15 0 := by
          rw [wGetD k c _ hp2 15 (by omega), getD_set_ne (p.set 15 j) 14 15 _ (by omega),
            wGetD k c _ hp1 15 (by omega)]
        have hw2_14 : (xorBytes (decB k c)
            ((p.set 15 j).set 14 (((p.set 15 j).getD 14 0) ^^^ 1))).getD 14 0 =
            ((xorBytes (decB k c) (p.set 15 j)).getD 14 0) ^^^ 1 := by
          rw [wGetD k c _ hp2 14 (by omega), getD_set_self (p.set 15 j) 14 _ (by omega),
            wGetD k c _ hp1 14 (by omega), Nat.xor_assoc]
        have hNot2 : ¬ PadOK (xorBytes (decB k c)
            ((p.set 15 j).set 14 (((p.set 15 j).getD 14 0) ^^^ 1))) := by
          rintro ⟨g1, g2, g3⟩
          have g14 := g3 14 (by rw [hw2_15]; omega) (by omega)
          rw [hw2_14, hw2_15, h14] at g14
          exact xor_ne_self_of_pos _ 1 (by omega) g14
        have hq2 := (oracleDecrypt_query k _ c hp2 hc).2 hNot2
        obtain ⟨q, hqq, hql⟩ := ih (j + 1)
          ((p.set 15 j).set 14 (((p.set 15 j).getD 14 0) ^^^ 1)) hp2 (by omega) (by omega)
        refine ⟨q, ?_, hql⟩
        simp only [fpbSearch, hq]
        rw [if_pos trivial]
        simp only [hq2, hqq]
      · have hq := (oracleDecrypt_query k (p.set 15 j) c hp1 hc).2 hPad
        obtain ⟨q, hqq, hql⟩ := ih (j + 1) (p.set 15 j) hp1 (by omega) (by omega)
        refine ⟨q, ?_, hql⟩
        simp only [fpbSearch, hq]
        exact hqq

theorem adjustLoop_length (dec : List Nat) (pv z : Nat) :
    ∀ (n : Nat) (p : List Nat), (adjustLoop dec pv z n p).length = p.length := by
  intro n
  induction n with
  | zero => intro p; rfl
  | succ m ih =>
    intro p
    simp only [adjustLoop]
    by_cases h : z < m + 1
    · rw [if_pos h, ih]
      simp
    · rw [if_neg h]

theorem adjustLoop_getD (dec : List Nat) (pv z : Nat) :
    ∀ (n : Nat) (p : List Nat), n < p.length → ∀ (i : Nat),
      (adjustLoop dec pv z n p).getD i 0 =
        if z < i ∧ i ≤ n then dec.getD i 0 ^^^ pv else p.getD i 0 := by
  intro n
  induction n with
  | zero =>
    intro p _ i
    rw [if_neg (by omega)]
    rfl
  | succ m ih =>
    intro p hn i
    simp only [adjustLoop]
    by_cases h : z < m + 1
    · rw [if_pos h, ih _ (by rw [List.length_set]; omega) i]
      by_cases hi : z < i ∧ i ≤ m
      · rw [if_pos hi, if_pos ⟨hi.1, by omega⟩]
      · rw [if_neg hi]
        by_cases hieq : i = m + 1
        · subst hieq
          rw [getD_set_self p (m + 1) _ (by omega), if_pos ⟨h, le_rfl⟩]
        · rw [getD_set_ne p (m + 1) i _ (fun hh => hieq hh.symm), if_neg (by omega)]
    · rw [if_neg h, if_neg (by omega)]

/-- `findPaddingByte` at a position `z ≤ 14` with the solved suffix stored in
`dec`: the adjustment plus the unique search success return
`decB(c)[z] ^ (16-z)`. -/
theorem findPaddingByte_low (k : Blk) (hk : BlkValid k) (c : List Nat)
    (hc : c.length = 16) (hcv : ValidBytes c) (z : Nat) (hz : z ≤ 14)
    (p dec : List Nat) (hp : p.length = 16)
    (hdec : ∀ x, z < x → x < 16 → dec.getD x 0 = (decB k c).getD x 0) :
    findPaddingByte k p c dec z =
      .ok ((decB k c).getD z 0 ^^^ (16 - z),
        (adjustLoop dec (16 - z) z 15 p).set z ((decB k c).getD z 0 ^^^ (16 - z))) := by
  simp only [findPaddingByte]
  rw [if_pos (show 1 < 16 - z from by omega)]
  exact fpbSearch_low k hk c hc hcv z hz 256 0 _
    (by rw [adjustLoop_length]; exact hp)
    (fun x hx1 hx2 => by
      rw [adjustLoop_getD dec (16 - z) z 15 p (by omega) x, if_pos ⟨hx1, by omega⟩,
        hdec x hx1 hx2])
    (by omega) (by omega)

/-- `findPaddingByte` at position 15: no adjustment, and the re-query filters
the search down to `decB(c)[15] ^ 1`. -/
theorem findPaddingByte_top (k : Blk) (hk : BlkValid k) (c : List Nat)
    (hc : c.length = 16) (hcv : ValidBytes c) (p dec : List Nat) (hp : p.length = 16) :
    ∃ q, findPaddingByte k p c dec 15 = .ok ((decB k c).getD 15 0 ^^^ 1, q) ∧
      q.length = 16 := by
  obtain ⟨q, hq, hql⟩ := fpbSearch_top k hk c hc hcv 256 0 p hp (by omega) (by omega)
  refine ⟨q, ?_, hql⟩
  simp only [findPaddingByte]
  rw [if_neg (by omega)]
  exact hq

theorem byteLoop_step (k : Blk) (prev last : List Nat) (offs zf : Nat)
    (p dec out p1 : List Nat) (b : Nat)
    (h : findPaddingByte k p last dec zf = .ok (b, p1)) :
    byteLoop k prev last offs (zf + 1) p dec out =
      byteLoop k prev last offs zf p1 (dec.set zf (b ^^^ (16 - zf)))
        (out.set (offs + zf) ((b ^^^ (16 - zf)) ^^^ prev.getD zf 0)) := by
  rw [show byteLoop k prev last offs (zf + 1) p dec out =
      (match findPaddingByte k p last dec zf with
       | .error e => .error e
       | .ok (b2, p2) =>
         byteLoop k prev last offs zf p2 (dec.set zf (b2 ^^^ (16 - zf)))
           (out.set (offs + zf) ((b2 ^^^ (16 - zf)) ^^^ prev.getD zf 0))) from rfl, h]

/-- The per-block byte loop: it terminates without panicking and writes the
CBC plaintext bytes `decB(c)[z] ^ prev[z]` into `out[offs+z]`, leaving the
rest of `out` unchanged. -/
theorem byteLoop_spec (k : Blk) (hk : BlkValid k) (prev c : List Nat)
    (hc : c.length = 16) (hcv : ValidBytes c) (offs : Nat) :
    ∀ (fuel : Nat), fuel ≤ 16 → ∀ (p dec out : List Nat),
    p.length = 16 → dec.length = 16 → offs + 16 ≤ out.length →
    (∀ x, fuel ≤ x → x < 16 → dec.getD x 0 = (decB k c).getD x 0) →
    ∃ pf decf outf, byteLoop k prev c offs fuel p dec out = .ok (pf, decf, outf) ∧
      outf.length = out.length ∧
      (∀ i, i < offs ∨ offs + fuel ≤ i → outf.getD i 0 = out.getD i 0) ∧
      (∀ z, z < fuel →
        outf.getD (offs + z) 0 = (decB k c).getD z 0 ^^^ prev.getD z 0) := by
  intro fuel
  induction fuel with
  | zero =>
    intro _ p dec out _ _ _ _
    exact ⟨p, dec, out, rfl, rfl, fun i _ => rfl, fun z hz => absurd hz (by omega)⟩
  | succ zf ih =>
    intro hle p dec out hp hdec hout hinv
    by_cases hz : zf = 15
    · subst hz
      obtain ⟨q, hfpb, hql⟩ := findPaddingByte_top k hk c hc hcv p dec hp
      have hx : ((decB k c).getD 15 0 ^^^ 1) ^^^ (16 - 15) = (decB k c).getD 15 0 :=
        xor_right_cancel_nat _ 1
      obtain ⟨pf, decf, outf, hrec, hlen, huntouched, hvals⟩ := ih (by omega) q
        (dec.set 15 ((decB k c).getD 15 0))
        (out.set (offs + 15) ((decB k c).getD 15 0 ^^^ prev.getD 15 0))
        hql (by rw [List.length_set]; exact hdec)
        (by rw [List.length_set]; exact hout)
        (fun x hx1 hx2 => by
          have hxx : x = 15 := by omega
          subst hxx
          exact getD_set_self dec 15 _ (by omega))
      refine ⟨pf, decf, outf, ?_, ?_, ?_, ?_⟩
      · rw [byteLoop_step k prev c offs 15 p dec out q _ hfpb, hx]
        exact hrec
      · rw [hlen, List.length_set]
      · intro i hi
        rw [huntouched i (by omega), getD_set_ne out (offs + 15) i _ (by omega)]
      · intro z hzlt
        by_cases hz15 : z = 15
        · subst hz15
          rw [huntouched (offs + 15) (by omega),
            getD_set_self out (offs + 15) _ (by omega)]
        · exact hvals z (by omega)
    · have hz14 : zf ≤ 14 := by omega
      have hfpb := findPaddingByte_low k hk c hc hcv zf hz14 p dec hp
        (fun x hx1 hx2 => hinv x (by omega) hx2)
      have hp1len : ((adjustLoop dec (16 - zf) zf 15 p).set zf
          ((decB k c).getD zf 0 ^^^ (16 - zf))).length = 16 := by
        rw [List.length_set, adjustLoop_length]
        exact hp
      have hx : ((decB k c).getD zf 0 ^^^ (16 - zf)) ^^^ (16 - zf) =
          (decB k c).getD zf 0 := xor_right_cancel_nat _ _
      obtain ⟨pf, decf, outf, hrec, hlen, huntouched, hvals⟩ := ih (by omega) _
        (dec.set zf ((decB k c).getD zf 0))
        (out.set (offs + zf) ((decB k c).getD zf 0 ^^^ prev.getD zf 0))
        hp1len (by rw [List.length_set]; exact hdec)
        (by rw [List.length_set]; exact hout)
        (fun x hx1 hx2 => by
          by_cases hxz : x = zf
          · subst hxz
            exact getD_set_self dec x _ (by omega)
          · rw [getD_set_ne dec zf x _ (fun hh => hxz hh.symm)]
            exact hinv x (by omega) hx2)
      refine ⟨pf, decf, outf, ?_, ?_, ?_, ?_⟩
      · rw [byteLoop_step k prev c offs zf p dec out _ _ hfpb, hx]
        exact hrec
      · rw [hlen, List.length_set]
      · intro i hi
        rw [huntouched i (by omega), getD_set_ne out (offs + zf) i _ (by omega)]
      · intro z hzlt
        by_cases hzz : z = zf
        · subst hzz
          rw [huntouched (offs + z) (by omega),
            getD_set_self out (offs + z) _ (by omega)]
        · exact hvals z (by omega)

theorem getD_mem_of_lt (l : List (List Nat)) (q : Nat) (hq : q < l.length) :
    l.getD q [] ∈ l := by
  rw [List.getD_eq_getElem?_getD, List.getElem?_eq_getElem hq]
  simp only [Option.getD_some]
  exact List.getElem_mem hq

theorem getD_drop16 (l : List Nat) (i : Nat) : (l.drop 16).getD i 0 = l.getD (16 + i) 0 := by
  rw [List.getD_eq_getElem?_getD, List.getD_eq_getElem?_getD, List.getElem?_drop]

theorem join_length_16 : ∀ (blocks : List (List Nat)), (∀ bl ∈ blocks, bl.length = 16) →
    (join blocks).length = 16 * blocks.length := by
  intro blocks
  induction blocks with
  | nil => intro _; rfl
  | cons b r ih =>
    intro h
    simp only [join, List.length_append, List.length_cons,
      ih (fun x hx => h x (by simp [hx])), h b (by simp)]
    ring

theorem join_getD_16 : ∀ (blocks : List (List Nat)), (∀ bl ∈ blocks, bl.length = 16) →
    ∀ (q r : Nat), q < blocks.length → r < 16 →
    (join blocks).getD (16 * q + r) 0 = (blocks.getD q []).getD r 0 := by
  intro blocks
  induction blocks with
  | nil =>
    intro _ q r hq _
    simp at hq
  | cons b rest ih =>
    intro h q r hq hr
    have hb := h b (by simp)
    cases q with
    | zero =>
      show (b ++ join rest).getD (16 * 0 + r) 0 = ((b :: rest).getD 0 []).getD r 0
      rw [show 16 * 0 + r = r from by omega, List.getD_append _ _ _ _ (by omega)]
      rfl
    | succ m =>
      show (b ++ join rest).getD (16 * (m + 1) + r) 0 = ((b :: rest).getD (m + 1) []).getD r 0
      rw [List.getD_append_right _ _ _ _ (by omega), List.getD_cons_succ]
      rw [show 16 * (m + 1) + r - b.length = 16 * m + r from by omega]
      exact ih (fun x hx => h x (by simp [hx])) m r (by simpa using hq) hr

/-- The outer block loop of the attack: every block after the IV is
recovered as `decB(block[i]) ^ block[i-1]` into its range of the output
buffer, and nothing else is touched. -/
theorem blocksLoop_spec (k : Blk) (hk : BlkValid k) (blocks : List (List Nat))
    (hall : ∀ bl ∈ blocks, bl.length = 16 ∧ ValidBytes bl) :
    ∀ (fuel : Nat), fuel + 1 ≤ blocks.length → ∀ (d : List Nat),
    16 * blocks.length ≤ d.length →
    ∃ df, blocksLoop k blocks fuel d = .ok df ∧ df.length = d.length ∧
      (∀ pos, pos < 16 ∨ 16 * (fuel + 1) ≤ pos → df.getD pos 0 = d.getD pos 0) ∧
      (∀ i z, 1 ≤ i → i ≤ fuel → z < 16 →
        df.getD (16 * i + z) 0 =
          (decB k (blocks.getD i [])).getD z 0 ^^^ (blocks.getD (i - 1) []).getD z 0) := by
  intro fuel
  induction fuel with
  | zero =>
    intro _ d _
    exact ⟨d, rfl, rfl, fun pos _ => rfl,
      fun i z h1 h2 _ => absurd (le_trans h1 h2) (by omega)⟩
  | succ i0 ih =>
    intro hfl d hd
    have hi1lt : i0 + 1 < blocks.length := by omega
    have hi0lt : i0 < blocks.length := by omega
    obtain ⟨hlast_len, hlast_v⟩ := hall _ (getD_mem_of_lt blocks (i0 + 1) hi1lt)
    obtain ⟨hprev_len, _⟩ := hall _ (getD_mem_of_lt blocks i0 hi0lt)
    have hp0 : (blocks.getD i0 []).take 16 ++
        List.replicate (16 - (blocks.getD i0 []).length) 0 = blocks.getD i0 [] := by
      rw [List.take_of_length_le (le_of_eq hprev_len), hprev_len]
      simp
    obtain ⟨pf, decf, outf, hbyte, hblen, hbuntouch, hbvals⟩ :=
      byteLoop_spec k hk (blocks.getD i0 []) (blocks.getD (i0 + 1) []) hlast_len hlast_v
        (16 * (i0 + 1)) 16 le_rfl (blocks.getD i0 []) (List.replicate 16 0) d
        hprev_len (by simp)
        (by
          have : 16 * (i0 + 2) ≤ 16 * blocks.length := Nat.mul_le_mul_left 16 (by omega)
          omega)
        (fun x hx1 hx2 => absurd hx2 (by omega))
    obtain ⟨df, hrec, hdlen, huntouch, hvals⟩ := ih (by omega) outf (by rw [hblen]; exact hd)
    refine ⟨df, ?_, by rw [hdlen, hblen], ?_, ?_⟩
    · simp only [blocksLoop]
      rw [hp0]
      simp only [hbyte]
      exact hrec
    · intro pos hpos
      rw [huntouch pos (by omega), hbuntouch pos (by omega)]
    · intro i z h1 h2 hz
      by_cases hii : i ≤ i0
      · exact hvals i z h1 hii hz
      · have hieq : i = i0 + 1 := by omega
        subst hieq
        rw [huntouch (16 * (i0 + 1) + z) (by omega), hbvals z hz, Nat.add_sub_cancel]

theorem cbcDec_length (k : Blk) : ∀ (cts : List (List Nat)) (prev : List Nat),
    (cbcDec k prev cts).length = cts.length := by
  intro cts
  induction cts with
  | nil => intro prev; rfl
  | cons c rest ih =>
    intro prev
    simp only [cbcDec, List.length_cons, ih c]

theorem cbcDec_all16 (k : Blk) : ∀ (cts : List (List Nat)) (prev : List Nat),
    prev.length = 16 → (∀ bl ∈ cts, bl.length = 16) →
    ∀ bl ∈ cbcDec k prev cts, bl.length = 16 := by
  intro cts
  induction cts with
  | nil =>
    intro prev _ _ bl hbl
    simp [cbcDec] at hbl
  | cons c rest ih =>
    intro prev hprev hall bl hbl
    rcases List.mem_cons.mp hbl with h | h
    · rw [h, xorBytes_length, decB_length, hprev]
      rfl
    · exact ih c (hall c (by simp)) (fun x hx => hall x (by simp [hx])) bl h

theorem cbcDec_getD (k : Blk) : ∀ (cts : List (List Nat)) (prev : List Nat) (q : Nat),
    q < cts.length →
    (cbcDec k prev cts).getD q [] =
      xorBytes (decB k (cts.getD q [])) (if q = 0 then prev else cts.getD (q - 1) []) := by
  intro cts
  induction cts with
  | nil =>
    intro prev q hq
    simp at hq
  | cons c rest ih =>
    intro prev q hq
    cases q with
    | zero => rfl
    | succ m =>
      show (cbcDec k c rest).getD m [] = _
      rw [ih c m (by simpa using hq)]
      cases m with
      | zero => rfl
      | succ m2 => rfl

/-- `PaddingOracle` on a well-formed CBC ciphertext (IV followed by 16-byte
blocks) recovers exactly the chained CBC decryption of the blocks, using
only the oracle's success/failure answers. -/
theorem PaddingOracle_spec (k : Blk) (hk : BlkValid k) (iv : List Nat)
    (cts : List (List Nat)) (hiv : iv.length = 16) (hivv : ValidBytes iv)
    (hall : ∀ bl ∈ cts, bl.length = 16 ∧ ValidBytes bl) :
    PaddingOracle k (iv ++ join cts) = .ok (join (cbcDec k iv cts)) := by
  have hall16 : ∀ bl ∈ cts, bl.length = 16 := fun bl h => (hall bl h).1
  have hsplit : split (iv ++ join cts) = iv :: cts := by
    rw [split_append_16 iv (join cts) hiv, split_join_16 cts hall16]
  have hjlen : (join cts).length = 16 * cts.length := join_length_16 cts hall16
  have helen : (iv ++ join cts).length = 16 + 16 * cts.length := by
    rw [List.length_append, hiv, hjlen]
  have hallb : ∀ bl ∈ iv :: cts, bl.length = 16 ∧ ValidBytes bl := by
    intro bl hbl
    rcases List.mem_cons.mp hbl with h | h
    · rw [h]
      exact ⟨hiv, hivv⟩
    · exact hall bl h
  obtain ⟨df, hloop, hdlen, huntouch, hvals⟩ := blocksLoop_spec k hk (iv :: cts) hallb
    cts.length (by simp) (List.replicate ((iv ++ join cts).length) 0)
    (by simp [helen, List.length_cons]; omega)
  have hd16 : ∀ bl ∈ cbcDec k iv cts, bl.length = 16 := cbcDec_all16 k cts iv hiv hall16
  have hlen1 : (df.drop 16).length = 16 * cts.length := by
    rw [List.length_drop, hdlen, List.length_replicate, helen]
    omega
  have hlen2 : (join (cbcDec k iv cts)).length = 16 * cts.length := by
    rw [join_length_16 _ hd16, cbcDec_length]
  have hdrop : df.drop 16 = join (cbcDec k iv cts) := by
    apply List.ext_getElem (by rw [hlen1, hlen2])
    intro i h1 h2
    rw [← List.getD_eq_getElem (df.drop 16) 0 h1,
      ← List.getD_eq_getElem (join (cbcDec k iv cts)) 0 h2]
    rw [hlen1] at h1
    obtain ⟨q, r, hi, hqlt, hrlt⟩ : ∃ q r, i = 16 * q + r ∧ q < cts.length ∧ r < 16 :=
      ⟨i / 16, i % 16, by omega, by omega, by omega⟩
    subst hi
    have hctsq : (cts.getD q []).length = 16 := hall16 _ (getD_mem_of_lt cts q hqlt)
    rw [getD_drop16, show 16 + (16 * q + r) = 16 * (q + 1) + r from by omega]
    rw [hvals (q + 1) r (by omega) (by omega) hrlt, Nat.add_sub_cancel]
    rw [join_getD_16 _ hd16 q r (by rw [cbcDec_length]; omega) hrlt]
    rw [cbcDec_getD k cts iv q hqlt, List.getD_cons_succ]
    by_cases hq0 : q = 0
    · subst hq0
      rw [if_pos rfl, xorBytes_getD _ _ _ (by rw [decB_length]; omega) (by omega)]
      rfl
    · obtain ⟨q2, rfl⟩ : ∃ q2, q = q2 + 1 := ⟨q - 1, by omega⟩
      have hprevlen : (cts.getD q2 []).length = 16 :=
        hall16 _ (getD_mem_of_lt cts q2 (by omega))
      rw [if_neg (Nat.succ_ne_zero q2), List.getD_cons_succ, Nat.add_sub_cancel]
      rw [xorBytes_getD _ _ _ (by rw [decB_length]; omega) (by omega)]
  simp only [PaddingOracle, hsplit]
  rw [show (iv :: cts).length - 1 = cts.length from by simp]
  simp only [hloop]
  rw [if_neg (by omega), hdrop]

theorem cbcEnc_all (k : Blk) (hk : BlkValid k) : ∀ (blocks : List (List Nat))
    (prev : List Nat), prev.length = 16 → ValidBytes prev →
    (∀ bl ∈ blocks, bl.length = 16 ∧ ValidBytes bl) →
    ∀ bl ∈ cbcEnc k prev blocks, bl.length = 16 ∧ ValidBytes bl := by
  intro blocks
  induction blocks with
  | nil =>
    intro prev _ _ _ bl hbl
    simp [cbcEnc] at hbl
  | cons b rest ih =>
    intro prev hprev hprevv hall bl hbl
    obtain ⟨hb, hbv⟩ := hall b (by simp)
    have hxv : ValidBytes (xorBytes b prev) := xorBytes_valid b prev hbv hprevv
    rcases List.mem_cons.mp hbl with h | h
    · rw [h]
      exact ⟨encB_length k _, encB_valid k _ hk hxv⟩
    · exact ih (encB k (xorBytes b prev)) (encB_length k _) (encB_valid k _ hk hxv)
        (fun x hx => hall x (by simp [hx])) bl h

theorem cbcDec_cbcEnc (k : Blk) (hk : BlkValid k) : ∀ (blocks : List (List Nat))
    (prev : List Nat), prev.length = 16 → ValidBytes prev →
    (∀ bl ∈ blocks, bl.length = 16 ∧ ValidBytes bl) →
    cbcDec k prev (cbcEnc k prev blocks) = blocks := by
  intro blocks
  induction blocks with
  | nil => intro prev _ _ _; rfl
  | cons bl rest ih =>
    intro prev hprev hprevv hall
    obtain ⟨hbl, hblv⟩ := hall bl (by simp)
    have hxlen : (xorBytes bl prev).length = 16 := by
      rw [xorBytes_length, hbl, hprev, Nat.min_self]
    have hxv : ValidBytes (xorBytes bl prev) := xorBytes_valid bl prev hblv hprevv
    simp only [cbcEnc, cbcDec]
    rw [decB_encB k _ hk hxv hxlen, xorBytes_cancel bl prev (by omega),
      ih (encB k (xorBytes bl prev)) (encB_length k _) (encB_valid k _ hk hxv)
        (fun x hx => hall x (by simp [hx]))]

/-- The CBC encryption loop produces exactly the chained pure blocks. -/
theorem encryptBlocksCBC_pure (k : Blk) (hk : BlkValid k) :
    ∀ (blocks : List (List Nat)) (a : AES) (prev : List Nat), AESok k a →
    prev.length = 16 → ValidBytes prev →
    (∀ bl ∈ blocks, bl.length = 16 ∧ ValidBytes bl) →
    ∃ a1, encryptBlocksCBC a prev blocks = .ok (a1, join (cbcEnc k prev blocks)) ∧
      AESok k a1 := by
  intro blocks
  induction blocks with
  | nil => intro a prev ha _ _ _; exact ⟨a, rfl, ha⟩
  | cons bl rest ih =>
    intro a prev ha hprev hprevv hall
    obtain ⟨hbl, hblv⟩ := hall bl (by simp)
    have hxlen : (xorBytes bl prev).length = 16 := by
      rw [xorBytes_length, hbl, hprev, Nat.min_self]
    have hxv : ValidBytes (xorBytes bl prev) := xorBytes_valid bl prev hblv hprevv
    obtain ⟨blk, hblk⟩ := listToBlock_of_long (xorBytes bl prev) (by omega)
    obtain ⟨a1, hrec, ha1⟩ := ih { a with currentRound := 11, roundKeys := keySchedule k }
      (encB k (xorBytes bl prev)) (AESok_next k a 11 ha) (encB_length k _)
      (encB_valid k _ hk hxv) (fun x hx => hall x (by simp [hx]))
    refine ⟨a1, ?_, ha1⟩
    simp only [encryptBlocksCBC, hblk]
    simp only [EncryptBlock_ok k a blk ha]
    simp only [encB, hblk, Option.getD_some] at hrec ⊢
    simp only [hrec]
    simp only [cbcEnc, join, encB, hblk, Option.getD_some]

/-- C3: from a CBC ciphertext (IV prepended) of any plaintext under any key
and IV, the padding-oracle attack — which sees only the oracle's
success/failure answers, with the flip-byte-14 re-query disambiguating
position 15 — returns exactly the padded plaintext, and stripping the
scheme's padding yields the original plaintext. -/
theorem C3_padding_oracle_attack (k : Blk) (hk : BlkValid k) (pt iv : List Nat)
    (hpt : pt ≠ []) (hptv : ValidBytes pt) (hivl : iv.length = 16)
    (hivv : ValidBytes iv) :
    ∃ a1 ct, Encrypt (New k) iv CBC pt = .ok (a1, ct) ∧
      ∃ n, 1 ≤ n ∧ n ≤ 16 ∧
        PaddingOracle k ct = .ok (pt ++ List.replicate n n) ∧
        RemovePadding (pt ++ List.replicate n n) = .ok pt := by
  obtain ⟨blocks, n, hcb, hblk, hbne, hn1, hn16, hjoin, hmod⟩ := createBlocks_spec pt hpt hptv
  obtain ⟨a1, henc, ha1⟩ := encryptBlocksCBC_pure k hk blocks (New k) iv (AESok_New k)
    hivl hivv hblk
  refine ⟨a1, iv ++ join (cbcEnc k iv blocks), ?_, n, hn1, hn16, ?_, ?_⟩
  · rw [Encrypt_CBC]
    unfold encryptCBC
    simp only [hcb]
    rw [if_neg (by omega)]
    simp only [henc]
  · rw [PaddingOracle_spec k hk iv (cbcEnc k iv blocks) hivl hivv
      (cbcEnc_all k hk blocks iv hivl hivv hblk),
      cbcDec_cbcEnc k hk blocks iv hivl hivv hblk, hjoin]
  · exact removePadding_pad pt n hn1 hn16 hmod

theorem C3_padding_oracle_attack_witness :
    BlkValid ⟨0, 1, 2, 3, 4, 5, 6, 7, 8, 9, 10, 11, 12, 13, 14, 15⟩ ∧
    ([42] : List Nat) ≠ [] ∧ ValidBytes [42] ∧
    (List.replicate 16 9).length = 16 ∧ ValidBytes (List.replicate 16 9) ∧
    (∃ a1 ct, Encrypt (New ⟨0, 1, 2, 3, 4, 5, 6, 7, 8, 9, 10, 11, 12, 13, 14, 15⟩)
        (List.replicate 16 9) CBC [42] = .ok (a1, ct) ∧
      ∃ n, 1 ≤ n ∧ n ≤ 16 ∧
        PaddingOracle ⟨0, 1, 2, 3, 4, 5, 6, 7, 8, 9, 10, 11, 12, 13, 14, 15⟩ ct =
          .ok ([42] ++ List.replicate n n) ∧
        RemovePadding ([42] ++ List.replicate n n) = .ok [42]) :=
  ⟨by decide, by decide, by decide, by decide, by decide,
    C3_padding_oracle_attack ⟨0, 1, 2, 3, 4, 5, 6, 7, 8, 9, 10, 11, 12, 13, 14, 15⟩
      (by decide) [42] (List.replicate 16 9) (by decide) (by decide)
      (by decide) (by decide)⟩

end AesGo
